import Mathlib

/-!
# Verification of the UVaAutoScheduler weekday layout engine

A shallow embedding of `src/algorithm/Graph.ts`: the conflict-graph builder
(`constructAdjList`), the two interval schedulers (`intervalScheduling`,
`intervalScheduling2`), the path-depth and fixed-block DFS passes
(`depthFirstSearchRec`, `DFSFindFixed`, `calculateMaxDepth`), the
connected-component `BFS`, and the per-weekday driver `computeBlockPositions`.

The TypeScript code mutates `ScheduleBlock` objects shared by the weekday
array, the scheduler queues and the adjacency lists.  The embedding makes the
mutable store explicit: a block is identified by a stable id (its position in
the original weekday array), `Day.f` maps each id to the current field values
of its block, and `Day.order` is the current arrangement of the mutable array
(the in-place sorts permute `order`, never `f`'s indexing).  `neighbors`
stores ids.  Recursive DFS routines take explicit fuel; all theorems that
rely on a completed traversal carry a `fuel ≥ number of unvisited blocks`
argument, which the drivers satisfy by passing `n`.
-/

namespace UVaSched

/-- One `ScheduleBlock` (models `src/models/ScheduleBlock.ts`, restricted to
the fields the layout engine reads and writes).  Times are minutes since
midnight.  Fresh blocks carry the documented defaults: `depth = 0`,
`left = -1` (the "unset" sentinel), `isFixed = false`, `visited = false`,
empty `neighbors`. -/
structure SB where
  startMin : Int
  endMin : Int
  depth : Nat := 0
  pathDepth : Nat := 0
  visited : Bool := false
  isFixed : Bool := false
  idx : Nat := 0
  left : Rat := -1
  width : Rat := 0
  neighbors : List Nat := []
  deriving Repr, DecidableEq

/-- `duration` getter of `ScheduleBlock`: `endMin - startMin`. -/
def SB.duration (b : SB) : Int := b.endMin - b.startMin

/-- Modelled from the spec: `ScheduleBlock.conflict` is not among the given
sources (only its callers are); spec §4.1 defines the overlap test for the
half-open intervals as `a.start < b.end && b.start < a.end`. -/
def SB.conflict (a b : SB) : Bool := a.startMin < b.endMin && b.startMin < a.endMin

theorem SB.conflict_comm (a b : SB) : a.conflict b = b.conflict a := by
  simp [SB.conflict, Bool.and_comm]

/-- The mutable store of one weekday: `n` blocks, field values `f i` for each
stable id `i < n`, and the current array arrangement `order`. -/
structure Day where
  n : Nat
  f : Nat → SB
  order : List Nat

/-- Point update of one block's fields (an assignment `blocks[i].fld = v`). -/
def Day.upd (st : Day) (i : Nat) (g : SB → SB) : Day :=
  { st with f := fun j => if j = i then g (st.f j) else st.f j }

@[simp] theorem Day.upd_n (st : Day) (i g) : (st.upd i g).n = st.n := rfl

@[simp] theorem Day.upd_order (st : Day) (i g) : (st.upd i g).order = st.order := rfl

theorem Day.upd_f (st : Day) (i g j) :
    (st.upd i g).f j = if j = i then g (st.f j) else st.f j := rfl

@[simp] theorem Day.upd_f_same (st : Day) (i g) : (st.upd i g).f i = g (st.f i) := by
  simp [Day.upd]

theorem Day.upd_f_other (st : Day) {i j : Nat} (g) (h : j ≠ i) :
    (st.upd i g).f j = st.f j := by simp [Day.upd, h]

/-- A fresh weekday built from raw `[startMinute, endMinute)` intervals, all
layout fields at their defaults (the state in which the external
data-placement step hands blocks to the engine). -/
def mkDay (l : List (Int × Int)) : Day :=
  { n := l.length
    f := fun i => { startMin := (l.getD i (0, 0)).1, endMin := (l.getD i (0, 0)).2 }
    order := List.range l.length }

/-! ## constructAdjList -/

/-- One conflict found: `blocks[j].neighbors.push(blocks[i]);
blocks[i].neighbors.push(blocks[j])`. -/
def pushPair (st : Day) (i j : Nat) : Day :=
  (st.upd j (fun b => { b with neighbors := b.neighbors ++ [i] })).upd i
    (fun b => { b with neighbors := b.neighbors ++ [j] })

/-- Inner loop of `constructAdjList`: pair block at array slot `i` with every
later slot `j`. -/
def adjInner (i : Nat) : List Nat → Day → Day
  | [], st => st
  | j :: js, st =>
      adjInner i js (if (st.f i).conflict (st.f j) then pushPair st i j else st)

/-- Outer loop of `constructAdjList`. -/
def adjOuter : List Nat → Day → Day
  | [], st => st
  | i :: rest, st => adjOuter rest (adjInner i rest st)

/-- `constructAdjList` (Graph.ts:19–30): for every unordered pair of array
slots in conflict, append each block to the other's `neighbors`.  Nothing is
cleared first. -/
def constructAdjList (st : Day) : Day := adjOuter st.order st

/-! ## The two sorts -/

/-- The comparator shared by both schedulers: ascending `startMin`, ties by
ascending `duration` (`b1.startMin - b2.startMin`, then
`b1.duration - b2.duration`).  `leStartDur a b` states the comparator does
not require `b` before `a`. -/
def leStartDur (a b : SB) : Bool :=
  a.startMin < b.startMin || (a.startMin == b.startMin && a.duration ≤ b.duration)

/-- `blocks.sort(...)` by `(startMin, duration)`: the in-place sort permutes
the array arrangement.  JS engines' `Array.prototype.sort` is stable;
`List.insertionSort` is the stable sort. -/
def sortByStart (st : Day) : Day :=
  { st with
    order := st.order.insertionSort (fun i j => leStartDur (st.f i) (st.f j) = true) }

/-- `blocks.sort((v1, v2) => v2.depth - v1.depth)`: descending depth. -/
def sortByDepthDesc (st : Day) : Day :=
  { st with
    order := st.order.insertionSort (fun i j => (st.f j).depth ≤ (st.f i).depth) }

/-! ## intervalScheduling (the greedy O(n²) scheduler, Graph.ts:57–90) -/

/-- The inner scan of `intervalScheduling`: over the `occupied` array (with
positions `k`), keep the first position whose representative satisfies
`prevBlock.endMin <= block.startMin && prevBlock.depth < minRoomIdx`;
`none` models `idx === -1`.  Returns the position and its `depth`. -/
def selectRoom (st : Day) (s : Int) (occ : List Nat) : Option (Nat × Nat) :=
  occ.enum.foldl
    (fun acc kp =>
      if (st.f kp.2).endMin ≤ s &&
          (match acc with
           | none => true
           | some kd => decide ((st.f kp.2).depth < kd.2)) then
        some (kp.1, (st.f kp.2).depth)
      else acc)
    none

/-- One iteration of the `intervalScheduling` main loop for block `bid`. -/
def sched1Step (acc : Day × List Nat × Nat) (bid : Nat) : Day × List Nat × Nat :=
  let st := acc.1
  let occ := acc.2.1
  let rooms := acc.2.2
  match selectRoom st (st.f bid).startMin occ with
  | none =>
      (st.upd bid (fun b => { b with depth := rooms + 1 }), occ ++ [bid], rooms + 1)
  | some kd =>
      (st.upd bid (fun b => { b with depth := kd.2 }), occ.set kd.1 bid, rooms)

/-- `intervalScheduling` (Graph.ts:57–90): sort by `(startMin, duration)`,
seed `occupied = [blocks[0]]`, then greedily reuse the lowest-depth free
column.  Returns `numRooms + 1` and the final store. -/
def intervalScheduling (st : Day) : Nat × Day :=
  let st1 := sortByStart st
  match st1.order with
  | [] => (0, st1)
  | b0 :: rest =>
      let r := rest.foldl sched1Step (st1, [b0], 0)
      (r.2.2 + 1, r.1)

/-! ## intervalScheduling2 (the heap-based scheduler, Graph.ts:96–126) -/

/-- The tinyqueue comparator: ascending `(endMin, depth)`. -/
def qLE (st : Day) (i j : Nat) : Bool :=
  (st.f i).endMin < (st.f j).endMin ||
    ((st.f i).endMin == (st.f j).endMin && (st.f i).depth ≤ (st.f j).depth)

/-- Ordered insertion into the priority queue (modelled as a list sorted by
`qLE`; the queue's keys are pairwise distinct in every reachable state, so
any binary heap observes exactly this behavior). -/
def qInsert (st : Day) (i : Nat) : List Nat → List Nat
  | [] => [i]
  | j :: js => if qLE st i j then i :: j :: js else j :: qInsert st i js

/-- One iteration of the `intervalScheduling2` main loop for block `bid`:
peek the minimal-`endMin` room; on conflict open a new room, otherwise pop
and reuse its depth; push `bid`. -/
def sched2Step (acc : Day × List Nat × Nat) (bid : Nat) : Day × List Nat × Nat :=
  let st := acc.1
  let q := acc.2.1
  let rooms := acc.2.2
  match q with
  | [] => (st, [bid], rooms)
  | p :: qrest =>
      if (st.f p).endMin > (st.f bid).startMin then
        let st' := st.upd bid (fun b => { b with depth := rooms + 1 })
        (st', qInsert st' bid (p :: qrest), rooms + 1)
      else
        let st' := st.upd bid (fun b => { b with depth := (st.f p).depth })
        (st', qInsert st' bid qrest, rooms)

/-- `intervalScheduling2` (Graph.ts:96–126). -/
def intervalScheduling2 (st : Day) : Nat × Day :=
  let st1 := sortByStart st
  match st1.order with
  | [] => (0, st1)
  | b0 :: rest =>
      let r := rest.foldl sched2Step (st1, [b0], 0)
      (r.2.2 + 1, r.1)

/-! ## depthFirstSearchRec (Graph.ts:136–145)

`start.visited = true; start.pathDepth = maxDepth;` then recurse into each
unvisited neighbor of strictly lower depth.  Fuel bounds the recursion
depth; one unit is consumed per node marked, so `n` fuel always suffices. -/

/-- The neighbor loop of `depthFirstSearchRec`; `rec` is the recursive call
at the next (one smaller) fuel level. -/
def dfs1List (rec : Nat → Nat → Day → Day) (s m : Nat) : List Nat → Day → Day
  | [], st => st
  | j :: js, st =>
      dfs1List rec s m js
        (if ¬(st.f j).visited ∧ (st.f j).depth < (st.f s).depth then rec j m st
         else st)

def dfs1 : Nat → Nat → Nat → Day → Day
  | 0, _, _, st => st
  | fuel + 1, s, m, st =>
      let st1 := st.upd s (fun b => { b with visited := true, pathDepth := m })
      dfs1List (dfs1 fuel) s m ((st1.f s).neighbors) st1

/-! ## DFSFindFixed (Graph.ts:147–165) -/

/-- The neighbor loop of `DFSFindFixed`; `rec` is the recursive call at the
next (one smaller) fuel level. -/
def dfsFList (rec : Nat → Day → Bool × Day) (s : Nat) :
    List Nat → Bool → Day → Bool × Day
  | [], flag, st => (flag, st)
  | j :: js, flag, st =>
      -- samePath: `startDepth - adj.depth === 1 && pDepth === adj.pathDepth`
      let samePath :=
        (st.f s).depth = (st.f j).depth + 1 ∧ (st.f s).pathDepth = (st.f j).pathDepth
      if (st.f j).visited then
        dfsFList rec s js (((st.f j).isFixed && decide samePath) || flag) st
      else
        if samePath then
          let r := rec j st
          dfsFList rec s js (r.1 || flag) r.2
        else
          dfsFList rec s js flag st

def dfsF : Nat → Nat → Day → Bool × Day
  | 0, _, st => (false, st)
  | fuel + 1, s, st =>
      let st1 := st.upd s (fun b => { b with visited := true })
      if (st1.f s).depth = 0 then
        (true, st1.upd s (fun b => { b with isFixed := true }))
      else
        let r := dfsFList (dfsF fuel) s ((st1.f s).neighbors) false st1
        (r.1, r.2.upd s (fun b => { b with isFixed := r.1 }))

/-! ## calculateMaxDepth (Graph.ts:171–180) -/

/-- `for (const node of blocks) node.visited = false` (over the current
array). -/
def resetVisited (st : Day) : Day :=
  st.order.foldl (fun s i => s.upd i (fun b => { b with visited := false })) st

/-- `calculateMaxDepth`: sort descending by depth; run `depthFirstSearchRec`
from every unvisited node with `maxDepth = node.depth + 1`; reset `visited`;
run `DFSFindFixed` from every unvisited node all of whose neighbors have
strictly lower depth. -/
def calculateMaxDepth (st : Day) : Day :=
  let stA := sortByDepthDesc st
  let stB := stA.order.foldl
    (fun s i => if (s.f i).visited then s else dfs1 s.n i ((s.f i).depth + 1) s) stA
  let stC := resetVisited stB
  stC.order.foldl
    (fun s i =>
      if ¬(s.f i).visited ∧ ((s.f i).neighbors.all fun v => (s.f v).depth < (s.f i).depth)
      then (dfsF s.n i s).2 else s)
    stC

/-! ## BFS (Graph.ts:36–49) and the per-day driver (Graph.ts:185–219) -/

/-- One scan of a dequeued node's neighbors: push unvisited, non-fixed ones. -/
def bfsScan (sc : Day × List Nat) (j : Nat) : Day × List Nat :=
  if ¬(sc.1.f j).visited ∧ ¬(sc.1.f j).isFixed then
    (sc.1.upd j (fun b => { b with visited := true }), sc.2 ++ [j])
  else sc

/-- The `while (qIdx < componentNodes.length)` loop, with fuel. -/
def bfsRun : Nat → Day → List Nat → Nat → Day × List Nat
  | 0, st, comp, _ => (st, comp)
  | fuel + 1, st, comp, q =>
      match comp.drop q with
      | [] => (st, comp)
      | node :: _ =>
          let sc := ((st.f node).neighbors).foldl bfsScan (st, comp)
          bfsRun fuel sc.1 sc.2 (q + 1)

/-- `BFS(start)`: mark `start` visited and flood through unvisited non-fixed
neighbors; returns the updated store (the component list feeds the LP and is
dropped here). -/
def bfsFrom (st : Day) (start : Nat) : Day :=
  (bfsRun (st.n + 1) (st.upd start (fun b => { b with visited := true })) [start] 0).1

/-- `blocks.forEach((b, i) => (b.idx = i))`. -/
def setIdx (st : Day) : Day :=
  st.order.enum.foldl (fun s p => s.upd p.2 (fun b => { b with idx := p.1 })) st

/-- The `total <= 1` branch: `left = 0, width = 1` on every block. -/
def setLW1 (st : Day) : Day :=
  st.order.foldl (fun s i => s.upd i (fun b => { b with left := 0, width := 1 })) st

/-- The heuristic assignment `left = depth / pathDepth, width = 1 / pathDepth`
(numerics modelled exactly in ℚ). -/
def setLW (st : Day) : Day :=
  st.order.foldl
    (fun s i =>
      s.upd i fun b =>
        { b with left := (b.depth : Rat) / (b.pathDepth : Rat),
                 width := 1 / (b.pathDepth : Rat) })
    st

/-- The loop launching one `BFS` per unvisited non-fixed block (the collected
components are handed to the external LP solver, which is outside this
model). -/
def bfsAll (st : Day) : Day :=
  st.order.foldl
    (fun s i => if ¬(s.f i).visited ∧ ¬(s.f i).isFixed then bfsFrom s i else s) st

/-- The body of `computeBlockPositions` for one weekday (Graph.ts:185–219),
up to the heuristic layout: assign `idx`, build the conflict graph, run
`intervalScheduling2`; if at most one column, set `left = 0, width = 1`;
otherwise run `calculateMaxDepth`, set the heuristic `left`/`width`, reset
`visited` and partition into components via `BFS`.  The asynchronous LP
refinement `buildGLPKModel` is external to `src/` and is modelled separately
(`lpFeasible`). -/
def computeDay (st : Day) : Day :=
  let st1 := constructAdjList (setIdx st)
  let r := intervalScheduling2 st1
  if r.1 ≤ 1 then setLW1 r.2
  else
    let st2 := setLW (calculateMaxDepth r.2)
    bfsAll (resetVisited st2)

/-! ## The LP refinement, modelled from the spec -/

/-- Horizontal ranges `[l1, l1 + w1)` and `[l2, l2 + w2)` are disjoint. -/
def disjointIv (l1 w1 l2 w2 : Rat) : Prop := l1 + w1 ≤ l2 ∨ l2 + w2 ≤ l1

/-- Modelled from the spec: the LP formulation `buildGLPKModel`
(`src/algorithm/LP.ts`) is not among the given sources.  Spec §4.6: the
variables are the non-fixed blocks' `left`/`width`; `isFixed` blocks are left
untouched; `0 ≤ left` and `left + width ≤ 1` for every block; and for every
adjacent (conflicting) pair, order fixed by depth,
`block_j.left ≥ block_i.left + block_i.width` whenever `depth_i < depth_j`.
`lpFeasible st L W` says the assignment `L`/`W` satisfies those constraints
over the laid-out day `st`; any solution the solver returns satisfies it. -/
def lpFeasible (st : Day) (L W : Nat → Rat) : Prop :=
  (∀ i < st.n, (st.f i).isFixed → L i = (st.f i).left ∧ W i = (st.f i).width) ∧
  (∀ i < st.n, 0 ≤ L i ∧ L i + W i ≤ 1) ∧
  (∀ i < st.n, ∀ j ∈ (st.f i).neighbors, j < st.n →
    (st.f i).depth < (st.f j).depth → L i + W i ≤ L j)

/-! ## Reference quantities -/

/-- Number of blocks active at instant `t` (`startMin ≤ t < endMin`). -/
def countActive (st : Day) (t : Int) : Nat :=
  ((List.range st.n).filter fun i => (st.f i).startMin ≤ t ∧ t < (st.f i).endMin).length

/-- The maximum number of blocks simultaneously active at any instant (the
maximum is attained at some block's start). -/
def maxOverlap (st : Day) : Nat :=
  ((List.range st.n).map fun i => countActive st (st.f i).startMin).foldr max 0

/-- The number of distinct `depth` values in use. -/
def distinctDepths (st : Day) : Nat :=
  ((Finset.range st.n).image fun i => (st.f i).depth).card

/-- Number of unvisited blocks (the fuel measure of the DFS routines). -/
def unvisitedCount (st : Day) : Nat :=
  ((List.range st.n).filter fun i => ¬(st.f i).visited).length

/-! ## Basic utilities -/

theorem unvisitedCount_le (st : Day) : unvisitedCount st ≤ st.n := by
  calc ((List.range st.n).filter fun i => ¬(st.f i).visited).length
      ≤ (List.range st.n).length := (List.filter_sublist _).length_le
    _ = st.n := List.length_range _

theorem unvisitedCount_congr {s t : Day} (hn : s.n = t.n)
    (h : ∀ i < s.n, (s.f i).visited = (t.f i).visited) :
    unvisitedCount s = unvisitedCount t := by
  unfold unvisitedCount
  rw [hn]
  congr 1
  refine List.filter_congr fun i hi => ?_
  rw [List.mem_range] at hi
  rw [h i (hn ▸ hi)]

theorem unvisitedCount_mono {s t : Day} (hn : s.n = t.n)
    (h : ∀ i, (s.f i).visited → (t.f i).visited) :
    unvisitedCount t ≤ unvisitedCount s := by
  unfold unvisitedCount
  rw [hn, ← List.countP_eq_length_filter, ← List.countP_eq_length_filter]
  refine List.countP_mono_left fun i _ hi => ?_
  simp only [decide_eq_true_eq] at hi ⊢
  intro hv
  exact hi (h i hv)

/-- Marking one unvisited block visited decreases `unvisitedCount` by one. -/
theorem unvisitedCount_mark {st : Day} {s : Nat} {g : SB → SB}
    (hs : s < st.n) (hv : ¬(st.f s).visited)
    (hg : ∀ b, (g b).visited = true) :
    unvisitedCount (st.upd s g) + 1 = unvisitedCount st := by
  have hmem : s ∈ List.range st.n := List.mem_range.2 hs
  obtain ⟨l₁, l₂, hsplit⟩ := List.append_of_mem hmem
  have hnd : (List.range st.n).Nodup := List.nodup_range _
  rw [hsplit] at hnd
  have hs1 : s ∉ l₁ := by
    intro hx
    rcases List.nodup_append.1 hnd with ⟨_, _, hdisj⟩
    exact hdisj hx (List.mem_cons_self _ _)
  have hs2 : s ∉ l₂ := by
    rcases List.nodup_append.1 hnd with ⟨_, hnd2, _⟩
    exact (List.nodup_cons.1 hnd2).1
  unfold unvisitedCount
  rw [Day.upd_n, hsplit]
  rw [List.filter_append, List.filter_append, List.filter_cons, List.filter_cons]
  have hcong : ∀ l : List Nat, s ∉ l →
      (l.filter fun i => ¬((st.upd s g).f i).visited) =
      (l.filter fun i => ¬(st.f i).visited) := by
    intro l hsl
    refine List.filter_congr fun x hx => ?_
    have hxs : x ≠ s := fun he => hsl (he ▸ hx)
    rw [Day.upd_f_other _ _ hxs]
  rw [hcong l₁ hs1, hcong l₂ hs2]
  have h1 : (decide ¬((st.upd s g).f s).visited) = false := by
    simp [Day.upd_f_same, hg]
  have h2 : (decide ¬(st.f s).visited) = true := by simp [hv]
  rw [h1, h2]
  simp only [Bool.false_eq_true, if_false, if_true, List.length_append, List.length_cons]
  omega

/-! ## Characterization of constructAdjList -/

/-- Forget the `neighbors` field (used to state that an operation touches
nothing but `neighbors`). -/
def eraseNb (b : SB) : SB := { b with neighbors := [] }

theorem eraseNb_startMin {b b' : SB} (h : eraseNb b = eraseNb b') :
    b.startMin = b'.startMin := by
  have := congrArg SB.startMin h
  simpa [eraseNb] using this

theorem eraseNb_endMin {b b' : SB} (h : eraseNb b = eraseNb b') :
    b.endMin = b'.endMin := by
  have := congrArg SB.endMin h
  simpa [eraseNb] using this

theorem conflict_congr {b c b' c' : SB} (hb : eraseNb b = eraseNb b')
    (hc : eraseNb c = eraseNb c') : b.conflict c = b'.conflict c' := by
  simp [SB.conflict, eraseNb_startMin hb, eraseNb_endMin hb,
    eraseNb_startMin hc, eraseNb_endMin hc]

theorem eraseNb_pushPair (st : Day) (i j a : Nat) :
    eraseNb ((pushPair st i j).f a) = eraseNb (st.f a) := by
  simp only [pushPair, Day.upd, eraseNb]
  split_ifs <;> rfl

theorem pushPair_nbrs (st : Day) {i j : Nat} (hij : i ≠ j) (a : Nat) :
    ((pushPair st i j).f a).neighbors =
      (st.f a).neighbors ++ (if a = i then [j] else if a = j then [i] else []) := by
  unfold pushPair
  rcases eq_or_ne a i with rfl | hai
  · rw [Day.upd_f_same, Day.upd_f_other _ _ hij]
    simp [hij]
  · rw [Day.upd_f_other _ _ hai]
    rcases eq_or_ne a j with rfl | haj
    · rw [Day.upd_f_same]
      simp [hai]
    · rw [Day.upd_f_other _ _ haj]
      simp [hai, haj]

theorem eraseNb_adjInner (i : Nat) (js : List Nat) (st : Day) (a : Nat) :
    eraseNb ((adjInner i js st).f a) = eraseNb (st.f a) := by
  induction js generalizing st with
  | nil => rfl
  | cons j js ih =>
      rw [adjInner, ih]
      split
      · rw [eraseNb_pushPair]
      · rfl

@[simp] theorem adjInner_n (i : Nat) (js : List Nat) (st : Day) :
    (adjInner i js st).n = st.n := by
  induction js generalizing st with
  | nil => rfl
  | cons j js ih => rw [adjInner, ih]; split <;> rfl

@[simp] theorem adjInner_order (i : Nat) (js : List Nat) (st : Day) :
    (adjInner i js st).order = st.order := by
  induction js generalizing st with
  | nil => rfl
  | cons j js ih => rw [adjInner, ih]; split <;> rfl

theorem adjInner_nbrs (i : Nat) (js : List Nat) (hnd : js.Nodup) (hi : i ∉ js)
    (st : Day) (a : Nat) :
    ((adjInner i js st).f a).neighbors =
      (st.f a).neighbors ++
        (if a = i then js.filter (fun j => (st.f i).conflict (st.f j))
         else if a ∈ js ∧ (st.f i).conflict (st.f a) = true then [i] else []) := by
  induction js generalizing st with
  | nil => simp [adjInner]
  | cons j js ih =>
      have hnd' : js.Nodup := (List.nodup_cons.1 hnd).2
      have hjjs : j ∉ js := (List.nodup_cons.1 hnd).1
      have hi' : i ∉ js := fun h => hi (List.mem_cons_of_mem _ h)
      have hij : i ≠ j := fun h => hi (h ▸ List.mem_cons_self _ _)
      rw [adjInner]
      set st' := if (st.f i).conflict (st.f j) = true then pushPair st i j else st with hst'
      have hframe : ∀ b, eraseNb (st'.f b) = eraseNb (st.f b) := by
        intro b
        rw [hst']
        split
        · exact eraseNb_pushPair st i j b
        · rfl
      have hconf : ∀ b c, (st'.f b).conflict (st'.f c) = (st.f b).conflict (st.f c) :=
        fun b c => conflict_congr (hframe b) (hframe c)
      rw [ih hnd' hi' st']
      have hnbrs' : (st'.f a).neighbors =
          (st.f a).neighbors ++
            (if (st.f i).conflict (st.f j) = true then
              (if a = i then [j] else if a = j then [i] else []) else []) := by
        rw [hst']
        split
        · rw [pushPair_nbrs st hij a]
        · simp
      rw [hnbrs']
      simp only [List.filter_congr (fun x _ => hconf i x), hconf i a]
      rcases eq_or_ne a i with rfl | hai
      · simp only [if_pos rfl, List.append_assoc]
        congr 1
        rw [List.filter_cons]
        by_cases hc : (st.f a).conflict (st.f j) = true
        · simp [hc, hij.symm]
        · simp only [hc, if_neg]
          simp only [Bool.not_eq_true] at hc
          simp [hc, hij.symm]
      · simp only [if_neg hai, List.append_assoc]
        congr 1
        rcases eq_or_ne a j with rfl | haj
        · have hmem : a ∈ a :: js := List.mem_cons_self _ _
          by_cases hc : (st.f i).conflict (st.f a) = true
          · simp [hc, hai, hjjs, hmem]
          · simp only [Bool.not_eq_true] at hc
            simp [hc, hai, hjjs]
        · have : (a ∈ j :: js) ↔ (a ∈ js) := by simp [haj]
          simp [hai, haj, this]

theorem eraseNb_adjOuter (ord : List Nat) (st : Day) (a : Nat) :
    eraseNb ((adjOuter ord st).f a) = eraseNb (st.f a) := by
  induction ord generalizing st with
  | nil => rfl
  | cons i rest ih => rw [adjOuter, ih, eraseNb_adjInner]

@[simp] theorem adjOuter_n (ord : List Nat) (st : Day) : (adjOuter ord st).n = st.n := by
  induction ord generalizing st with
  | nil => rfl
  | cons i rest ih => rw [adjOuter, ih, adjInner_n]

@[simp] theorem adjOuter_order (ord : List Nat) (st : Day) :
    (adjOuter ord st).order = st.order := by
  induction ord generalizing st with
  | nil => rfl
  | cons i rest ih => rw [adjOuter, ih, adjInner_order]

/-- The neighbor entries `constructAdjList` appends to block `a` when run on
arrangement `ord`: every other block of `ord` in conflict with `a`, in `ord`
order. -/
def conflictNbrs (st : Day) (ord : List Nat) (a : Nat) : List Nat :=
  if a ∈ ord then ord.filter (fun j => j ≠ a ∧ (st.f a).conflict (st.f j) = true) else []

theorem conflictNbrs_congr {s t : Day} (h : ∀ b, eraseNb (s.f b) = eraseNb (t.f b))
    (ord : List Nat) (a : Nat) : conflictNbrs s ord a = conflictNbrs t ord a := by
  unfold conflictNbrs
  split
  · refine List.filter_congr fun x _ => ?_
    rw [conflict_congr (h a) (h x)]
  · rfl

theorem conflictNbrs_not_mem {st : Day} {ord : List Nat} {a : Nat} (h : a ∉ ord) :
    conflictNbrs st ord a = [] := by
  unfold conflictNbrs
  rw [if_neg h]

theorem conflictNbrs_cons_self {st : Day} {rest : List Nat} {a : Nat} (ha : a ∉ rest) :
    conflictNbrs st (a :: rest) a =
      rest.filter (fun j => (st.f a).conflict (st.f j)) := by
  unfold conflictNbrs
  rw [if_pos (List.mem_cons_self a rest), List.filter_cons, if_neg (by simp)]
  refine List.filter_congr fun x hx => ?_
  have hxa : x ≠ a := fun h => ha (h ▸ hx)
  simp [hxa]

theorem conflictNbrs_cons_other {st : Day} {rest : List Nat} {i a : Nat} (hai : a ≠ i) :
    conflictNbrs st (i :: rest) a =
      (if a ∈ rest ∧ (st.f i).conflict (st.f a) = true then [i] else []) ++
        conflictNbrs st rest a := by
  unfold conflictNbrs
  rcases Decidable.em (a ∈ rest) with hm | hm
  · rw [if_pos (List.mem_cons_of_mem _ hm), if_pos hm, List.filter_cons]
    by_cases hc : (st.f i).conflict (st.f a) = true
    · have hd : (decide (i ≠ a ∧ (st.f a).conflict (st.f i) = true)) = true := by
        refine decide_eq_true ⟨fun h => hai h.symm, ?_⟩
        rw [SB.conflict_comm]
        exact hc
      simp [hd, hm, hc]
    · have hd : ¬(decide (i ≠ a ∧ (st.f a).conflict (st.f i) = true) = true) := by
        simp only [decide_eq_true_eq]
        rintro ⟨-, h2⟩
        rw [SB.conflict_comm] at h2
        exact hc h2
      simp only [hm, hc, and_false, false_and, if_neg, if_pos, and_true]
      rw [if_neg hd]
      simp
  · have hm1 : a ∉ i :: rest := by simp [hai, hm]
    rw [if_neg hm1, if_neg hm]
    simp [hm]

theorem adjOuter_nbrs (ord : List Nat) (hnd : ord.Nodup) (st : Day) (a : Nat) :
    ((adjOuter ord st).f a).neighbors =
      (st.f a).neighbors ++ conflictNbrs st ord a := by
  induction ord generalizing st with
  | nil => simp [adjOuter, conflictNbrs]
  | cons i rest ih =>
      have hnd' : rest.Nodup := (List.nodup_cons.1 hnd).2
      have hirest : i ∉ rest := (List.nodup_cons.1 hnd).1
      rw [adjOuter, ih hnd', adjInner_nbrs i rest hnd' hirest st a, List.append_assoc,
        conflictNbrs_congr (eraseNb_adjInner i rest st) rest a]
      congr 1
      rcases eq_or_ne a i with rfl | hai
      · rw [if_pos rfl, conflictNbrs_cons_self hirest, conflictNbrs_not_mem hirest,
          List.append_nil]
      · rw [if_neg hai, conflictNbrs_cons_other hai]

/-- Membership form: after `constructAdjList`, `j` is a neighbor of `i` iff it
already was one or the pair is a conflicting pair of the arrangement. -/
theorem constructAdjList_mem (st : Day) (hnd : st.order.Nodup) (i j : Nat) :
    (j ∈ ((constructAdjList st).f i).neighbors) ↔
      (j ∈ (st.f i).neighbors ∨
        (i ∈ st.order ∧ j ∈ st.order ∧ j ≠ i ∧ (st.f i).conflict (st.f j) = true)) := by
  unfold constructAdjList
  rw [adjOuter_nbrs st.order hnd st i, List.mem_append]
  unfold conflictNbrs
  constructor
  · rintro (h | h)
    · exact Or.inl h
    · right
      split at h
      · rw [List.mem_filter] at h
        have := of_decide_eq_true h.2
        exact ⟨by assumption, h.1, this.1, this.2⟩
      · simp at h
  · rintro (h | ⟨h1, h2, h3, h4⟩)
    · exact Or.inl h
    · right
      rw [if_pos h1, List.mem_filter]
      exact ⟨h2, decide_eq_true (by exact ⟨h3, h4⟩)⟩

/-! ## Sorting lemmas -/

theorem leStartDur_trans (a b c : SB) (h1 : leStartDur a b = true)
    (h2 : leStartDur b c = true) : leStartDur a c = true := by
  simp only [leStartDur, SB.duration, Bool.or_eq_true, decide_eq_true_eq,
    Bool.and_eq_true, beq_iff_eq] at *
  omega

theorem leStartDur_total (a b : SB) : (leStartDur a b || leStartDur b a) = true := by
  simp only [leStartDur, SB.duration, Bool.or_eq_true, decide_eq_true_eq,
    Bool.and_eq_true, beq_iff_eq]
  omega

@[simp] theorem sortByStart_n (st : Day) : (sortByStart st).n = st.n := rfl

@[simp] theorem sortByStart_f (st : Day) : (sortByStart st).f = st.f := rfl

theorem sortByStart_perm (st : Day) : (sortByStart st).order.Perm st.order :=
  List.perm_insertionSort _ st.order

theorem sortByStart_sorted (st : Day) :
    (sortByStart st).order.Pairwise
      (fun i j => leStartDur (st.f i) (st.f j) = true) := by
  letI : IsTotal Nat (fun i j => leStartDur (st.f i) (st.f j) = true) :=
    ⟨fun a b => by
      have h := leStartDur_total (st.f a) (st.f b)
      simp only [Bool.or_eq_true] at h
      exact h⟩
  letI : IsTrans Nat (fun i j => leStartDur (st.f i) (st.f j) = true) :=
    ⟨fun a b c h1 h2 => leStartDur_trans _ _ _ h1 h2⟩
  exact List.sorted_insertionSort _ st.order

@[simp] theorem sortByDepthDesc_n (st : Day) : (sortByDepthDesc st).n = st.n := rfl

@[simp] theorem sortByDepthDesc_f (st : Day) : (sortByDepthDesc st).f = st.f := rfl

theorem sortByDepthDesc_perm (st : Day) : (sortByDepthDesc st).order.Perm st.order :=
  List.perm_insertionSort _ st.order

theorem sortByDepthDesc_sorted (st : Day) :
    (sortByDepthDesc st).order.Pairwise
      (fun i j => (st.f j).depth ≤ (st.f i).depth) := by
  letI : IsTotal Nat (fun i j => (st.f j).depth ≤ (st.f i).depth) :=
    ⟨fun a b => Nat.le_total (st.f b).depth (st.f a).depth⟩
  letI : IsTrans Nat (fun i j => (st.f j).depth ≤ (st.f i).depth) :=
    ⟨fun a b c h1 h2 => le_trans h2 h1⟩
  exact List.sorted_insertionSort _ st.order

/-! ## Small list utilities -/

theorem le_foldr_max {l : List Nat} {x : Nat} (hx : x ∈ l) : x ≤ l.foldr max 0 := by
  induction l with
  | nil => cases hx
  | cons a l ih =>
      rcases List.mem_cons.1 hx with rfl | hx'
      · exact Nat.le_max_left _ _
      · exact le_trans (ih hx') (Nat.le_max_right _ _)

theorem foldr_max_le {l : List Nat} {c : Nat} (h : ∀ x ∈ l, x ≤ c) :
    l.foldr max 0 ≤ c := by
  induction l with
  | nil => exact Nat.zero_le _
  | cons a l ih =>
      exact max_le (h a (List.mem_cons_self _ _))
        (ih fun x hx => h x (List.mem_cons_of_mem _ hx))

/-- A duplicate-free list of naturals all below `c` has at most `c` elements. -/
theorem nodup_bounded_length {l : List Nat} {c : Nat} (hnd : l.Nodup)
    (h : ∀ x ∈ l, x < c) : l.length ≤ c := by
  have hsub : l ⊆ List.range c := fun x hx => List.mem_range.2 (h x hx)
  have := (List.subperm_of_subset hnd hsub).length_le
  simpa using this

/-- A duplicate-free sublist-by-membership bounds length. -/
theorem nodup_subset_length {l m : List α} (hnd : l.Nodup) (h : l ⊆ m) :
    l.length ≤ m.length :=
  (List.subperm_of_subset hnd h).length_le

/-- Injectivity on members of a list whose image is duplicate-free. -/
theorem map_nodup_inj {l : List α} {f : α → β} (hnd : (l.map f).Nodup)
    {x y : α} (hx : x ∈ l) (hy : y ∈ l) (hf : f x = f y) : x = y := by
  induction l with
  | nil => cases hx
  | cons a l ih =>
      rw [List.map_cons, List.nodup_cons] at hnd
      rcases List.mem_cons.1 hx with rfl | hx' <;> rcases List.mem_cons.1 hy with rfl | hy'
      · rfl
      · exact absurd (hf ▸ List.mem_map_of_mem f hy') hnd.1
      · exact absurd (hf ▸ List.mem_map_of_mem f hx') hnd.1
      · exact ih hnd.2 hx' hy'

theorem qInsert_perm (st : Day) (i : Nat) (l : List Nat) :
    (qInsert st i l).Perm (i :: l) := by
  induction l with
  | nil => rfl
  | cons j js ih =>
      rw [qInsert]
      split
      · rfl
      · exact (List.Perm.cons j ih).trans (List.Perm.swap i j js)

theorem qLE_total (st : Day) (x y : Nat) : qLE st x y = true ∨ qLE st y x = true := by
  simp only [qLE, Bool.or_eq_true, decide_eq_true_eq, Bool.and_eq_true, beq_iff_eq]
  omega

theorem qLE_trans (st : Day) (x y z : Nat) (h1 : qLE st x y = true)
    (h2 : qLE st y z = true) : qLE st x z = true := by
  simp only [qLE, Bool.or_eq_true, decide_eq_true_eq, Bool.and_eq_true, beq_iff_eq] at *
  omega

theorem qInsert_sorted (st : Day) (i : Nat) {l : List Nat}
    (hl : l.Pairwise (fun a b => qLE st a b = true)) :
    (qInsert st i l).Pairwise (fun a b => qLE st a b = true) := by
  induction l with
  | nil => simp [qInsert]
  | cons j js ih =>
      rw [qInsert]
      split
      · rename_i hij
        refine List.pairwise_cons.2 ⟨?_, hl⟩
        intro b hb
        rcases List.mem_cons.1 hb with rfl | hb'
        · exact hij
        · have hjb := (List.pairwise_cons.1 hl).1 b hb'
          exact qLE_trans st i j b hij hjb
      · rename_i hij
        have hji : qLE st j i = true := by
          rcases qLE_total st i j with h | h
          · exact absurd h hij
          · exact h
        rcases List.pairwise_cons.1 hl with ⟨hjall, hjs⟩
        refine List.pairwise_cons.2 ⟨?_, ih hjs⟩
        intro b hb
        have := (qInsert_perm st i js).mem_iff.1 hb
        rcases List.mem_cons.1 this with rfl | hb'
        · exact hji
        · exact hjall b hb'

/-! ## Invariants of intervalScheduling2 -/

theorem depthFrame_startMin {b c : SB} (h : b = { c with depth := b.depth }) :
    b.startMin = c.startMin := by rw [h]

theorem depthFrame_endMin {b c : SB} (h : b = { c with depth := b.depth }) :
    b.endMin = c.endMin := by rw [h]

theorem qLE_congr {s t : Day} {x y : Nat} (hx : s.f x = t.f x) (hy : s.f y = t.f y) :
    qLE s x y = qLE t x y := by simp [qLE, hx, hy]

theorem countActive_congr {s t : Day} (hn : s.n = t.n)
    (h : ∀ i < s.n, (s.f i).startMin = (t.f i).startMin ∧ (s.f i).endMin = (t.f i).endMin)
    (x : Int) : countActive s x = countActive t x := by
  unfold countActive
  rw [hn]
  congr 1
  refine List.filter_congr fun i hi => ?_
  rw [List.mem_range] at hi
  rcases h i (hn ▸ hi) with ⟨h1, h2⟩
  rw [h1, h2]

theorem maxOverlap_congr {s t : Day} (hn : s.n = t.n)
    (h : ∀ i < s.n, (s.f i).startMin = (t.f i).startMin ∧ (s.f i).endMin = (t.f i).endMin) :
    maxOverlap s = maxOverlap t := by
  unfold maxOverlap
  rw [hn]
  congr 1
  refine List.map_congr_left fun i hi => ?_
  rw [List.mem_range] at hi
  rw [countActive_congr hn h, (h i (hn ▸ hi)).1]

theorem countActive_le_maxOverlap (st : Day) {i : Nat} (hi : i < st.n) :
    countActive st (st.f i).startMin ≤ maxOverlap st :=
  le_foldr_max (List.mem_map_of_mem _ (List.mem_range.2 hi))

/-- Counting active blocks from below: a duplicate-free list of ids `< n`,
all active at `t`, bounds `countActive` from below. -/
theorem length_le_countActive {st : Day} {l : List Nat} {t : Int}
    (hnd : l.Nodup) (hn : ∀ x ∈ l, x < st.n)
    (hact : ∀ x ∈ l, (st.f x).startMin ≤ t ∧ t < (st.f x).endMin) :
    l.length ≤ countActive st t := by
  unfold countActive
  refine nodup_subset_length hnd fun x hx => ?_
  rw [List.mem_filter, List.mem_range]
  exact ⟨hn x hx, decide_eq_true (hact x hx)⟩

/-- The inductive invariant of the `intervalScheduling2` main loop.  `seen`
is the list of already-processed blocks (the sorted head plus the processed
prefix); the accumulator carries the store, the queue and `numRooms`. -/
structure S2Inv (st0 : Day) (seen : List Nat) (acc : Day × List Nat × Nat) : Prop where
  hn : acc.1.n = st0.n
  horder : acc.1.order = st0.order
  hframe : ∀ j, acc.1.f j = { st0.f j with depth := (acc.1.f j).depth }
  huntouched : ∀ j, j ∉ seen → acc.1.f j = st0.f j
  hq_sub : ∀ x ∈ acc.2.1, x ∈ seen
  hq_sorted : acc.2.1.Pairwise (fun a b => qLE acc.1 a b = true)
  hq_depths : (acc.2.1.map fun x => (acc.1.f x).depth).Perm (List.range (acc.2.2 + 1))
  hseen_le : ∀ x ∈ seen, (acc.1.f x).depth ≤ acc.2.2
  hchain : ∀ x ∈ seen, ∃ y ∈ acc.2.1, (acc.1.f y).depth = (acc.1.f x).depth ∧
    (acc.1.f x).endMin ≤ (acc.1.f y).endMin
  hproper : ∀ x ∈ seen, ∀ y ∈ seen, x ≠ y → (acc.1.f x).depth = (acc.1.f y).depth →
    (st0.f x).conflict (st0.f y) = false
  hbound : acc.2.2 = 0 ∨ acc.2.2 + 1 ≤ maxOverlap st0

theorem S2Inv.q_nodup {st0 seen acc} (h : S2Inv st0 seen acc) : acc.2.1.Nodup :=
  List.Nodup.of_map _ (h.hq_depths.symm.nodup (List.nodup_range _))

theorem S2Inv.q_ne_nil {st0 seen acc} (h : S2Inv st0 seen acc) : acc.2.1 ≠ [] := by
  intro hnil
  have := h.hq_depths.length_eq
  rw [hnil] at this
  simp at this

theorem leStartDur_start_le {a b : SB} (h : leStartDur a b = true) :
    a.startMin ≤ b.startMin := by
  simp only [leStartDur, SB.duration, Bool.or_eq_true, decide_eq_true_eq,
    Bool.and_eq_true, beq_iff_eq] at h
  omega

theorem qLE_end_le {st : Day} {a b : Nat} (h : qLE st a b = true) :
    (st.f a).endMin ≤ (st.f b).endMin := by
  simp only [qLE, Bool.or_eq_true, decide_eq_true_eq, Bool.and_eq_true, beq_iff_eq] at h
  omega

/-- One step of the `intervalScheduling2` loop preserves the invariant. -/
theorem sched2Step_inv {st0 : Day} {seen : List Nat} {bid : Nat}
    {st : Day} {q : List Nat} {rooms : Nat}
    (hwf : ∀ i < st0.n, (st0.f i).startMin < (st0.f i).endMin)
    (hordperm : st0.order.Perm (List.range st0.n))
    (hseen_sub : ∀ x ∈ seen, x ∈ st0.order)
    (hbid_ord : bid ∈ st0.order)
    (hbid_new : bid ∉ seen)
    (hle : ∀ x ∈ seen, leStartDur (st0.f x) (st0.f bid) = true)
    (hinv : S2Inv st0 seen (st, q, rooms)) :
    S2Inv st0 (seen ++ [bid]) (sched2Step (st, q, rooms) bid) := by
  obtain ⟨p, qrest, rfl⟩ : ∃ p qrest, q = p :: qrest := by
    cases q with
    | nil => exact absurd rfl hinv.q_ne_nil
    | cons p qrest => exact ⟨p, qrest, rfl⟩
  have hq_nodup : (p :: qrest).Nodup := hinv.q_nodup
  obtain ⟨hn, horder, hframe, hunt, hq_sub, hq_sorted, hq_depths, hseen_le,
    hchain, hproper, hbound⟩ := hinv
  dsimp only at hn horder hframe hunt hq_sub hq_sorted
  dsimp only at hq_depths hseen_le hchain hproper hbound
  have hstart : ∀ j, (st.f j).startMin = (st0.f j).startMin :=
    fun j => depthFrame_startMin (hframe j)
  have hend : ∀ j, (st.f j).endMin = (st0.f j).endMin :=
    fun j => depthFrame_endMin (hframe j)
  have hmem_lt : ∀ x, x ∈ st0.order → x < st0.n :=
    fun x hx => List.mem_range.1 (hordperm.mem_iff.1 hx)
  have hbid_lt : bid < st0.n := hmem_lt bid hbid_ord
  have hbid_frame : st.f bid = st0.f bid := hunt bid hbid_new
  have hq_ne_bid : ∀ y ∈ p :: qrest, y ≠ bid :=
    fun y hy he => hbid_new (he ▸ hq_sub y hy)
  have hp_seen : p ∈ seen := hq_sub p (List.mem_cons_self _ _)
  have hq_len : qrest.length + 1 = rooms + 1 := by
    have := hq_depths.length_eq
    simpa using this
  have hqmap_nodup : ((p :: qrest).map fun x => (st.f x).depth).Nodup :=
    hq_depths.symm.nodup (List.nodup_range _)
  -- the two branches of the step
  show S2Inv st0 (seen ++ [bid]) (sched2Step (st, p :: qrest, rooms) bid)
  rw [sched2Step]
  dsimp only
  split
  case isTrue hcond =>
    -- conflict with the minimal-end room: open a new room
    set st' := st.upd bid (fun b => { b with depth := rooms + 1 }) with hst'
    have hf_bid : st'.f bid = { st0.f bid with depth := rooms + 1 } := by
      rw [hst', Day.upd_f_same, hbid_frame]
    have hf_other : ∀ j, j ≠ bid → st'.f j = st.f j :=
      fun j hj => Day.upd_f_other st _ hj
    have hdep_bid : (st'.f bid).depth = rooms + 1 := by rw [hf_bid]
    have hperm_q : (qInsert st' bid (p :: qrest)).Perm (bid :: p :: qrest) :=
      qInsert_perm _ _ _
    refine ⟨?_, ?_, ?_, ?_, ?_, ?_, ?_, ?_, ?_, ?_, ?_⟩ <;> dsimp only
    · exact hn
    · exact horder
    · intro j
      rcases eq_or_ne j bid with rfl | hj
      · rw [hf_bid]
      · rw [hf_other j hj, hframe j]
    · intro j hj
      rw [List.mem_append, List.mem_singleton] at hj
      push_neg at hj
      rw [hf_other j hj.2, hunt j hj.1]
    · intro x hx
      rcases List.mem_cons.1 (hperm_q.mem_iff.1 hx) with rfl | hx'
      · exact List.mem_append.2 (Or.inr (List.mem_singleton.2 rfl))
      · exact List.mem_append.2 (Or.inl (hq_sub x hx'))
    · refine qInsert_sorted st' bid ?_
      refine hq_sorted.imp_of_mem ?_
      intro a b ha hb hab
      rw [qLE_congr (hf_other a (hq_ne_bid a ha)) (hf_other b (hq_ne_bid b hb))]
      exact hab
    · refine ((hperm_q.map fun x => (st'.f x).depth).trans ?_)
      rw [List.map_cons, hdep_bid]
      have hcongr : ((p :: qrest).map fun x => (st'.f x).depth)
          = ((p :: qrest).map fun x => (st.f x).depth) :=
        List.map_congr_left fun a ha => by rw [hf_other a (hq_ne_bid a ha)]
      rw [hcongr]
      refine (hq_depths.cons (rooms + 1)).trans ?_
      rw [show List.range (rooms + 1 + 1) = List.range (rooms + 1) ++ [rooms + 1] from
        List.range_succ _]
      exact (List.perm_append_singleton _ _).symm
    · intro x hx
      rcases List.mem_append.1 hx with hx' | hx'
      · rw [hf_other x (fun he => hbid_new (he ▸ hx'))]
        exact le_trans (hseen_le x hx') (Nat.le_succ _)
      · rw [List.mem_singleton.1 hx', hdep_bid]
    · intro x hx
      rcases List.mem_append.1 hx with hx' | hx'
      · obtain ⟨y, hy, hydep, hyend⟩ := hchain x hx'
        have hyne : y ≠ bid := hq_ne_bid y hy
        have hxne : x ≠ bid := fun he => hbid_new (he ▸ hx')
        refine ⟨y, hperm_q.mem_iff.2 (List.mem_cons_of_mem _ hy), ?_, ?_⟩
        · rw [hf_other y hyne, hf_other x hxne, hydep]
        · rw [hf_other y hyne, hf_other x hxne]
          exact hyend
      · rw [List.mem_singleton.1 hx']
        exact ⟨bid, hperm_q.mem_iff.2 (List.mem_cons_self _ _), rfl, le_refl _⟩
    · intro x hx y hy hxy hdep
      rcases List.mem_append.1 hx with hx' | hx' <;>
        rcases List.mem_append.1 hy with hy' | hy'
      · have hxne : x ≠ bid := fun he => hbid_new (he ▸ hx')
        have hyne : y ≠ bid := fun he => hbid_new (he ▸ hy')
        rw [hf_other x hxne, hf_other y hyne] at hdep
        exact hproper x hx' y hy' hxy hdep
      · exfalso
        rw [List.mem_singleton.1 hy'] at hdep
        have hxne : x ≠ bid := fun he => hbid_new (he ▸ hx')
        rw [hf_other x hxne, hdep_bid] at hdep
        have := hseen_le x hx'
        omega
      · exfalso
        rw [List.mem_singleton.1 hx'] at hdep
        have hyne : y ≠ bid := fun he => hbid_new (he ▸ hy')
        rw [hf_other y hyne, hdep_bid] at hdep
        have := hseen_le y hy'
        omega
      · exact absurd ((List.mem_singleton.1 hx').trans (List.mem_singleton.1 hy').symm) hxy
    · right
      have hact : ∀ x ∈ bid :: p :: qrest,
          (st0.f x).startMin ≤ (st0.f bid).startMin ∧
          (st0.f bid).startMin < (st0.f x).endMin := by
        intro x hx
        rcases List.mem_cons.1 hx with rfl | hx'
        · exact ⟨le_refl _, hwf x hbid_lt⟩
        · have hx_seen : x ∈ seen := hq_sub x hx'
          refine ⟨leStartDur_start_le (hle x hx_seen), ?_⟩
          have hpx : (st.f p).endMin ≤ (st.f x).endMin := by
            rcases List.mem_cons.1 hx' with rfl | hx''
            · exact le_refl _
            · exact qLE_end_le ((List.pairwise_cons.1 hq_sorted).1 x hx'')
          have hbp : (st.f bid).startMin < (st.f p).endMin := hcond
          rw [hstart bid, hend p] at hbp
          rw [hend p, hend x] at hpx
          omega
      have hnd : (bid :: p :: qrest).Nodup :=
        List.Nodup.cons (fun h => hq_ne_bid bid h rfl) hq_nodup
      have hlen : (bid :: p :: qrest).length = rooms + 2 := by
        simp only [List.length_cons]
        omega
      have hlt : ∀ x ∈ bid :: p :: qrest, x < st0.n := by
        intro x hx
        rcases List.mem_cons.1 hx with rfl | hx'
        · exact hbid_lt
        · exact hmem_lt x (hseen_sub x (hq_sub x hx'))
      have h1 : rooms + 2 ≤ countActive st0 (st0.f bid).startMin := by
        rw [← hlen]
        exact length_le_countActive hnd hlt hact
      exact le_trans h1 (countActive_le_maxOverlap st0 hbid_lt)
  case isFalse hcond =>
    -- reuse the popped room's depth
    set dp := (st.f p).depth with hdp
    set st' := st.upd bid (fun b => { b with depth := dp }) with hst'
    have hf_bid : st'.f bid = { st0.f bid with depth := dp } := by
      rw [hst', Day.upd_f_same, hbid_frame]
    have hf_other : ∀ j, j ≠ bid → st'.f j = st.f j :=
      fun j hj => Day.upd_f_other st _ hj
    have hdep_bid : (st'.f bid).depth = dp := by rw [hf_bid]
    have hperm_q : (qInsert st' bid qrest).Perm (bid :: qrest) := qInsert_perm _ _ _
    have hpend : (st.f p).endMin ≤ (st.f bid).startMin := by omega
    -- the unique representative of depth `dp` in the queue is `p`
    have hrep_unique : ∀ y ∈ p :: qrest, (st.f y).depth = dp → y = p := by
      intro y hy hyd
      exact map_nodup_inj hqmap_nodup hy (List.mem_cons_self _ _) (by rw [hyd])
    have hchain_dp : ∀ x ∈ seen, (st.f x).depth = dp →
        (st.f x).endMin ≤ (st.f p).endMin := by
      intro x hx hxd
      obtain ⟨y, hy, hydep, hyend⟩ := hchain x hx
      have : y = p := hrep_unique y hy (by rw [hydep, hxd])
      exact this ▸ hyend
    refine ⟨?_, ?_, ?_, ?_, ?_, ?_, ?_, ?_, ?_, ?_, ?_⟩ <;> dsimp only
    · exact hn
    · exact horder
    · intro j
      rcases eq_or_ne j bid with rfl | hj
      · rw [hf_bid]
      · rw [hf_other j hj, hframe j]
    · intro j hj
      rw [List.mem_append, List.mem_singleton] at hj
      push_neg at hj
      rw [hf_other j hj.2, hunt j hj.1]
    · intro x hx
      rcases List.mem_cons.1 (hperm_q.mem_iff.1 hx) with rfl | hx'
      · exact List.mem_append.2 (Or.inr (List.mem_singleton.2 rfl))
      · exact List.mem_append.2
          (Or.inl (hq_sub x (List.mem_cons_of_mem _ hx')))
    · refine qInsert_sorted st' bid ?_
      have hqrest : qrest.Pairwise (fun a b => qLE st a b = true) :=
        (List.pairwise_cons.1 hq_sorted).2
      refine hqrest.imp_of_mem ?_
      intro a b ha hb hab
      rw [qLE_congr (hf_other a (hq_ne_bid a (List.mem_cons_of_mem _ ha)))
        (hf_other b (hq_ne_bid b (List.mem_cons_of_mem _ hb)))]
      exact hab
    · refine ((hperm_q.map fun x => (st'.f x).depth).trans ?_)
      rw [List.map_cons, hdep_bid]
      have hcongr : (qrest.map fun x => (st'.f x).depth)
          = (qrest.map fun x => (st.f x).depth) :=
        List.map_congr_left fun a ha => by
          rw [hf_other a (hq_ne_bid a (List.mem_cons_of_mem _ ha))]
      rw [hcongr]
      have : ((p :: qrest).map fun x => (st.f x).depth)
          = dp :: (qrest.map fun x => (st.f x).depth) := by
        rw [List.map_cons]
      rw [← this]
      exact hq_depths
    · intro x hx
      rcases List.mem_append.1 hx with hx' | hx'
      · rw [hf_other x (fun he => hbid_new (he ▸ hx'))]
        exact hseen_le x hx'
      · rw [List.mem_singleton.1 hx', hdep_bid, hdp]
        exact hseen_le p hp_seen
    · intro x hx
      rcases List.mem_append.1 hx with hx' | hx'
      · have hxne : x ≠ bid := fun he => hbid_new (he ▸ hx')
        rcases eq_or_ne ((st.f x).depth) dp with hxd | hxd
        · -- its room was just handed to `bid`
          refine ⟨bid, hperm_q.mem_iff.2 (List.mem_cons_self _ _), ?_, ?_⟩
          · rw [hdep_bid, hf_other x hxne, hxd]
          · rw [hf_other x hxne, hf_bid]
            have h1 : (st.f x).endMin ≤ (st.f p).endMin := hchain_dp x hx' hxd
            have h2 : (st0.f bid).startMin < (st0.f bid).endMin := hwf bid hbid_lt
            have h3 : (st.f bid).startMin = (st0.f bid).startMin := hstart bid
            show (st.f x).endMin ≤ (st0.f bid).endMin
            omega
        · obtain ⟨y, hy, hydep, hyend⟩ := hchain x hx'
          have hyp : y ≠ p := by
            intro he
            rw [he] at hydep
            exact hxd (by rw [← hydep])
          have hy' : y ∈ qrest := by
            rcases List.mem_cons.1 hy with rfl | h
            · exact absurd rfl hyp
            · exact h
          have hyne : y ≠ bid := hq_ne_bid y hy
          refine ⟨y, hperm_q.mem_iff.2 (List.mem_cons_of_mem _ hy'), ?_, ?_⟩
          · rw [hf_other y hyne, hf_other x hxne, hydep]
          · rw [hf_other y hyne, hf_other x hxne]
            exact hyend
      · rw [List.mem_singleton.1 hx']
        exact ⟨bid, hperm_q.mem_iff.2 (List.mem_cons_self _ _), rfl, le_refl _⟩
    · intro x hx y hy hxy hdep
      have key : ∀ z ∈ seen, (st'.f z).depth = (st'.f bid).depth →
          (st0.f z).conflict (st0.f bid) = false := by
        intro z hz hzd
        have hzne : z ≠ bid := fun he => hbid_new (he ▸ hz)
        rw [hf_other z hzne, hdep_bid] at hzd
        have h1 : (st.f z).endMin ≤ (st.f p).endMin := hchain_dp z hz hzd
        have h2 : (st0.f z).endMin ≤ (st0.f bid).startMin := by
          rw [← hend z, ← hstart bid]
          omega
        simp only [SB.conflict, Bool.and_eq_true, decide_eq_true_eq,
          Bool.and_eq_false_iff]
        right
        simp only [decide_eq_false_iff_not, not_lt]
        exact h2
      rcases List.mem_append.1 hx with hx' | hx' <;>
        rcases List.mem_append.1 hy with hy' | hy'
      · have hxne : x ≠ bid := fun he => hbid_new (he ▸ hx')
        have hyne : y ≠ bid := fun he => hbid_new (he ▸ hy')
        rw [hf_other x hxne, hf_other y hyne] at hdep
        exact hproper x hx' y hy' hxy hdep
      · rw [List.mem_singleton.1 hy'] at hdep ⊢
        exact key x hx' hdep
      · rw [List.mem_singleton.1 hx'] at hdep ⊢
        rw [SB.conflict_comm]
        exact key y hy' hdep.symm
      · exact absurd ((List.mem_singleton.1 hx').trans (List.mem_singleton.1 hy').symm) hxy
    · exact hbound

theorem sched2_foldl_frame (todo : List Nat) (acc : Day × List Nat × Nat) {j : Nat}
    (hj : j ∉ todo) : ((todo.foldl sched2Step acc).1).f j = acc.1.f j := by
  induction todo generalizing acc with
  | nil => rfl
  | cons bid todo' ih =>
      have hj' : j ∉ todo' := fun h => hj (List.mem_cons_of_mem _ h)
      have hjb : j ≠ bid := fun h => hj (h ▸ List.mem_cons_self _ _)
      rw [List.foldl_cons, ih _ hj']
      obtain ⟨st, q, rooms⟩ := acc
      cases q with
      | nil => rfl
      | cons p qrest =>
          rw [sched2Step]
          dsimp only
          split <;> dsimp only
          · exact Day.upd_f_other st _ hjb
          · exact Day.upd_f_other st _ hjb

theorem sched2_foldl_n (todo : List Nat) (acc : Day × List Nat × Nat) :
    ((todo.foldl sched2Step acc).1).n = acc.1.n := by
  induction todo generalizing acc with
  | nil => rfl
  | cons bid todo' ih =>
      rw [List.foldl_cons, ih]
      obtain ⟨st, q, rooms⟩ := acc
      cases q with
      | nil => rfl
      | cons p qrest =>
          rw [sched2Step]
          dsimp only
          split <;> rfl

theorem sched2_foldl_order (todo : List Nat) (acc : Day × List Nat × Nat) :
    ((todo.foldl sched2Step acc).1).order = acc.1.order := by
  induction todo generalizing acc with
  | nil => rfl
  | cons bid todo' ih =>
      rw [List.foldl_cons, ih]
      obtain ⟨st, q, rooms⟩ := acc
      cases q with
      | nil => rfl
      | cons p qrest =>
          rw [sched2Step]
          dsimp only
          split <;> rfl

/-- The `intervalScheduling2` loop maintains the invariant over the whole
processed suffix. -/
theorem sched2_fold_inv {st0 : Day} {b0 : Nat} {rest : List Nat}
    (hwf : ∀ i < st0.n, (st0.f i).startMin < (st0.f i).endMin)
    (hordperm : st0.order.Perm (List.range st0.n))
    (hordval : st0.order = b0 :: rest)
    (hnd : (b0 :: rest).Nodup)
    (hsorted : (b0 :: rest).Pairwise (fun i j => leStartDur (st0.f i) (st0.f j) = true)) :
    ∀ (todo done : List Nat), rest = done ++ todo →
      ∀ acc, S2Inv st0 (b0 :: done) acc →
        S2Inv st0 (b0 :: rest) (todo.foldl sched2Step acc) := by
  intro todo
  induction todo with
  | nil =>
      intro done hrest acc hacc
      rw [List.foldl_nil]
      rw [hrest, List.append_nil]
      exact hacc
  | cons bid todo' ih =>
      intro done hrest acc hacc
      obtain ⟨stA, qA, roomsA⟩ := acc
      rw [List.foldl_cons]
      have hbid_rest : bid ∈ rest := by
        rw [hrest]
        exact List.mem_append.2 (Or.inr (List.mem_cons_self _ _))
      have hbid_ord : bid ∈ st0.order := by
        rw [hordval]
        exact List.mem_cons_of_mem _ hbid_rest
      have hnd_rest : rest.Nodup := (List.nodup_cons.1 hnd).2
      have hb0_rest : b0 ∉ rest := (List.nodup_cons.1 hnd).1
      have hbid_new : bid ∉ b0 :: done := by
        intro h
        rcases List.mem_cons.1 h with rfl | hdone
        · exact hb0_rest hbid_rest
        · rw [hrest] at hnd_rest
          rcases List.nodup_append.1 hnd_rest with ⟨-, -, hdisj⟩
          exact hdisj hdone (List.mem_cons_self _ _)
      have hseen_sub : ∀ x ∈ b0 :: done, x ∈ st0.order := by
        intro x hx
        rw [hordval]
        rcases List.mem_cons.1 hx with rfl | hx'
        · exact List.mem_cons_self _ _
        · exact List.mem_cons_of_mem _ (by rw [hrest]; exact List.mem_append.2 (Or.inl hx'))
      have hle : ∀ x ∈ b0 :: done, leStartDur (st0.f x) (st0.f bid) = true := by
        intro x hx
        rcases List.pairwise_cons.1 hsorted with ⟨hb0all, hrest_pw⟩
        rcases List.mem_cons.1 hx with rfl | hx'
        · exact hb0all bid hbid_rest
        · rw [hrest] at hrest_pw
          rcases List.pairwise_append.1 hrest_pw with ⟨-, -, hcross⟩
          exact hcross x hx' bid (List.mem_cons_self _ _)
      have hstep := sched2Step_inv hwf hordperm hseen_sub hbid_ord hbid_new hle hacc
      have hrest' : rest = (done ++ [bid]) ++ todo' := by
        rw [hrest, List.append_assoc]
        rfl
      have hseen_eq : (b0 :: done) ++ [bid] = b0 :: (done ++ [bid]) := rfl
      rw [hseen_eq] at hstep
      exact ih (done ++ [bid]) hrest' _ hstep

/-- Two blocks both active at an instant conflict. -/
theorem active_conflict {st : Day} {x y : Nat} {t : Int}
    (hx : (st.f x).startMin ≤ t ∧ t < (st.f x).endMin)
    (hy : (st.f y).startMin ≤ t ∧ t < (st.f y).endMin) :
    (st.f x).conflict (st.f y) = true := by
  simp only [SB.conflict, Bool.and_eq_true, decide_eq_true_eq]
  omega

/-- Any proper coloring bound: if conflicting blocks get distinct depths and
all depths are `< k`, no instant has more than `k` active blocks. -/
theorem maxOverlap_le_of_proper {st : Day} {k : Nat}
    (hproper : ∀ i < st.n, ∀ j < st.n, i ≠ j → (st.f i).conflict (st.f j) = true →
      (st.f i).depth ≠ (st.f j).depth)
    (hrange : ∀ i < st.n, (st.f i).depth < k) :
    maxOverlap st ≤ k := by
  refine foldr_max_le ?_
  intro c hc
  rw [List.mem_map] at hc
  obtain ⟨i, hi, rfl⟩ := hc
  set t := (st.f i).startMin
  set A := (List.range st.n).filter fun x => (st.f x).startMin ≤ t ∧ t < (st.f x).endMin
    with hA
  have hAnd : A.Nodup := (List.nodup_range st.n).filter _
  have hAmem : ∀ x ∈ A, x < st.n ∧ (st.f x).startMin ≤ t ∧ t < (st.f x).endMin := by
    intro x hx
    rw [hA, List.mem_filter, List.mem_range] at hx
    exact ⟨hx.1, of_decide_eq_true hx.2⟩
  have hmapnd : (A.map fun x => (st.f x).depth).Nodup := by
    refine List.Nodup.map_on ?_ hAnd
    intro x hx y hy hdep
    by_contra hne
    exact hproper x (hAmem x hx).1 y (hAmem y hy).1 hne
      (active_conflict (hAmem x hx).2 (hAmem y hy).2) hdep
  have hsub : ∀ d ∈ A.map fun x => (st.f x).depth, d < k := by
    intro d hd
    rw [List.mem_map] at hd
    obtain ⟨x, hx, rfl⟩ := hd
    exact hrange x (hAmem x hx).1
  calc countActive st t = A.length := rfl
    _ = (A.map fun x => (st.f x).depth).length := (List.length_map _ _).symm
    _ ≤ k := nodup_bounded_length hmapnd hsub

/-- Full specification of `intervalScheduling2` on a day whose blocks enter
with the default `depth = 0` and well-formed intervals:
the final store differs from the input only in `depth` values (and the array
is left sorted); conflicting blocks receive distinct depths; every depth is
below the returned column count; every column below the count is inhabited;
and the count equals the maximum simultaneous overlap. -/
theorem intervalScheduling2_full (st : Day)
    (hperm : st.order.Perm (List.range st.n))
    (hwf : ∀ i < st.n, (st.f i).startMin < (st.f i).endMin)
    (hd0 : ∀ i < st.n, (st.f i).depth = 0) :
    ((intervalScheduling2 st).2).n = st.n ∧
    ((intervalScheduling2 st).2).order = (sortByStart st).order ∧
    (∀ j, ((intervalScheduling2 st).2).f j =
      { st.f j with depth := (((intervalScheduling2 st).2).f j).depth }) ∧
    (∀ i < st.n, ∀ j < st.n, i ≠ j → (st.f i).conflict (st.f j) = true →
      (((intervalScheduling2 st).2).f i).depth ≠ (((intervalScheduling2 st).2).f j).depth) ∧
    (∀ i < st.n, (((intervalScheduling2 st).2).f i).depth < (intervalScheduling2 st).1) ∧
    (∀ d < (intervalScheduling2 st).1, ∃ i < st.n,
      (((intervalScheduling2 st).2).f i).depth = d) ∧
    (intervalScheduling2 st).1 = maxOverlap st := by
  have hsf : (sortByStart st).f = st.f := rfl
  have hsn : (sortByStart st).n = st.n := rfl
  have hperm1 : (sortByStart st).order.Perm (List.range st.n) :=
    (sortByStart_perm st).trans hperm
  rw [intervalScheduling2]
  dsimp only
  split
  case h_1 hord =>
    -- empty sorted order means an empty day
    have hn0 : st.n = 0 := by
      have := hperm1.symm
      rw [hord] at this
      have hlen := this.length_eq
      simpa using hlen
    refine ⟨rfl, rfl, ?_, ?_, ?_, ?_, ?_⟩
    · intro j
      show st.f j = { st.f j with depth := (st.f j).depth }
      rfl
    · intro i hi
      omega
    · intro i hi
      omega
    · intro d hd
      omega
    · have : maxOverlap st = 0 := by
        unfold maxOverlap
        rw [hn0]
        rfl
      omega
  case h_2 b0 rest hord =>
    set st1 := sortByStart st with hst1
    have hnd : (b0 :: rest).Nodup := by
      rw [← hord]
      exact hperm1.symm.nodup (List.nodup_range _)
    have hsorted : (b0 :: rest).Pairwise
        (fun i j => leStartDur (st1.f i) (st1.f j) = true) := by
      rw [← hord]
      exact sortByStart_sorted st
    have hordval : st1.order = b0 :: rest := hord
    have hperm2 : st1.order.Perm (List.range st1.n) := hperm1
    have hwf1 : ∀ i < st1.n, (st1.f i).startMin < (st1.f i).endMin := hwf
    have hb0_lt : b0 < st.n := by
      have : b0 ∈ st1.order := by rw [hordval]; exact List.mem_cons_self _ _
      exact List.mem_range.1 (hperm1.mem_iff.1 this)
    have hbase : S2Inv st1 (b0 :: []) (st1, [b0], 0) := by
      refine ⟨rfl, rfl, ?_, ?_, ?_, ?_, ?_, ?_, ?_, ?_, ?_⟩ <;> dsimp only
      · intro j
        show st1.f j = { st1.f j with depth := (st1.f j).depth }
        rfl
      · intro j _
        rfl
      · intro x hx
        exact hx
      · exact List.pairwise_singleton _ _
      · have : (st1.f b0).depth = 0 := hd0 b0 hb0_lt
        rw [List.map_cons, List.map_nil, this]
        rfl
      · intro x hx
        rw [List.mem_singleton.1 hx]
        have : (st1.f b0).depth = 0 := hd0 b0 hb0_lt
        omega
      · intro x hx
        rw [List.mem_singleton.1 hx]
        exact ⟨b0, List.mem_singleton.2 rfl, rfl, le_refl _⟩
      · intro x hx y hy hxy _
        rw [List.mem_singleton.1 hx, List.mem_singleton.1 hy] at hxy
        exact absurd rfl hxy
      · exact Or.inl rfl
    have hfin := sched2_fold_inv hwf1 hperm2 hordval hnd hsorted rest [] rfl
      (st1, [b0], 0) hbase
    set R := rest.foldl sched2Step (st1, [b0], 0) with hR
    obtain ⟨hn, horder, hframe, hunt, hq_sub, hq_sorted, hq_depths, hseen_le,
      hchain, hproper, hbound⟩ := hfin
    have hmo : maxOverlap st1 = maxOverlap st := rfl
    have hmem_all : ∀ i, i < st.n → i ∈ b0 :: rest := by
      intro i hi
      rw [← hordval]
      exact hperm1.mem_iff.2 (List.mem_range.2 hi)
    have hproper' : ∀ i < st.n, ∀ j < st.n, i ≠ j →
        (st.f i).conflict (st.f j) = true →
        (R.1.f i).depth ≠ (R.1.f j).depth := by
      intro i hi j hj hij hconf hdep
      have := hproper i (hmem_all i hi) j (hmem_all j hj) hij hdep
      rw [hsf] at this
      rw [hconf] at this
      cases this
    have hrange : ∀ i < st.n, (R.1.f i).depth < R.2.2 + 1 := by
      intro i hi
      exact Nat.lt_succ_of_le (hseen_le i (hmem_all i hi))
    refine ⟨hn.trans hsn, horder.trans (by rw [hst1]), ?_, ?_, ?_, ?_, ?_⟩ <;> dsimp only
    · intro j
      have := hframe j
      rw [hsf] at this
      exact this
    · exact hproper'
    · exact hrange
    · intro d hd
      have hd' : d ∈ List.range (R.2.2 + 1) := List.mem_range.2 hd
      have := hq_depths.mem_iff.2 hd'
      rw [List.mem_map] at this
      obtain ⟨x, hx, hxd⟩ := this
      have hx_seen : x ∈ b0 :: rest := hq_sub x hx
      have hx_lt : x < st.n := by
        have : x ∈ st1.order := by rw [hordval]; exact hx_seen
        exact List.mem_range.1 (hperm1.mem_iff.1 this)
      exact ⟨x, hx_lt, hxd⟩
    · -- count = maxOverlap
      have hle1 : maxOverlap st ≤ R.2.2 + 1 := by
        have hcongr : maxOverlap R.1 = maxOverlap st := by
          refine maxOverlap_congr ?_ ?_
          · rw [hn]
            exact hsn
          · intro i _
            rw [hframe i, hsf]
            exact ⟨rfl, rfl⟩
        rw [← hcongr]
        refine maxOverlap_le_of_proper ?_ ?_
        · intro i hi j hj hij hconf
          refine hproper' i (by omega) j (by omega) hij ?_
          have : (R.1.f i).conflict (R.1.f j) = (st.f i).conflict (st.f j) := by
            have h1 := depthFrame_startMin (hframe i)
            have h2 := depthFrame_endMin (hframe i)
            have h3 := depthFrame_startMin (hframe j)
            have h4 := depthFrame_endMin (hframe j)
            rw [hsf] at h1 h2 h3 h4
            simp [SB.conflict, h1, h2, h3, h4]
          rw [← this]
          exact hconf
        · intro i hi
          exact hrange i (by omega)
      have hge1 : R.2.2 + 1 ≤ maxOverlap st := by
        rcases hbound with h0 | hbig
        · rw [h0]
          have hact : (st.f b0).startMin ≤ (st.f b0).startMin ∧
              (st.f b0).startMin < (st.f b0).endMin := ⟨le_refl _, hwf b0 hb0_lt⟩
          have h1 : 1 ≤ countActive st (st.f b0).startMin := by
            have := @length_le_countActive st [b0] ((st.f b0).startMin)
              (List.nodup_singleton _) ?_ ?_
            · simpa using this
            · intro x hx
              rw [List.mem_singleton.1 hx]
              exact hb0_lt
            · intro x hx
              rw [List.mem_singleton.1 hx]
              exact hact
          exact le_trans h1 (countActive_le_maxOverlap st hb0_lt)
        · rw [← hmo]
          exact hbig
      omega

/-! ## Invariants of the greedy intervalScheduling -/

theorem range_set_self (n k : Nat) : (List.range n).set k k = List.range n := by
  refine List.ext_getElem? fun m => ?_
  rw [List.getElem?_set]
  split
  · rename_i h
    subst h
    split
    · rename_i h2
      rw [List.length_range] at h2
      rw [List.getElem?_range h2]
    · rename_i h2
      rw [List.length_range] at h2
      exact (List.getElem?_eq_none (by rw [List.length_range]; omega)).symm
  · rfl

/-- The scan step of `selectRoom`, named for proof convenience. -/
def selStep (st : Day) (s : Int) (acc : Option (Nat × Nat)) (kp : Nat × Nat) :
    Option (Nat × Nat) :=
  if (st.f kp.2).endMin ≤ s &&
      (match acc with
       | none => true
       | some kd => decide ((st.f kp.2).depth < kd.2)) then
    some (kp.1, (st.f kp.2).depth)
  else acc

theorem selectRoom_eq_fold (st : Day) (s : Int) (occ : List Nat) :
    selectRoom st s occ = (List.enumFrom 0 occ).foldl (selStep st s) none := by
  rw [selectRoom, List.enum_eq_enumFrom]
  rfl

theorem selStep_none (st : Day) (s : Int) (k x : Nat) :
    selStep st s none (k, x) =
      if (st.f x).endMin ≤ s then some (k, (st.f x).depth) else none := by
  rw [selStep]
  by_cases h : (st.f x).endMin ≤ s <;> simp [h]

theorem selStep_some (st : Day) (s : Int) (k0 d k x : Nat) :
    selStep st s (some (k0, d)) (k, x) =
      if (st.f x).endMin ≤ s ∧ (st.f x).depth < d then some (k, (st.f x).depth)
      else some (k0, d) := by
  rw [selStep]
  by_cases h1 : (st.f x).endMin ≤ s <;> by_cases h2 : (st.f x).depth < d <;>
    simp [h1, h2]

/-- Specification of the inner scan of `intervalScheduling`: it returns
`none` exactly when no occupied column is free, and otherwise the position
and depth of a free column of minimal depth. -/
theorem selectRoom_spec (st : Day) (s : Int) (occ : List Nat) :
    (selectRoom st s occ = none → ∀ x ∈ occ, ¬((st.f x).endMin ≤ s)) ∧
    (∀ k d, selectRoom st s occ = some (k, d) →
      ∃ x, occ[k]? = some x ∧ (st.f x).depth = d ∧ (st.f x).endMin ≤ s ∧
        ∀ y ∈ occ, (st.f y).endMin ≤ s → d ≤ (st.f y).depth) := by
  have main : ∀ (ps pre : List Nat) (acc : Option (Nat × Nat)),
      occ = pre ++ ps →
      (acc = none → ∀ x ∈ pre, ¬((st.f x).endMin ≤ s)) →
      (∀ k d, acc = some (k, d) →
        ∃ x, occ[k]? = some x ∧ (st.f x).depth = d ∧ (st.f x).endMin ≤ s ∧
          ∀ y ∈ pre, (st.f y).endMin ≤ s → d ≤ (st.f y).depth) →
      (((List.enumFrom pre.length ps).foldl (selStep st s) acc = none →
          ∀ x ∈ occ, ¬((st.f x).endMin ≤ s)) ∧
       (∀ k d, (List.enumFrom pre.length ps).foldl (selStep st s) acc = some (k, d) →
         ∃ x, occ[k]? = some x ∧ (st.f x).depth = d ∧ (st.f x).endMin ≤ s ∧
           ∀ y ∈ occ, (st.f y).endMin ≤ s → d ≤ (st.f y).depth)) := by
    intro ps
    induction ps with
    | nil =>
        intro pre acc hocc hnone hsome
        rw [List.append_nil] at hocc
        subst hocc
        exact ⟨fun h => hnone h, fun k d h => hsome k d h⟩
    | cons x ps' ih =>
        intro pre acc hocc hnone hsome
        rw [List.enumFrom_cons, List.foldl_cons]
        have hocc' : occ = (pre ++ [x]) ++ ps' := by rw [hocc, List.append_assoc]; rfl
        have hlen' : (pre ++ [x]).length = pre.length + 1 := by
          rw [List.length_append, List.length_singleton]
        have hx_at : occ[pre.length]? = some x := by
          rw [hocc, List.getElem?_append_right (le_refl _), Nat.sub_self]
          simp
        rw [← hlen']
        cases acc with
        | none =>
            rw [selStep_none]
            by_cases hqual : (st.f x).endMin ≤ s
            · rw [if_pos hqual]
              refine ih (pre ++ [x]) _ hocc' (by intro h; cases h) ?_
              intro k d h
              injection h with h'
              have hk : k = pre.length := (congrArg Prod.fst h').symm
              have hd : d = (st.f x).depth := (congrArg Prod.snd h').symm
              subst hk hd
              refine ⟨x, hx_at, rfl, hqual, ?_⟩
              intro y hy hyq
              rcases List.mem_append.1 hy with hy' | hy'
              · exact absurd hyq (hnone rfl y hy')
              · rw [List.mem_singleton.1 hy']
            · rw [if_neg hqual]
              refine ih (pre ++ [x]) _ hocc' ?_ (fun k d h => by cases h)
              intro _ y hy
              rcases List.mem_append.1 hy with hy' | hy'
              · exact hnone rfl y hy'
              · rw [List.mem_singleton.1 hy']
                exact hqual
        | some kd =>
            obtain ⟨kk, dd⟩ := kd
            rw [selStep_some]
            by_cases hcond : (st.f x).endMin ≤ s ∧ (st.f x).depth < dd
            · rw [if_pos hcond]
              refine ih (pre ++ [x]) _ hocc' (by intro h; cases h) ?_
              intro k d h
              injection h with h'
              have hk : k = pre.length := (congrArg Prod.fst h').symm
              have hd : d = (st.f x).depth := (congrArg Prod.snd h').symm
              subst hk hd
              obtain ⟨z, hz_at, hz_d, hz_q, hz_min⟩ := hsome kk dd rfl
              refine ⟨x, hx_at, rfl, hcond.1, ?_⟩
              intro y hy hyq
              rcases List.mem_append.1 hy with hy' | hy'
              · exact le_trans (le_of_lt hcond.2) (hz_min y hy' hyq)
              · rw [List.mem_singleton.1 hy']
            · rw [if_neg hcond]
              refine ih (pre ++ [x]) _ hocc' (by intro h; cases h) ?_
              intro k d h
              injection h with h'
              have hk : k = kk := (congrArg Prod.fst h').symm
              have hd : d = dd := (congrArg Prod.snd h').symm
              subst hk hd
              obtain ⟨z, hz_at, hz_d, hz_q, hz_min⟩ := hsome k d rfl
              refine ⟨z, hz_at, hz_d, hz_q, ?_⟩
              intro y hy hyq
              rcases List.mem_append.1 hy with hy' | hy'
              · exact hz_min y hy' hyq
              · rw [List.mem_singleton.1 hy'] at hyq ⊢
                rw [not_and, not_lt] at hcond
                exact hcond hyq
  have h0 := main occ [] none rfl (fun _ x hx => absurd hx (List.not_mem_nil x))
    (fun k d h => by cases h)
  rw [selectRoom_eq_fold]
  exact h0

/-- The inductive invariant of the greedy `intervalScheduling` loop.  The
occupied list holds one representative per column, positionally:
`occupied[k].depth = k`. -/
structure S1Inv (st0 : Day) (seen : List Nat) (acc : Day × List Nat × Nat) : Prop where
  hn : acc.1.n = st0.n
  horder : acc.1.order = st0.order
  hframe : ∀ j, acc.1.f j = { st0.f j with depth := (acc.1.f j).depth }
  huntouched : ∀ j, j ∉ seen → acc.1.f j = st0.f j
  hocc_sub : ∀ x ∈ acc.2.1, x ∈ seen
  hocc_depths : (acc.2.1.map fun x => (acc.1.f x).depth) = List.range (acc.2.2 + 1)
  hseen_le : ∀ x ∈ seen, (acc.1.f x).depth ≤ acc.2.2
  hchain : ∀ x ∈ seen, ∃ y ∈ acc.2.1, (acc.1.f y).depth = (acc.1.f x).depth ∧
    (acc.1.f x).endMin ≤ (acc.1.f y).endMin
  hproper : ∀ x ∈ seen, ∀ y ∈ seen, x ≠ y → (acc.1.f x).depth = (acc.1.f y).depth →
    (st0.f x).conflict (st0.f y) = false
  hbound : acc.2.2 = 0 ∨ acc.2.2 + 1 ≤ maxOverlap st0

theorem S1Inv.occ_len {st0 seen acc} (h : S1Inv st0 seen acc) :
    acc.2.1.length = acc.2.2 + 1 := by
  have := congrArg List.length h.hocc_depths
  simpa using this

/-- One step of the greedy loop preserves the invariant. -/
theorem sched1Step_inv {st0 : Day} {seen : List Nat} {bid : Nat}
    {st : Day} {occ : List Nat} {rooms : Nat}
    (hwf : ∀ i < st0.n, (st0.f i).startMin < (st0.f i).endMin)
    (hordperm : st0.order.Perm (List.range st0.n))
    (hseen_sub : ∀ x ∈ seen, x ∈ st0.order)
    (hbid_ord : bid ∈ st0.order)
    (hbid_new : bid ∉ seen)
    (hle : ∀ x ∈ seen, leStartDur (st0.f x) (st0.f bid) = true)
    (hinv : S1Inv st0 seen (st, occ, rooms)) :
    S1Inv st0 (seen ++ [bid]) (sched1Step (st, occ, rooms) bid) := by
  have hocc_len : occ.length = rooms + 1 := hinv.occ_len
  obtain ⟨hn, horder, hframe, hunt, hocc_sub, hocc_depths, hseen_le,
    hchain, hproper, hbound⟩ := hinv
  dsimp only at hn horder hframe hunt hocc_sub hocc_depths
  dsimp only at hseen_le hchain hproper hbound
  have hstart : ∀ j, (st.f j).startMin = (st0.f j).startMin :=
    fun j => depthFrame_startMin (hframe j)
  have hend : ∀ j, (st.f j).endMin = (st0.f j).endMin :=
    fun j => depthFrame_endMin (hframe j)
  have hmem_lt : ∀ x, x ∈ st0.order → x < st0.n :=
    fun x hx => List.mem_range.1 (hordperm.mem_iff.1 hx)
  have hbid_lt : bid < st0.n := hmem_lt bid hbid_ord
  have hbid_frame : st.f bid = st0.f bid := hunt bid hbid_new
  have hocc_ne_bid : ∀ y ∈ occ, y ≠ bid :=
    fun y hy he => hbid_new (he ▸ hocc_sub y hy)
  have hoccmap_nodup : (occ.map fun x => (st.f x).depth).Nodup := by
    rw [hocc_depths]
    exact List.nodup_range _
  show S1Inv st0 (seen ++ [bid]) (sched1Step (st, occ, rooms) bid)
  rw [sched1Step]
  dsimp only
  rcases hsel : selectRoom st (st.f bid).startMin occ with - | ⟨kk, dd⟩
  case none =>
    -- no free column: open a new one
    have hnone := (selectRoom_spec st (st.f bid).startMin occ).1 hsel
    set st' := st.upd bid (fun b => { b with depth := rooms + 1 }) with hst'
    have hf_bid : st'.f bid = { st0.f bid with depth := rooms + 1 } := by
      rw [hst', Day.upd_f_same, hbid_frame]
    have hf_other : ∀ j, j ≠ bid → st'.f j = st.f j :=
      fun j hj => Day.upd_f_other st _ hj
    have hdep_bid : (st'.f bid).depth = rooms + 1 := by rw [hf_bid]
    refine ⟨?_, ?_, ?_, ?_, ?_, ?_, ?_, ?_, ?_, ?_⟩ <;> dsimp only
    · exact hn
    · exact horder
    · intro j
      rcases eq_or_ne j bid with rfl | hj
      · rw [hf_bid]
      · rw [hf_other j hj, hframe j]
    · intro j hj
      rw [List.mem_append, List.mem_singleton] at hj
      push_neg at hj
      rw [hf_other j hj.2, hunt j hj.1]
    · intro x hx
      rcases List.mem_append.1 hx with hx' | hx'
      · exact List.mem_append.2 (Or.inl (hocc_sub x hx'))
      · exact List.mem_append.2 (Or.inr hx')
    · rw [List.map_append, List.map_singleton, hdep_bid]
      have hcongr : (occ.map fun x => (st'.f x).depth)
          = (occ.map fun x => (st.f x).depth) :=
        List.map_congr_left fun a ha => by rw [hf_other a (hocc_ne_bid a ha)]
      rw [hcongr, hocc_depths]
      exact (List.range_succ _).symm
    · intro x hx
      rcases List.mem_append.1 hx with hx' | hx'
      · rw [hf_other x (fun he => hbid_new (he ▸ hx'))]
        exact le_trans (hseen_le x hx') (Nat.le_succ _)
      · rw [List.mem_singleton.1 hx', hdep_bid]
    · intro x hx
      rcases List.mem_append.1 hx with hx' | hx'
      · obtain ⟨y, hy, hydep, hyend⟩ := hchain x hx'
        have hyne : y ≠ bid := hocc_ne_bid y hy
        have hxne : x ≠ bid := fun he => hbid_new (he ▸ hx')
        refine ⟨y, List.mem_append.2 (Or.inl hy), ?_, ?_⟩
        · rw [hf_other y hyne, hf_other x hxne, hydep]
        · rw [hf_other y hyne, hf_other x hxne]
          exact hyend
      · rw [List.mem_singleton.1 hx']
        exact ⟨bid, List.mem_append.2 (Or.inr (List.mem_singleton.2 rfl)), rfl, le_refl _⟩
    · intro x hx y hy hxy hdep
      rcases List.mem_append.1 hx with hx' | hx' <;>
        rcases List.mem_append.1 hy with hy' | hy'
      · have hxne : x ≠ bid := fun he => hbid_new (he ▸ hx')
        have hyne : y ≠ bid := fun he => hbid_new (he ▸ hy')
        rw [hf_other x hxne, hf_other y hyne] at hdep
        exact hproper x hx' y hy' hxy hdep
      · exfalso
        rw [List.mem_singleton.1 hy'] at hdep
        have hxne : x ≠ bid := fun he => hbid_new (he ▸ hx')
        rw [hf_other x hxne, hdep_bid] at hdep
        have := hseen_le x hx'
        omega
      · exfalso
        rw [List.mem_singleton.1 hx'] at hdep
        have hyne : y ≠ bid := fun he => hbid_new (he ▸ hy')
        rw [hf_other y hyne, hdep_bid] at hdep
        have := hseen_le y hy'
        omega
      · exact absurd ((List.mem_singleton.1 hx').trans (List.mem_singleton.1 hy').symm) hxy
    · right
      have hact : ∀ x ∈ bid :: occ,
          (st0.f x).startMin ≤ (st0.f bid).startMin ∧
          (st0.f bid).startMin < (st0.f x).endMin := by
        intro x hx
        rcases List.mem_cons.1 hx with rfl | hx'
        · exact ⟨le_refl _, hwf x hbid_lt⟩
        · have hx_seen : x ∈ seen := hocc_sub x hx'
          refine ⟨leStartDur_start_le (hle x hx_seen), ?_⟩
          have := hnone x hx'
          rw [hend x, hstart bid] at this
          omega
      have hocc_nodup : occ.Nodup := List.Nodup.of_map _ hoccmap_nodup
      have hnd : (bid :: occ).Nodup :=
        List.Nodup.cons (fun h => hocc_ne_bid bid h rfl) hocc_nodup
      have hlen : (bid :: occ).length = rooms + 2 := by
        rw [List.length_cons, hocc_len]
      have hlt : ∀ x ∈ bid :: occ, x < st0.n := by
        intro x hx
        rcases List.mem_cons.1 hx with rfl | hx'
        · exact hbid_lt
        · exact hmem_lt x (hseen_sub x (hocc_sub x hx'))
      have h1 : rooms + 2 ≤ countActive st0 (st0.f bid).startMin := by
        rw [← hlen]
        exact length_le_countActive hnd hlt hact
      exact le_trans h1 (countActive_le_maxOverlap st0 hbid_lt)
  case mk.some.mk =>
    -- reuse the free column of minimal depth
    obtain ⟨z, hz_at, hz_d, hz_q, hz_min⟩ :=
      (selectRoom_spec st (st.f bid).startMin occ).2 kk dd hsel
    have hz_mem : z ∈ occ := List.getElem?_mem hz_at
    have hkk_lt : kk < occ.length := by
      by_contra h
      rw [List.getElem?_eq_none (by omega)] at hz_at
      cases hz_at
    have hdd_kk : dd = kk := by
      have h1 : (occ.map fun x => (st.f x).depth)[kk]? = some ((st.f z).depth) := by
        rw [List.getElem?_map, hz_at]
        rfl
      rw [hocc_depths, List.getElem?_range (by omega)] at h1
      injection h1 with h1
      rw [← hz_d, h1]
    set st' := st.upd bid (fun b => { b with depth := dd }) with hst'
    have hf_bid : st'.f bid = { st0.f bid with depth := dd } := by
      rw [hst', Day.upd_f_same, hbid_frame]
    have hf_other : ∀ j, j ≠ bid → st'.f j = st.f j :=
      fun j hj => Day.upd_f_other st _ hj
    have hdep_bid : (st'.f bid).depth = dd := by rw [hf_bid]
    have hz_seen : z ∈ seen := hocc_sub z hz_mem
    have hrep_unique : ∀ y ∈ occ, (st.f y).depth = dd → y = z := by
      intro y hy hyd
      exact map_nodup_inj hoccmap_nodup hy hz_mem (by rw [hyd, hz_d])
    have hchain_dd : ∀ x ∈ seen, (st.f x).depth = dd →
        (st.f x).endMin ≤ (st.f z).endMin := by
      intro x hx hxd
      obtain ⟨y, hy, hydep, hyend⟩ := hchain x hx
      have : y = z := hrep_unique y hy (by rw [hydep, hxd])
      exact this ▸ hyend
    have hmem_set : ∀ y ∈ occ, y ≠ z → y ∈ occ.set kk bid := by
      intro y hy hyz
      obtain ⟨m, hm⟩ := List.getElem?_of_mem hy
      have hmk : kk ≠ m := by
        intro he
        rw [← he, hz_at] at hm
        injection hm with hm
        exact hyz hm.symm
      have hm2 : (occ.set kk bid)[m]? = some y := by
        rw [List.getElem?_set_ne hmk]
        exact hm
      exact List.getElem?_mem hm2
    have hbid_set : bid ∈ occ.set kk bid := List.mem_set occ kk hkk_lt bid
    refine ⟨?_, ?_, ?_, ?_, ?_, ?_, ?_, ?_, ?_, ?_⟩ <;> dsimp only
    · exact hn
    · exact horder
    · intro j
      rcases eq_or_ne j bid with rfl | hj
      · rw [hf_bid]
      · rw [hf_other j hj, hframe j]
    · intro j hj
      rw [List.mem_append, List.mem_singleton] at hj
      push_neg at hj
      rw [hf_other j hj.2, hunt j hj.1]
    · intro x hx
      rcases List.mem_or_eq_of_mem_set hx with hx' | rfl
      · exact List.mem_append.2 (Or.inl (hocc_sub x hx'))
      · exact List.mem_append.2 (Or.inr (List.mem_singleton.2 rfl))
    · have hms : (occ.set kk bid).map (fun x => (st'.f x).depth)
          = ((occ.map fun x => (st'.f x).depth)).set kk ((st'.f bid).depth) :=
        List.map_set
      rw [hms, hdep_bid]
      have hcongr : (occ.map fun x => (st'.f x).depth)
          = (occ.map fun x => (st.f x).depth) :=
        List.map_congr_left fun a ha => by rw [hf_other a (hocc_ne_bid a ha)]
      rw [hcongr, hocc_depths, hdd_kk, range_set_self]
    · intro x hx
      rcases List.mem_append.1 hx with hx' | hx'
      · rw [hf_other x (fun he => hbid_new (he ▸ hx'))]
        exact hseen_le x hx'
      · rw [List.mem_singleton.1 hx', hdep_bid]
        omega
    · intro x hx
      rcases List.mem_append.1 hx with hx' | hx'
      · have hxne : x ≠ bid := fun he => hbid_new (he ▸ hx')
        rcases eq_or_ne ((st.f x).depth) dd with hxd | hxd
        · refine ⟨bid, hbid_set, ?_, ?_⟩
          · rw [hdep_bid, hf_other x hxne, hxd]
          · rw [hf_other x hxne, hf_bid]
            have h1 : (st.f x).endMin ≤ (st.f z).endMin := hchain_dd x hx' hxd
            have h2 : (st0.f bid).startMin < (st0.f bid).endMin := hwf bid hbid_lt
            have h3 : (st.f bid).startMin = (st0.f bid).startMin := hstart bid
            have h4 : (st.f z).endMin ≤ (st.f bid).startMin := hz_q
            show (st.f x).endMin ≤ (st0.f bid).endMin
            omega
        · obtain ⟨y, hy, hydep, hyend⟩ := hchain x hx'
          have hyz : y ≠ z := by
            intro he
            rw [he, hz_d] at hydep
            exact hxd (by rw [← hydep])
          have hyne : y ≠ bid := hocc_ne_bid y hy
          refine ⟨y, hmem_set y hy hyz, ?_, ?_⟩
          · rw [hf_other y hyne, hf_other x hxne, hydep]
          · rw [hf_other y hyne, hf_other x hxne]
            exact hyend
      · rw [List.mem_singleton.1 hx']
        exact ⟨bid, hbid_set, rfl, le_refl _⟩
    · intro x hx y hy hxy hdep
      have key : ∀ w ∈ seen, (st'.f w).depth = (st'.f bid).depth →
          (st0.f w).conflict (st0.f bid) = false := by
        intro w hw hwd
        have hwne : w ≠ bid := fun he => hbid_new (he ▸ hw)
        rw [hf_other w hwne, hdep_bid] at hwd
        have h1 : (st.f w).endMin ≤ (st.f z).endMin := hchain_dd w hw hwd
        have h2 : (st0.f w).endMin ≤ (st0.f bid).startMin := by
          have h4 : (st.f z).endMin ≤ (st.f bid).startMin := hz_q
          rw [← hend w, ← hstart bid]
          omega
        simp only [SB.conflict, Bool.and_eq_true, decide_eq_true_eq,
          Bool.and_eq_false_iff]
        right
        simp only [decide_eq_false_iff_not, not_lt]
        exact h2
      rcases List.mem_append.1 hx with hx' | hx' <;>
        rcases List.mem_append.1 hy with hy' | hy'
      · have hxne : x ≠ bid := fun he => hbid_new (he ▸ hx')
        have hyne : y ≠ bid := fun he => hbid_new (he ▸ hy')
        rw [hf_other x hxne, hf_other y hyne] at hdep
        exact hproper x hx' y hy' hxy hdep
      · rw [List.mem_singleton.1 hy'] at hdep ⊢
        exact key x hx' hdep
      · rw [List.mem_singleton.1 hx'] at hdep ⊢
        rw [SB.conflict_comm]
        exact key y hy' hdep.symm
      · exact absurd ((List.mem_singleton.1 hx').trans (List.mem_singleton.1 hy').symm) hxy
    · exact hbound

theorem sched1_foldl_frame (todo : List Nat) (acc : Day × List Nat × Nat) {j : Nat}
    (hj : j ∉ todo) : ((todo.foldl sched1Step acc).1).f j = acc.1.f j := by
  induction todo generalizing acc with
  | nil => rfl
  | cons bid todo' ih =>
      have hj' : j ∉ todo' := fun h => hj (List.mem_cons_of_mem _ h)
      have hjb : j ≠ bid := fun h => hj (h ▸ List.mem_cons_self _ _)
      rw [List.foldl_cons, ih _ hj']
      obtain ⟨st, occ, rooms⟩ := acc
      rw [sched1Step]
      dsimp only
      split <;> dsimp only
      · exact Day.upd_f_other st _ hjb
      · exact Day.upd_f_other st _ hjb

theorem sched1_foldl_n (todo : List Nat) (acc : Day × List Nat × Nat) :
    ((todo.foldl sched1Step acc).1).n = acc.1.n := by
  induction todo generalizing acc with
  | nil => rfl
  | cons bid todo' ih =>
      rw [List.foldl_cons, ih]
      obtain ⟨st, occ, rooms⟩ := acc
      rw [sched1Step]
      dsimp only
      split <;> rfl

theorem sched1_foldl_order (todo : List Nat) (acc : Day × List Nat × Nat) :
    ((todo.foldl sched1Step acc).1).order = acc.1.order := by
  induction todo generalizing acc with
  | nil => rfl
  | cons bid todo' ih =>
      rw [List.foldl_cons, ih]
      obtain ⟨st, occ, rooms⟩ := acc
      rw [sched1Step]
      dsimp only
      split <;> rfl

theorem sched1_fold_inv {st0 : Day} {b0 : Nat} {rest : List Nat}
    (hwf : ∀ i < st0.n, (st0.f i).startMin < (st0.f i).endMin)
    (hordperm : st0.order.Perm (List.range st0.n))
    (hordval : st0.order = b0 :: rest)
    (hnd : (b0 :: rest).Nodup)
    (hsorted : (b0 :: rest).Pairwise (fun i j => leStartDur (st0.f i) (st0.f j) = true)) :
    ∀ (todo done : List Nat), rest = done ++ todo →
      ∀ acc, S1Inv st0 (b0 :: done) acc →
        S1Inv st0 (b0 :: rest) (todo.foldl sched1Step acc) := by
  intro todo
  induction todo with
  | nil =>
      intro done hrest acc hacc
      rw [List.foldl_nil]
      rw [hrest, List.append_nil]
      exact hacc
  | cons bid todo' ih =>
      intro done hrest acc hacc
      obtain ⟨stA, occA, roomsA⟩ := acc
      rw [List.foldl_cons]
      have hbid_rest : bid ∈ rest := by
        rw [hrest]
        exact List.mem_append.2 (Or.inr (List.mem_cons_self _ _))
      have hbid_ord : bid ∈ st0.order := by
        rw [hordval]
        exact List.mem_cons_of_mem _ hbid_rest
      have hnd_rest : rest.Nodup := (List.nodup_cons.1 hnd).2
      have hb0_rest : b0 ∉ rest := (List.nodup_cons.1 hnd).1
      have hbid_new : bid ∉ b0 :: done := by
        intro h
        rcases List.mem_cons.1 h with rfl | hdone
        · exact hb0_rest hbid_rest
        · rw [hrest] at hnd_rest
          rcases List.nodup_append.1 hnd_rest with ⟨-, -, hdisj⟩
          exact hdisj hdone (List.mem_cons_self _ _)
      have hseen_sub : ∀ x ∈ b0 :: done, x ∈ st0.order := by
        intro x hx
        rw [hordval]
        rcases List.mem_cons.1 hx with rfl | hx'
        · exact List.mem_cons_self _ _
        · exact List.mem_cons_of_mem _ (by rw [hrest]; exact List.mem_append.2 (Or.inl hx'))
      have hle : ∀ x ∈ b0 :: done, leStartDur (st0.f x) (st0.f bid) = true := by
        intro x hx
        rcases List.pairwise_cons.1 hsorted with ⟨hb0all, hrest_pw⟩
        rcases List.mem_cons.1 hx with rfl | hx'
        · exact hb0all bid hbid_rest
        · rw [hrest] at hrest_pw
          rcases List.pairwise_append.1 hrest_pw with ⟨-, -, hcross⟩
          exact hcross x hx' bid (List.mem_cons_self _ _)
      have hstep := sched1Step_inv hwf hordperm hseen_sub hbid_ord hbid_new hle hacc
      have hrest' : rest = (done ++ [bid]) ++ todo' := by
        rw [hrest, List.append_assoc]
        rfl
      have hseen_eq : (b0 :: done) ++ [bid] = b0 :: (done ++ [bid]) := rfl
      rw [hseen_eq] at hstep
      exact ih (done ++ [bid]) hrest' _ hstep

/-- Full specification of the greedy `intervalScheduling` (the analogue of
`intervalScheduling2_full`). -/
theorem intervalScheduling_full (st : Day)
    (hperm : st.order.Perm (List.range st.n))
    (hwf : ∀ i < st.n, (st.f i).startMin < (st.f i).endMin)
    (hd0 : ∀ i < st.n, (st.f i).depth = 0) :
    ((intervalScheduling st).2).n = st.n ∧
    ((intervalScheduling st).2).order = (sortByStart st).order ∧
    (∀ j, ((intervalScheduling st).2).f j =
      { st.f j with depth := (((intervalScheduling st).2).f j).depth }) ∧
    (∀ i < st.n, ∀ j < st.n, i ≠ j → (st.f i).conflict (st.f j) = true →
      (((intervalScheduling st).2).f i).depth ≠ (((intervalScheduling st).2).f j).depth) ∧
    (∀ i < st.n, (((intervalScheduling st).2).f i).depth < (intervalScheduling st).1) ∧
    (∀ d < (intervalScheduling st).1, ∃ i < st.n,
      (((intervalScheduling st).2).f i).depth = d) ∧
    (intervalScheduling st).1 = maxOverlap st := by
  have hsf : (sortByStart st).f = st.f := rfl
  have hsn : (sortByStart st).n = st.n := rfl
  have hperm1 : (sortByStart st).order.Perm (List.range st.n) :=
    (sortByStart_perm st).trans hperm
  rw [intervalScheduling]
  dsimp only
  split
  case h_1 hord =>
    have hn0 : st.n = 0 := by
      have := hperm1.symm
      rw [hord] at this
      have hlen := this.length_eq
      simpa using hlen
    refine ⟨rfl, rfl, ?_, ?_, ?_, ?_, ?_⟩
    · intro j
      show st.f j = { st.f j with depth := (st.f j).depth }
      rfl
    · intro i hi
      omega
    · intro i hi
      omega
    · intro d hd
      omega
    · have : maxOverlap st = 0 := by
        unfold maxOverlap
        rw [hn0]
        rfl
      omega
  case h_2 b0 rest hord =>
    set st1 := sortByStart st with hst1
    have hnd : (b0 :: rest).Nodup := by
      rw [← hord]
      exact hperm1.symm.nodup (List.nodup_range _)
    have hsorted : (b0 :: rest).Pairwise
        (fun i j => leStartDur (st1.f i) (st1.f j) = true) := by
      rw [← hord]
      exact sortByStart_sorted st
    have hordval : st1.order = b0 :: rest := hord
    have hperm2 : st1.order.Perm (List.range st1.n) := hperm1
    have hwf1 : ∀ i < st1.n, (st1.f i).startMin < (st1.f i).endMin := hwf
    have hb0_lt : b0 < st.n := by
      have : b0 ∈ st1.order := by rw [hordval]; exact List.mem_cons_self _ _
      exact List.mem_range.1 (hperm1.mem_iff.1 this)
    have hbase : S1Inv st1 (b0 :: []) (st1, [b0], 0) := by
      refine ⟨rfl, rfl, ?_, ?_, ?_, ?_, ?_, ?_, ?_, ?_⟩ <;> dsimp only
      · intro j
        show st1.f j = { st1.f j with depth := (st1.f j).depth }
        rfl
      · intro j _
        rfl
      · intro x hx
        exact hx
      · have : (st1.f b0).depth = 0 := hd0 b0 hb0_lt
        rw [List.map_singleton, this]
        rfl
      · intro x hx
        rw [List.mem_singleton.1 hx]
        have : (st1.f b0).depth = 0 := hd0 b0 hb0_lt
        omega
      · intro x hx
        rw [List.mem_singleton.1 hx]
        exact ⟨b0, List.mem_singleton.2 rfl, rfl, le_refl _⟩
      · intro x hx y hy hxy _
        rw [List.mem_singleton.1 hx, List.mem_singleton.1 hy] at hxy
        exact absurd rfl hxy
      · exact Or.inl rfl
    have hfin := sched1_fold_inv hwf1 hperm2 hordval hnd hsorted rest [] rfl
      (st1, [b0], 0) hbase
    set R := rest.foldl sched1Step (st1, [b0], 0) with hR
    obtain ⟨hn, horder, hframe, hunt, hocc_sub, hocc_depths, hseen_le,
      hchain, hproper, hbound⟩ := hfin
    have hmo : maxOverlap st1 = maxOverlap st := rfl
    have hmem_all : ∀ i, i < st.n → i ∈ b0 :: rest := by
      intro i hi
      rw [← hordval]
      exact hperm1.mem_iff.2 (List.mem_range.2 hi)
    have hproper' : ∀ i < st.n, ∀ j < st.n, i ≠ j →
        (st.f i).conflict (st.f j) = true →
        (R.1.f i).depth ≠ (R.1.f j).depth := by
      intro i hi j hj hij hconf hdep
      have := hproper i (hmem_all i hi) j (hmem_all j hj) hij hdep
      rw [hsf] at this
      rw [hconf] at this
      cases this
    have hrange : ∀ i < st.n, (R.1.f i).depth < R.2.2 + 1 := by
      intro i hi
      exact Nat.lt_succ_of_le (hseen_le i (hmem_all i hi))
    refine ⟨hn.trans hsn, horder.trans (by rw [hst1]), ?_, ?_, ?_, ?_, ?_⟩ <;> dsimp only
    · intro j
      have := hframe j
      rw [hsf] at this
      exact this
    · exact hproper'
    · exact hrange
    · intro d hd
      have hd' : d ∈ List.range (R.2.2 + 1) := List.mem_range.2 hd
      rw [← hocc_depths] at hd'
      rw [List.mem_map] at hd'
      obtain ⟨x, hx, hxd⟩ := hd'
      have hx_seen : x ∈ b0 :: rest := hocc_sub x hx
      have hx_lt : x < st.n := by
        have : x ∈ st1.order := by rw [hordval]; exact hx_seen
        exact List.mem_range.1 (hperm1.mem_iff.1 this)
      exact ⟨x, hx_lt, hxd⟩
    · have hle1 : maxOverlap st ≤ R.2.2 + 1 := by
        have hcongr : maxOverlap R.1 = maxOverlap st := by
          refine maxOverlap_congr ?_ ?_
          · rw [hn]
            exact hsn
          · intro i _
            rw [hframe i, hsf]
            exact ⟨rfl, rfl⟩
        rw [← hcongr]
        refine maxOverlap_le_of_proper ?_ ?_
        · intro i hi j hj hij hconf
          refine hproper' i (by omega) j (by omega) hij ?_
          have : (R.1.f i).conflict (R.1.f j) = (st.f i).conflict (st.f j) := by
            have h1 := depthFrame_startMin (hframe i)
            have h2 := depthFrame_endMin (hframe i)
            have h3 := depthFrame_startMin (hframe j)
            have h4 := depthFrame_endMin (hframe j)
            rw [hsf] at h1 h2 h3 h4
            simp [SB.conflict, h1, h2, h3, h4]
          rw [← this]
          exact hconf
        · intro i hi
          exact hrange i (by omega)
      have hge1 : R.2.2 + 1 ≤ maxOverlap st := by
        rcases hbound with h0 | hbig
        · rw [h0]
          have hact : (st.f b0).startMin ≤ (st.f b0).startMin ∧
              (st.f b0).startMin < (st.f b0).endMin := ⟨le_refl _, hwf b0 hb0_lt⟩
          have h1 : 1 ≤ countActive st (st.f b0).startMin := by
            have := @length_le_countActive st [b0] ((st.f b0).startMin)
              (List.nodup_singleton _) ?_ ?_
            · simpa using this
            · intro x hx
              rw [List.mem_singleton.1 hx]
              exact hb0_lt
            · intro x hx
              rw [List.mem_singleton.1 hx]
              exact hact
          exact le_trans h1 (countActive_le_maxOverlap st hb0_lt)
        · rw [← hmo]
          exact hbig
      omega

/-! ## Invariants of the pathDepth pass (depthFirstSearchRec) -/

/-- Frame of pass 1: only `visited` and `pathDepth` may differ from the base
state `st0`. -/
def VP (st0 st : Day) : Prop :=
  st.n = st0.n ∧ st.order = st0.order ∧
  ∀ j, st.f j = { st0.f j with visited := (st.f j).visited,
                               pathDepth := (st.f j).pathDepth }

theorem vpFrame_depth {b c : SB}
    (h : b = { c with visited := b.visited, pathDepth := b.pathDepth }) :
    b.depth = c.depth := by rw [h]

theorem vpFrame_nbrs {b c : SB}
    (h : b = { c with visited := b.visited, pathDepth := b.pathDepth }) :
    b.neighbors = c.neighbors := by rw [h]

theorem VP.refl (st0 : Day) : VP st0 st0 :=
  ⟨rfl, rfl, fun _ => rfl⟩

/-- A descending conflict edge: `b` is a neighbor of `a` of strictly lower
depth (the only edges `depthFirstSearchRec` may traverse). -/
def E1 (st0 : Day) (a b : Nat) : Prop :=
  b ∈ (st0.f a).neighbors ∧ (st0.f b).depth < (st0.f a).depth

/-- Descending reachability. -/
def Reach1 (st0 : Day) : Nat → Nat → Prop := Relation.ReflTransGen (E1 st0)

theorem Reach1.refl' (st0 : Day) (x : Nat) : Reach1 st0 x x :=
  Relation.ReflTransGen.refl

/-- Depth never increases along descending reachability. -/
theorem Reach1_depth_le {st0 : Day} {r x : Nat} (h : Reach1 st0 r x) :
    (st0.f x).depth ≤ (st0.f r).depth := by
  induction h with
  | refl => exact le_refl _
  | tail _ he ih => exact le_trans (le_of_lt he.2) ih

/-- Reachable targets stay below `n` when the source is. -/
theorem Reach1_lt_n {st0 : Day}
    (hnbr_lt : ∀ x, ∀ y ∈ (st0.f x).neighbors, y < st0.n)
    {r x : Nat} (h : Reach1 st0 r x) (hr : r < st0.n) : x < st0.n := by
  induction h with
  | refl => exact hr
  | tail _ he ih => exact hnbr_lt _ _ he.1

theorem unvisited_pos {st : Day} {s : Nat} (hs : s < st.n)
    (hv : ¬(st.f s).visited) : 1 ≤ unvisitedCount st := by
  unfold unvisitedCount
  have : s ∈ (List.range st.n).filter fun i => ¬(st.f i).visited := by
    rw [List.mem_filter, List.mem_range]
    exact ⟨hs, decide_eq_true hv⟩
  calc 1 = [s].length := rfl
    _ ≤ _ := nodup_subset_length (List.nodup_singleton _)
      (fun x hx => by rw [List.mem_singleton.1 hx]; exact this)

/-- Precondition / global invariant of pass 1 at threshold `m`, with a set
`EX` of in-flight nodes exempt from the closedness obligation. -/
def Dfs1Pre (st0 : Day) (EX : Nat → Prop) (m : Nat) (st : Day) : Prop :=
  VP st0 st ∧
  (∀ x, (st.f x).visited → m ≤ (st.f x).pathDepth) ∧
  (∀ x, (st.f x).visited → (st0.f x).depth + 1 ≤ (st.f x).pathDepth) ∧
  (∀ x, (st.f x).visited → ¬EX x → ∀ y, E1 st0 x y →
    (st.f y).visited ∧ (st.f x).pathDepth ≤ (st.f y).pathDepth)

theorem unvisitedCount_zero {st : Day} (h : unvisitedCount st = 0) :
    ∀ x < st.n, (st.f x).visited := by
  intro x hx
  by_contra hv
  have := unvisited_pos hx hv
  omega

theorem dfs1List_id {fuel s m : Nat} {js : List Nat} {st : Day}
    (h : ∀ j ∈ js, (st.f j).visited) : dfs1List (dfs1 fuel) s m js st = st := by
  induction js with
  | nil => rw [dfs1List]
  | cons j js' ih =>
      rw [dfs1List]
      have hvj : (st.f j).visited := h j (List.mem_cons_self _ _)
      rw [if_neg (by intro hc; exact hc.1 hvj)]
      exact ih fun x hx => h x (List.mem_cons_of_mem _ hx)

/-- The combined specification of `dfs1` and `dfs1List`, proved by induction
on fuel.  `dfs1` visits exactly the still-unvisited blocks descending-
reachable from the root, stamps `pathDepth = m` on them, and maintains the
global pass-1 invariant. -/
theorem dfs1_spec (st0 : Day)
    (hnbr_lt : ∀ x, ∀ y ∈ (st0.f x).neighbors, y < st0.n) :
    ∀ fuel : Nat,
      (∀ (s m : Nat) (st : Day) (EX : Nat → Prop),
        Dfs1Pre st0 EX m st →
        ¬(st.f s).visited → s < st0.n → (st0.f s).depth + 1 ≤ m →
        unvisitedCount st ≤ fuel →
        Dfs1Pre st0 EX m (dfs1 fuel s m st) ∧
        (∀ x, (st.f x).visited → (dfs1 fuel s m st).f x = st.f x) ∧
        ((dfs1 fuel s m st).f s).visited = true ∧
        (∀ x, ¬(st.f x).visited → ((dfs1 fuel s m st).f x).visited →
          Reach1 st0 s x ∧ ((dfs1 fuel s m st).f x).pathDepth = m) ∧
        unvisitedCount (dfs1 fuel s m st) ≤ unvisitedCount st) ∧
      (∀ (s m : Nat) (js : List Nat) (st : Day) (EX : Nat → Prop),
        Dfs1Pre st0 (fun x => EX x ∨ x = s) m st →
        (st.f s).visited = true → (st.f s).pathDepth = m →
        s < st0.n → (st0.f s).depth + 1 ≤ m →
        (∀ j ∈ js, j ∈ (st0.f s).neighbors) →
        unvisitedCount st ≤ fuel →
        Dfs1Pre st0 (fun x => EX x ∨ x = s) m (dfs1List (dfs1 fuel) s m js st) ∧
        (∀ x, (st.f x).visited → (dfs1List (dfs1 fuel) s m js st).f x = st.f x) ∧
        (∀ x, ¬(st.f x).visited → ((dfs1List (dfs1 fuel) s m js st).f x).visited →
          Reach1 st0 s x ∧ ((dfs1List (dfs1 fuel) s m js st).f x).pathDepth = m) ∧
        (∀ j ∈ js, E1 st0 s j → ((dfs1List (dfs1 fuel) s m js st).f j).visited = true ∧
          m ≤ ((dfs1List (dfs1 fuel) s m js st).f j).pathDepth) ∧
        unvisitedCount (dfs1List (dfs1 fuel) s m js st) ≤ unvisitedCount st) := by
  intro fuel
  induction fuel with
  | zero =>
      constructor
      · intro s m st EX hpre hvis hsn hm hfuel
        exfalso
        have hsn' : s < st.n := by rw [hpre.1.1]; exact hsn
        have := unvisited_pos hsn' hvis
        omega
      · intro s m js st EX hpre hviss hpds hsn hm hjs hfuel
        have hz : unvisitedCount st = 0 := Nat.le_zero.1 hfuel
        have hall : ∀ j ∈ js, (st.f j).visited := by
          intro j hj
          have : j < st.n := by
            rw [hpre.1.1]
            exact hnbr_lt s j (hjs j hj)
          exact unvisitedCount_zero hz j this
        rw [dfs1List_id hall]
        refine ⟨hpre, fun x _ => rfl, ?_, ?_, le_refl _⟩
        · intro x hx hx'
          exact absurd hx' hx
        · intro j hj _
          exact ⟨hall j hj, hpre.2.1 j (hall j hj)⟩
  | succ f ih =>
      obtain ⟨ihP, ihQ⟩ := ih
      have hP : ∀ (s m : Nat) (st : Day) (EX : Nat → Prop),
          Dfs1Pre st0 EX m st →
          ¬(st.f s).visited → s < st0.n → (st0.f s).depth + 1 ≤ m →
          unvisitedCount st ≤ f + 1 →
          Dfs1Pre st0 EX m (dfs1 (f + 1) s m st) ∧
          (∀ x, (st.f x).visited → (dfs1 (f + 1) s m st).f x = st.f x) ∧
          ((dfs1 (f + 1) s m st).f s).visited = true ∧
          (∀ x, ¬(st.f x).visited → ((dfs1 (f + 1) s m st).f x).visited →
            Reach1 st0 s x ∧ ((dfs1 (f + 1) s m st).f x).pathDepth = m) ∧
          unvisitedCount (dfs1 (f + 1) s m st) ≤ unvisitedCount st := by
        intro s m st EX hpre hvis hsn hm hfuel
        obtain ⟨hvp, hgood, hdok, hclosed⟩ := hpre
        rw [dfs1]
        set st1 := st.upd s (fun b => { b with visited := true, pathDepth := m })
          with hst1
        have hf1_s : st1.f s = { st.f s with visited := true, pathDepth := m } :=
          Day.upd_f_same st s _
        have hf1_other : ∀ j, j ≠ s → st1.f j = st.f j :=
          fun j hj => Day.upd_f_other st _ hj
        have hvis1_s : (st1.f s).visited = true := by rw [hf1_s]
        have hpd1_s : (st1.f s).pathDepth = m := by rw [hf1_s]
        have hvp1 : VP st0 st1 := by
          refine ⟨hvp.1, hvp.2.1, fun j => ?_⟩
          rcases eq_or_ne j s with rfl | hj
          · rw [hf1_s, hvp.2.2 j]
          · rw [hf1_other j hj]
            exact hvp.2.2 j
        have hnbrs1 : (st1.f s).neighbors = (st0.f s).neighbors :=
          vpFrame_nbrs (hvp1.2.2 s)
        have hvis1 : ∀ x, (st1.f x).visited → x = s ∨ (st.f x).visited := by
          intro x hx
          rcases eq_or_ne x s with rfl | hxs
          · exact Or.inl rfl
          · right
            rw [hf1_other x hxs] at hx
            exact hx
        have hpre1 : Dfs1Pre st0 (fun x => EX x ∨ x = s) m st1 := by
          refine ⟨hvp1, ?_, ?_, ?_⟩
          · intro x hx
            rcases hvis1 x hx with rfl | hx'
            · rw [hpd1_s]
            · rw [hf1_other x (fun he => hvis (he ▸ hx'))]
              exact hgood x hx'
          · intro x hx
            rcases hvis1 x hx with rfl | hx'
            · rw [hpd1_s]
              exact hm
            · rw [hf1_other x (fun he => hvis (he ▸ hx'))]
              exact hdok x hx'
          · intro x hx hex y hey
            rcases hvis1 x hx with rfl | hx'
            · exact absurd (Or.inr rfl) hex
            · have hxs : x ≠ s := fun he => hvis (he ▸ hx')
              rw [hf1_other x hxs] at hx ⊢
              have hys : y ≠ s := by
                intro he
                subst he
                exact hvis (hclosed x hx (fun h => hex (Or.inl h)) y hey).1
              rw [hf1_other y hys]
              exact hclosed x hx (fun h => hex (Or.inl h)) y hey
        have hcount1 : unvisitedCount st1 + 1 = unvisitedCount st := by
          refine unvisitedCount_mark ?_ hvis (fun b => rfl)
          rw [hvp.1]
          exact hsn
        have hfuel1 : unvisitedCount st1 ≤ f := by omega
        have hq := ihQ s m ((st1.f s).neighbors) st1 EX hpre1 hvis1_s hpd1_s hsn hm
          (by rw [hnbrs1]; exact fun j hj => hj) hfuel1
        obtain ⟨hqpre, hqfrozen, hqnew, hqjs, hqcount⟩ := hq
        set stF := dfs1List (dfs1 f) s m ((st1.f s).neighbors) st1 with hstF
        have hfrozen : ∀ x, (st.f x).visited → stF.f x = st.f x := by
          intro x hx
          have hxs : x ≠ s := fun he => hvis (he ▸ hx)
          rw [hqfrozen x (by rw [hf1_other x hxs]; exact hx), hf1_other x hxs]
        have hsF : stF.f s = st1.f s := hqfrozen s hvis1_s
        have hvisF_s : (stF.f s).visited = true := by rw [hsF]; exact hvis1_s
        have hpdF_s : (stF.f s).pathDepth = m := by rw [hsF]; exact hpd1_s
        refine ⟨?_, hfrozen, hvisF_s, ?_, ?_⟩
        · obtain ⟨hvpF, hgoodF, hdokF, hclosedF⟩ := hqpre
          refine ⟨hvpF, hgoodF, hdokF, ?_⟩
          intro x hx hex y hey
          rcases eq_or_ne x s with rfl | hxs
          · have hyj : y ∈ (st0.f x).neighbors := hey.1
            have := hqjs y (by rw [hnbrs1]; exact hyj) hey
            rw [hpdF_s]
            exact ⟨this.1, this.2⟩
          · exact hclosedF x hx (fun h => hex (by cases h with
              | inl h => exact h
              | inr h => exact absurd h hxs)) y hey
        · intro x hx hxF
          rcases eq_or_ne x s with rfl | hxs
          · exact ⟨Reach1.refl' st0 x, hpdF_s⟩
          · have hx1 : ¬(st1.f x).visited := by
              rw [hf1_other x hxs]
              exact hx
            exact hqnew x hx1 hxF
        · omega
      refine ⟨hP, ?_⟩
      intro s m js st EX hpre hviss hpds hsn hm hjs hfuel
      induction js generalizing st with
      | nil =>
          rw [dfs1List]
          refine ⟨hpre, fun x _ => rfl, ?_, ?_, le_refl _⟩
          · intro x hx hx'
            exact absurd hx' hx
          · intro j hj
            exact absurd hj (List.not_mem_nil j)
      | cons j js' ihjs =>
          rw [dfs1List]
          have hjnbr : j ∈ (st0.f s).neighbors := hjs j (List.mem_cons_self _ _)
          have hjn : j < st0.n := hnbr_lt s j hjnbr
          have hdepth_eq : ∀ x, (st.f x).depth = (st0.f x).depth :=
            fun x => vpFrame_depth (hpre.1.2.2 x)
          by_cases helig : ¬(st.f j).visited ∧ (st.f j).depth < (st.f s).depth
          · rw [if_pos helig]
            have hjm : (st0.f j).depth + 1 ≤ m := by
              have h1 := helig.2
              rw [hdepth_eq j, hdepth_eq s] at h1
              omega
            have hpcall := hP j m st (fun x => EX x ∨ x = s) hpre helig.1 hjn hjm
              (by omega)
            obtain ⟨hppre, hpfrozen, hpviss, hpnew, hpcount⟩ := hpcall
            set st2 := dfs1 (f + 1) j m st with hst2
            have hE1sj : E1 st0 s j := by
              refine ⟨hjnbr, ?_⟩
              have h1 := helig.2
              rw [hdepth_eq j, hdepth_eq s] at h1
              exact h1
            have hviss2 : (st2.f s).visited = true := by
              rw [hpfrozen s hviss]
              exact hviss
            have hpds2 : (st2.f s).pathDepth = m := by
              rw [hpfrozen s hviss]
              exact hpds
            have hrest := ihjs st2 hppre hviss2 hpds2
              (fun x hx => hjs x (List.mem_cons_of_mem _ hx)) (by omega)
            obtain ⟨hrpre, hrfrozen, hrnew, hrjs, hrcount⟩ := hrest
            set stF := dfs1List (dfs1 (f + 1)) s m js' st2 with hstF
            have hfrozen : ∀ x, (st.f x).visited → stF.f x = st.f x := by
              intro x hx
              rw [hrfrozen x (by rw [hpfrozen x hx]; exact hx), hpfrozen x hx]
            have hjF : (stF.f j).visited = true ∧ m ≤ (stF.f j).pathDepth := by
              have hj2 : (st2.f j).visited = true := hpviss
              have hjfr : stF.f j = st2.f j := hrfrozen j hj2
              have hv : (stF.f j).visited = true := by rw [hjfr]; exact hj2
              exact ⟨hv, hrpre.2.1 j hv⟩
            refine ⟨hrpre, hfrozen, ?_, ?_, by omega⟩
            · intro x hx hxF
              by_cases hx2 : (st2.f x).visited
              · have := hpnew x hx hx2
                refine ⟨Relation.ReflTransGen.head hE1sj this.1, ?_⟩
                rw [hrfrozen x hx2]
                exact this.2
              · exact hrnew x hx2 hxF
            · intro y hy hey
              rcases List.mem_cons.1 hy with rfl | hy'
              · exact hjF
              · exact hrjs y hy' hey
          · rw [if_neg helig]
            have hrest := ihjs st hpre hviss hpds
              (fun x hx => hjs x (List.mem_cons_of_mem _ hx)) hfuel
            obtain ⟨hrpre, hrfrozen, hrnew, hrjs, hrcount⟩ := hrest
            refine ⟨hrpre, hrfrozen, hrnew, ?_, hrcount⟩
            intro y hy hey
            rcases List.mem_cons.1 hy with rfl | hy'
            · -- the neighbor is already visited (else it would be eligible)
              have hvy : (st.f y).visited := by
                by_contra hvy
                refine helig ⟨hvy, ?_⟩
                have := hey.2
                rw [hdepth_eq y, hdepth_eq s]
                exact this
              rw [hrfrozen y hvy]
              exact ⟨hvy, hpre.2.1 y hvy⟩
            · exact hrjs y hy' hey

/-- The invariant of the outer loop of pass 1 (roots processed in descending
depth order); `todo` is the list of roots not yet processed. -/
def Pass1Inv (st0 : Day) (todo : List Nat) (st : Day) : Prop :=
  VP st0 st ∧
  (∀ x, (st.f x).visited → (st0.f x).depth + 1 ≤ (st.f x).pathDepth) ∧
  (∀ x, (st.f x).visited → ∀ y, E1 st0 x y →
    (st.f y).visited ∧ (st.f x).pathDepth ≤ (st.f y).pathDepth) ∧
  (∀ r ∈ todo, ∀ x, (st.f x).visited → (st0.f r).depth + 1 ≤ (st.f x).pathDepth) ∧
  (∀ x, (st.f x).visited →
    ∃ rr, rr < st0.n ∧ Reach1 st0 rr x ∧ (st.f x).pathDepth = (st0.f rr).depth + 1)

/-- The outer loop of pass 1: starting from an all-unvisited base state and
processing roots in descending depth order, it visits every root and
establishes the pass-1 postconditions. -/
theorem pass1_fold (st0 : Day)
    (hnbr_lt : ∀ x, ∀ y ∈ (st0.f x).neighbors, y < st0.n)
    (hn_ord : ∀ x ∈ st0.order, x < st0.n) :
    ∀ (todo done : List Nat) (st : Day), st0.order = done ++ todo →
      todo.Pairwise (fun i j => (st0.f j).depth ≤ (st0.f i).depth) →
      Pass1Inv st0 todo st → (∀ r ∈ done, (st.f r).visited) →
      Pass1Inv st0 []
        (todo.foldl
          (fun s i => if (s.f i).visited then s else dfs1 s.n i ((s.f i).depth + 1) s)
          st) ∧
      (∀ r ∈ st0.order,
        ((todo.foldl
          (fun s i => if (s.f i).visited then s else dfs1 s.n i ((s.f i).depth + 1) s)
          st).f r).visited) := by
  intro todo
  induction todo with
  | nil =>
      intro done st hsplit hsort hinv hdone
      rw [List.foldl_nil]
      refine ⟨⟨hinv.1, hinv.2.1, hinv.2.2.1, fun r hr => absurd hr (List.not_mem_nil r),
        hinv.2.2.2.2⟩, ?_⟩
      intro r hr
      rw [hsplit, List.append_nil] at hr
      exact hdone r hr
  | cons i todo' ih =>
      intro done st hsplit hsort hinv hdone
      rw [List.foldl_cons]
      obtain ⟨hvp, hdok, hclosed, htodo, hex⟩ := hinv
      have hi_lt : i < st0.n := by
        refine hn_ord i ?_
        rw [hsplit]
        exact List.mem_append.2 (Or.inr (List.mem_cons_self _ _))
      have hsplit' : st0.order = (done ++ [i]) ++ todo' := by
        rw [hsplit, List.append_assoc]
        rfl
      have hsort' : todo'.Pairwise (fun a b => (st0.f b).depth ≤ (st0.f a).depth) :=
        (List.pairwise_cons.1 hsort).2
      by_cases hvis : (st.f i).visited
      · rw [if_pos hvis]
        refine ih (done ++ [i]) st hsplit' hsort' ?_ ?_
        · exact ⟨hvp, hdok, hclosed,
            fun r hr => htodo r (List.mem_cons_of_mem _ hr), hex⟩
        · intro r hr
          rcases List.mem_append.1 hr with hr' | hr'
          · exact hdone r hr'
          · rw [List.mem_singleton.1 hr']
            exact hvis
      · rw [if_neg hvis]
        have hdepth_i : (st.f i).depth = (st0.f i).depth := vpFrame_depth (hvp.2.2 i)
        have hn_st : st.n = st0.n := hvp.1
        set m := (st.f i).depth + 1 with hm
        have hm0 : m = (st0.f i).depth + 1 := by rw [hm, hdepth_i]
        have hpre : Dfs1Pre st0 (fun _ => False) m st := by
          refine ⟨hvp, ?_, hdok, ?_⟩
          · intro x hx
            rw [hm0]
            exact htodo i (List.mem_cons_self _ _) x hx
          · intro x hx _ y hey
            exact hclosed x hx y hey
        have hcall := (dfs1_spec st0 hnbr_lt st.n).1 i m st (fun _ => False) hpre hvis
          hi_lt (by omega) (unvisitedCount_le st)
        obtain ⟨⟨hvp', hgood', hdok', hclosed'⟩, hfrozen, hvisi, hnew, hcount⟩ := hcall
        set st2 := dfs1 st.n i m st with hst2
        refine ih (done ++ [i]) st2 hsplit' hsort' ?_ ?_
        · refine ⟨hvp', hdok', ?_, ?_, ?_⟩
          · intro x hx y hey
            exact hclosed' x hx (fun h => h) y hey
          · intro r hr x hx
            have hdr : (st0.f r).depth ≤ (st0.f i).depth :=
              (List.pairwise_cons.1 hsort).1 r hr
            by_cases hxold : (st.f x).visited
            · rw [hfrozen x hxold]
              exact htodo r (List.mem_cons_of_mem _ hr) x (by rwa [hfrozen x hxold] at hx)
            · have := (hnew x hxold hx).2
              rw [this, hm0]
              omega
          · intro x hx
            by_cases hxold : (st.f x).visited
            · rw [hfrozen x hxold]
              exact hex x hxold
            · obtain ⟨hreach, hpd⟩ := hnew x hxold hx
              exact ⟨i, hi_lt, hreach, by rw [hpd, hm0]⟩
        · intro r hr
          rcases List.mem_append.1 hr with hr' | hr'
          · have := hdone r hr'
            rw [hfrozen r this]
            exact this
          · rw [List.mem_singleton.1 hr']
            exact hvisi

/-! ## The fixed-block characterization (DFSFindFixed) -/

mutual

/-- The recursion `DFSFindFixed` computes, freed from traversal order: a
block is fixed iff its depth is `0` or some neighbor exactly one depth lower
with the same `pathDepth` is (recursively) fixed. -/
def Ffix (st0 : Day) (x : Nat) : Bool :=
  if (st0.f x).depth = 0 then true
  else Faux st0 x ((st0.f x).neighbors)
  termination_by ((st0.f x).depth, (st0.f x).neighbors.length + 1)
  decreasing_by
    all_goals simp_wf
    all_goals first
      | (apply Prod.Lex.right; omega)
      | (apply Prod.Lex.left; omega)

/-- Scan of the neighbor list inside `Ffix`. -/
def Faux (st0 : Day) (x : Nat) : List Nat → Bool
  | [] => false
  | j :: js =>
      (if h : (st0.f x).depth = (st0.f j).depth + 1 ∧
          (st0.f x).pathDepth = (st0.f j).pathDepth then Ffix st0 j else false)
      || Faux st0 x js
  termination_by js => ((st0.f x).depth, js.length)
  decreasing_by
    all_goals simp_wf
    all_goals first
      | (apply Prod.Lex.right; omega)
      | (apply Prod.Lex.left; omega)

end

/-- A `samePath` step: neighbor at depth exactly one lower with equal
`pathDepth`. -/
def ES (st0 : Day) (a b : Nat) : Prop :=
  b ∈ (st0.f a).neighbors ∧ (st0.f a).depth = (st0.f b).depth + 1 ∧
    (st0.f a).pathDepth = (st0.f b).pathDepth

/-- Frame of pass 2: only `visited` and `isFixed` may differ from `st0`. -/
def VF (st0 st : Day) : Prop :=
  st.n = st0.n ∧ st.order = st0.order ∧
  ∀ j, st.f j = { st0.f j with visited := (st.f j).visited,
                               isFixed := (st.f j).isFixed }

theorem vfFrame_depth {b c : SB}
    (h : b = { c with visited := b.visited, isFixed := b.isFixed }) :
    b.depth = c.depth := by rw [h]

theorem vfFrame_pd {b c : SB}
    (h : b = { c with visited := b.visited, isFixed := b.isFixed }) :
    b.pathDepth = c.pathDepth := by rw [h]

theorem vfFrame_nbrs {b c : SB}
    (h : b = { c with visited := b.visited, isFixed := b.isFixed }) :
    b.neighbors = c.neighbors := by rw [h]

/-- Global invariant of pass 2: every settled (visited, not in-flight) block
carries its final `isFixed = Ffix` value and has all its `samePath` lower
neighbors visited. -/
def Dfs2Pre (st0 : Day) (EX : Nat → Prop) (st : Day) : Prop :=
  VF st0 st ∧
  (∀ x, (st.f x).visited → ¬EX x →
    (st.f x).isFixed = Ffix st0 x ∧ ∀ y, ES st0 x y → (st.f y).visited)

theorem dfsFList_id {fuel s : Nat} {js : List Nat} {flag : Bool} {st : Day}
    (h : ∀ j ∈ js, (st.f j).visited) :
    (dfsFList (dfsF fuel) s js flag st).2 = st := by
  induction js generalizing flag with
  | nil => rw [dfsFList]
  | cons j js' ih =>
      rw [dfsFList]
      dsimp only
      rw [if_pos (h j (List.mem_cons_self _ _))]
      exact ih fun x hx => h x (List.mem_cons_of_mem _ hx)

/-- The combined specification of `dfsF` and `dfsFList`: the recursion
computes exactly `Ffix` on every block it settles, independent of traversal
order. -/
theorem dfsF_spec (st0 : Day)
    (hnbr_lt : ∀ x, ∀ y ∈ (st0.f x).neighbors, y < st0.n) :
    ∀ fuel : Nat,
      (∀ (s : Nat) (st : Day) (EX : Nat → Prop),
        Dfs2Pre st0 EX st →
        (∀ e, EX e → (st.f e).visited ∧ (st0.f s).depth < (st0.f e).depth) →
        ¬(st.f s).visited → s < st0.n → unvisitedCount st ≤ fuel →
        Dfs2Pre st0 EX (dfsF fuel s st).2 ∧
        (∀ x, (st.f x).visited → (dfsF fuel s st).2.f x = st.f x) ∧
        (∀ x, ¬((dfsF fuel s st).2.f x).visited → (dfsF fuel s st).2.f x = st.f x) ∧
        ((dfsF fuel s st).2.f s).visited = true ∧
        (dfsF fuel s st).1 = Ffix st0 s ∧
        ((dfsF fuel s st).2.f s).isFixed = Ffix st0 s ∧
        unvisitedCount (dfsF fuel s st).2 ≤ unvisitedCount st) ∧
      (∀ (s : Nat) (js : List Nat) (flag : Bool) (st : Day) (EX : Nat → Prop),
        Dfs2Pre st0 (fun x => EX x ∨ x = s) st →
        (∀ e, EX e → (st.f e).visited ∧ (st0.f s).depth < (st0.f e).depth) →
        (st.f s).visited = true → s < st0.n →
        (∀ j ∈ js, j ∈ (st0.f s).neighbors) →
        unvisitedCount st ≤ fuel →
        Dfs2Pre st0 (fun x => EX x ∨ x = s) (dfsFList (dfsF fuel) s js flag st).2 ∧
        (∀ x, (st.f x).visited → (dfsFList (dfsF fuel) s js flag st).2.f x = st.f x) ∧
        (∀ x, ¬((dfsFList (dfsF fuel) s js flag st).2.f x).visited →
          (dfsFList (dfsF fuel) s js flag st).2.f x = st.f x) ∧
        (dfsFList (dfsF fuel) s js flag st).1 = (flag || Faux st0 s js) ∧
        (∀ j ∈ js, ES st0 s j → ((dfsFList (dfsF fuel) s js flag st).2.f j).visited = true) ∧
        unvisitedCount (dfsFList (dfsF fuel) s js flag st).2 ≤ unvisitedCount st) := by
  intro fuel
  induction fuel with
  | zero =>
      constructor
      · intro s st EX hpre hex hvis hsn hfuel
        exfalso
        have hsn' : s < st.n := by rw [hpre.1.1]; exact hsn
        have := unvisited_pos hsn' hvis
        omega
      · intro s js flag st EX hpre hex hviss hsn hjs hfuel
        have hz : unvisitedCount st = 0 := Nat.le_zero.1 hfuel
        have hall : ∀ j ∈ js, (st.f j).visited := by
          intro j hj
          have : j < st.n := by
            rw [hpre.1.1]
            exact hnbr_lt s j (hjs j hj)
          exact unvisitedCount_zero hz j this
        -- compute the flag value by list induction; the state never changes
        have hmain : ∀ (js' : List Nat) (flag' : Bool),
            (∀ j ∈ js', (st.f j).visited) →
            (∀ j ∈ js', j ∈ (st0.f s).neighbors) →
            (dfsFList (dfsF 0) s js' flag' st).2 = st ∧
            (dfsFList (dfsF 0) s js' flag' st).1 = (flag' || Faux st0 s js') := by
          intro js'
          induction js' with
          | nil =>
              intro flag' _ _
              rw [dfsFList, Faux]
              exact ⟨rfl, by simp⟩
          | cons j js'' ih =>
              intro flag' hall' hjs'
              rw [dfsFList]
              dsimp only
              have hvj : (st.f j).visited := hall' j (List.mem_cons_self _ _)
              rw [if_pos hvj]
              obtain ⟨h1, h2⟩ := ih _ (fun x hx => hall' x (List.mem_cons_of_mem _ hx))
                (fun x hx => hjs' x (List.mem_cons_of_mem _ hx))
              refine ⟨h1, ?_⟩
              rw [h2, Faux]
              have hdepth : (st.f s).depth = (st0.f s).depth := vfFrame_depth (hpre.1.2.2 s)
              have hdj : (st.f j).depth = (st0.f j).depth := vfFrame_depth (hpre.1.2.2 j)
              have hpd : (st.f s).pathDepth = (st0.f s).pathDepth := vfFrame_pd (hpre.1.2.2 s)
              have hpdj : (st.f j).pathDepth = (st0.f j).pathDepth := vfFrame_pd (hpre.1.2.2 j)
              by_cases hsp : (st0.f s).depth = (st0.f j).depth + 1 ∧
                  (st0.f s).pathDepth = (st0.f j).pathDepth
              · rw [dif_pos hsp]
                have hspb : ((st.f s).depth = (st.f j).depth + 1 ∧
                    (st.f s).pathDepth = (st.f j).pathDepth) := by
                  rw [hdepth, hdj, hpd, hpdj]
                  exact hsp
                have hjne : j ≠ s := by
                  intro he
                  rw [he] at hsp
                  omega
                have hjnEX : ¬(EX j ∨ j = s) := by
                  rintro (hEXj | he)
                  · have := (hex j hEXj).2
                    omega
                  · exact hjne he
                have hfix : (st.f j).isFixed = Ffix st0 j :=
                  (hpre.2 j hvj hjnEX).1
                rw [decide_eq_true hspb, hfix]
                cases Ffix st0 j <;> cases flag' <;> simp
              · rw [dif_neg hsp]
                have hspb : ¬((st.f s).depth = (st.f j).depth + 1 ∧
                    (st.f s).pathDepth = (st.f j).pathDepth) := by
                  rw [hdepth, hdj, hpd, hpdj]
                  exact hsp
                rw [decide_eq_false hspb]
                cases flag' <;> simp
        obtain ⟨h1, h2⟩ := hmain js flag hall hjs
        rw [h1, h2]
        refine ⟨hpre, fun x _ => rfl, fun x _ => rfl, rfl, ?_, le_refl _⟩
        intro j hj _
        exact hall j hj
  | succ f ih =>
      obtain ⟨ihP, ihQ⟩ := ih
      have hP : ∀ (s : Nat) (st : Day) (EX : Nat → Prop),
          Dfs2Pre st0 EX st →
          (∀ e, EX e → (st.f e).visited ∧ (st0.f s).depth < (st0.f e).depth) →
          ¬(st.f s).visited → s < st0.n → unvisitedCount st ≤ f + 1 →
          Dfs2Pre st0 EX (dfsF (f + 1) s st).2 ∧
          (∀ x, (st.f x).visited → (dfsF (f + 1) s st).2.f x = st.f x) ∧
          (∀ x, ¬((dfsF (f + 1) s st).2.f x).visited →
            (dfsF (f + 1) s st).2.f x = st.f x) ∧
          ((dfsF (f + 1) s st).2.f s).visited = true ∧
          (dfsF (f + 1) s st).1 = Ffix st0 s ∧
          ((dfsF (f + 1) s st).2.f s).isFixed = Ffix st0 s ∧
          unvisitedCount (dfsF (f + 1) s st).2 ≤ unvisitedCount st := by
        intro s st EX hpre hex hvis hsn hfuel
        obtain ⟨hvf, hsettle⟩ := hpre
        rw [dfsF]
        dsimp only
        set st1 := st.upd s (fun b => { b with visited := true }) with hst1
        have hf1_s : st1.f s = { st.f s with visited := true } := Day.upd_f_same st s _
        have hf1_other : ∀ j, j ≠ s → st1.f j = st.f j :=
          fun j hj => Day.upd_f_other st _ hj
        have hvis1_s : (st1.f s).visited = true := by rw [hf1_s]
        have hvf1 : VF st0 st1 := by
          refine ⟨hvf.1, hvf.2.1, fun j => ?_⟩
          rcases eq_or_ne j s with rfl | hj
          · rw [hf1_s, hvf.2.2 j]
          · rw [hf1_other j hj]
            exact hvf.2.2 j
        have hdep1 : (st1.f s).depth = (st0.f s).depth := vfFrame_depth (hvf1.2.2 s)
        have hnbrs1 : (st1.f s).neighbors = (st0.f s).neighbors :=
          vfFrame_nbrs (hvf1.2.2 s)
        have hvis1 : ∀ x, (st1.f x).visited → x = s ∨ (st.f x).visited := by
          intro x hx
          rcases eq_or_ne x s with rfl | hxs
          · exact Or.inl rfl
          · right
            rw [hf1_other x hxs] at hx
            exact hx
        have hcount1 : unvisitedCount st1 + 1 = unvisitedCount st := by
          refine unvisitedCount_mark ?_ hvis (fun b => rfl)
          rw [hvf.1]
          exact hsn
        by_cases h0 : (st1.f s).depth = 0
        · rw [if_pos h0]
          dsimp only
          have hFfix : Ffix st0 s = true := by
            rw [Ffix, if_pos (by rw [← hdep1]; exact h0)]
          set stT := st1.upd s (fun b => { b with isFixed := true }) with hstT
          have hT_s : stT.f s = { st1.f s with isFixed := true } := Day.upd_f_same st1 s _
          have hT_other : ∀ j, j ≠ s → stT.f j = st1.f j :=
            fun j hj => Day.upd_f_other st1 _ hj
          have hT_frame : ∀ j, j ≠ s → stT.f j = st.f j :=
            fun j hj => (hT_other j hj).trans (hf1_other j hj)
          have hvisT_s : (stT.f s).visited = true := by rw [hT_s, hf1_s]
          have hfixT_s : (stT.f s).isFixed = true := by rw [hT_s]
          refine ⟨⟨?_, ?_⟩, ?_, ?_, hvisT_s, by rw [hFfix], by rw [hfixT_s, hFfix], ?_⟩
          · refine ⟨hvf.1, hvf.2.1, fun j => ?_⟩
            rcases eq_or_ne j s with rfl | hj
            · rw [hT_s, hf1_s, hvf.2.2 j]
            · rw [hT_frame j hj]
              exact hvf.2.2 j
          · intro x hx hexx
            rcases eq_or_ne x s with rfl | hxs
            · refine ⟨by rw [hfixT_s, hFfix], ?_⟩
              intro y hy
              exfalso
              have := hy.2.1
              rw [← hdep1] at this
              omega
            · rw [hT_frame x hxs] at hx ⊢
              obtain ⟨hfix, htgt⟩ := hsettle x hx hexx
              refine ⟨hfix, ?_⟩
              intro y hy
              have hvy := htgt y hy
              rcases eq_or_ne y s with rfl | hys
              · exact absurd hvy hvis
              · rw [hT_frame y hys]
                exact hvy
          · intro x hx
            have hxs : x ≠ s := fun he => hvis (he ▸ hx)
            exact hT_frame x hxs
          · intro x hx
            have hxs : x ≠ s := fun he => hx (he ▸ hvisT_s)
            exact hT_frame x hxs
          · have : unvisitedCount stT = unvisitedCount st1 := by
              refine unvisitedCount_congr rfl ?_
              intro i _
              rcases eq_or_ne i s with rfl | hi
              · rw [hT_s]
              · rw [hT_other i hi]
            omega
        · rw [if_neg h0]
          dsimp only
          have hpre1 : Dfs2Pre st0 (fun x => EX x ∨ x = s) st1 := by
            refine ⟨hvf1, ?_⟩
            intro x hx hexx
            have hxs : x ≠ s := fun he => hexx (Or.inr he)
            rw [hf1_other x hxs] at hx ⊢
            obtain ⟨hfix, htgt⟩ := hsettle x hx (fun h => hexx (Or.inl h))
            refine ⟨hfix, ?_⟩
            intro y hy
            have hvy := htgt y hy
            rcases eq_or_ne y s with rfl | hys
            · exact hvis1_s
            · rw [hf1_other y hys]
              exact hvy
          have hex1 : ∀ e, EX e → (st1.f e).visited ∧ (st0.f s).depth < (st0.f e).depth := by
            intro e he
            obtain ⟨hv, hd⟩ := hex e he
            refine ⟨?_, hd⟩
            rcases eq_or_ne e s with rfl | hes
            · exact hvis1_s
            · rw [hf1_other e hes]
              exact hv
          have hq := ihQ s ((st1.f s).neighbors) false st1 EX hpre1 hex1 hvis1_s hsn
            (by rw [hnbrs1]; exact fun j hj => hj) (by omega)
          obtain ⟨hqpre, hqfrozen, hquntouched, hqflag, hqjs, hqcount⟩ := hq
          set R := dfsFList (dfsF f) s ((st1.f s).neighbors) false st1 with hR
          have hFfix : Ffix st0 s = Faux st0 s ((st0.f s).neighbors) := by
            rw [Ffix, if_neg (by rw [← hdep1]; exact h0)]
          have hflag : R.1 = Ffix st0 s := by
            rw [hqflag, hFfix, hnbrs1]
            simp
          set stT := R.2.upd s (fun b => { b with isFixed := R.1 }) with hstT
          have hRs : R.2.f s = st1.f s := hqfrozen s hvis1_s
          have hT_s : stT.f s = { R.2.f s with isFixed := R.1 } := Day.upd_f_same R.2 s _
          have hT_other : ∀ j, j ≠ s → stT.f j = R.2.f j :=
            fun j hj => Day.upd_f_other R.2 _ hj
          have hvisT_s : (stT.f s).visited = true := by rw [hT_s, hRs, hf1_s]
          have hvisT : ∀ x, (R.2.f x).visited → (stT.f x).visited := by
            intro x hx
            rcases eq_or_ne x s with rfl | hxs
            · exact hvisT_s
            · rw [hT_other x hxs]
              exact hx
          refine ⟨⟨?_, ?_⟩, ?_, ?_, hvisT_s, hflag, by rw [hT_s, ← hflag], ?_⟩
          · obtain ⟨hvfR, _⟩ := hqpre
            refine ⟨hvfR.1, hvfR.2.1, fun j => ?_⟩
            rcases eq_or_ne j s with rfl | hj
            · rw [hT_s, hRs, hf1_s, hvf.2.2 j]
            · rw [hT_other j hj]
              exact hvfR.2.2 j
          · intro x hx hexx
            rcases eq_or_ne x s with rfl | hxs
            · refine ⟨by rw [hT_s, ← hflag], ?_⟩
              intro y hy
              exact hvisT y (hqjs y (by rw [hnbrs1]; exact hy.1) hy)
            · rw [hT_other x hxs] at hx ⊢
              obtain ⟨hfix, htgt⟩ := hqpre.2 x hx
                (fun hor => Or.elim hor hexx hxs)
              refine ⟨hfix, ?_⟩
              intro y hy
              exact hvisT y (htgt y hy)
          · intro x hx
            have hxs : x ≠ s := fun he => hvis (he ▸ hx)
            rw [hT_other x hxs, hqfrozen x (by rw [hf1_other x hxs]; exact hx),
              hf1_other x hxs]
          · intro x hx
            have hxs : x ≠ s := fun he => hx (he ▸ hvisT_s)
            rw [hT_other x hxs] at hx ⊢
            rw [hquntouched x hx, hf1_other x hxs]
          · have : unvisitedCount stT = unvisitedCount R.2 := by
              refine unvisitedCount_congr rfl ?_
              intro i _
              rcases eq_or_ne i s with rfl | hi
              · rw [hT_s]
              · rw [hT_other i hi]
            omega
      refine ⟨hP, ?_⟩
      intro s js flag st EX hpre hex hviss hsn hjs hfuel
      induction js generalizing flag st with
      | nil =>
          rw [dfsFList, Faux]
          refine ⟨hpre, fun x _ => rfl, fun x _ => rfl, by simp, ?_, le_refl _⟩
          intro j hj
          exact absurd hj (List.not_mem_nil j)
      | cons j js' ihjs =>
          rw [dfsFList]
          dsimp only
          have hjnbr : j ∈ (st0.f s).neighbors := hjs j (List.mem_cons_self _ _)
          have hjn : j < st0.n := hnbr_lt s j hjnbr
          have hds : (st.f s).depth = (st0.f s).depth := vfFrame_depth (hpre.1.2.2 s)
          have hdj : (st.f j).depth = (st0.f j).depth := vfFrame_depth (hpre.1.2.2 j)
          have hps : (st.f s).pathDepth = (st0.f s).pathDepth := vfFrame_pd (hpre.1.2.2 s)
          have hpj : (st.f j).pathDepth = (st0.f j).pathDepth := vfFrame_pd (hpre.1.2.2 j)
          have hsp_iff : ((st.f s).depth = (st.f j).depth + 1 ∧
              (st.f s).pathDepth = (st.f j).pathDepth) ↔
              ((st0.f s).depth = (st0.f j).depth + 1 ∧
               (st0.f s).pathDepth = (st0.f j).pathDepth) := by
            rw [hds, hdj, hps, hpj]
          by_cases hvj : (st.f j).visited
          · rw [if_pos hvj]
            have hcontrib : (((st.f j).isFixed && decide ((st.f s).depth = (st.f j).depth + 1 ∧
                (st.f s).pathDepth = (st.f j).pathDepth)) || flag) =
                (flag || (if (st0.f s).depth = (st0.f j).depth + 1 ∧
                  (st0.f s).pathDepth = (st0.f j).pathDepth then Ffix st0 j else false)) := by
              by_cases hsp : (st0.f s).depth = (st0.f j).depth + 1 ∧
                  (st0.f s).pathDepth = (st0.f j).pathDepth
              · have hjne : j ≠ s := by
                  intro he
                  rw [he] at hsp
                  omega
                have hjnEX : ¬(EX j ∨ j = s) := by
                  rintro (hEXj | he)
                  · have := (hex j hEXj).2
                    omega
                  · exact hjne he
                have hfix : (st.f j).isFixed = Ffix st0 j := (hpre.2 j hvj hjnEX).1
                rw [if_pos hsp, decide_eq_true (hsp_iff.2 hsp), hfix]
                cases Ffix st0 j <;> cases flag <;> simp
              · rw [if_neg hsp, decide_eq_false (fun h => hsp (hsp_iff.1 h))]
                cases flag <;> simp
            have hrest := ihjs (((st.f j).isFixed &&
                decide ((st.f s).depth = (st.f j).depth + 1 ∧
                  (st.f s).pathDepth = (st.f j).pathDepth)) || flag) st hpre hex hviss
              (fun x hx => hjs x (List.mem_cons_of_mem _ hx)) hfuel
            obtain ⟨hrpre, hrfrozen, hruntouched, hrflag, hrjs, hrcount⟩ := hrest
            refine ⟨hrpre, hrfrozen, hruntouched, ?_, ?_, hrcount⟩
            · rw [hrflag, hcontrib, Faux]
              cases flag <;> cases Faux st0 s js' <;>
                by_cases hsp : (st0.f s).depth = (st0.f j).depth + 1 ∧
                  (st0.f s).pathDepth = (st0.f j).pathDepth <;>
                simp [hsp]
            · intro y hy hey
              rcases List.mem_cons.1 hy with rfl | hy'
              · rw [hrfrozen y hvj]
                exact hvj
              · exact hrjs y hy' hey
          · rw [if_neg hvj]
            by_cases hsp : (st.f s).depth = (st.f j).depth + 1 ∧
                (st.f s).pathDepth = (st.f j).pathDepth
            · rw [if_pos hsp]
              have hsp0 := hsp_iff.1 hsp
              have hcall := hP j st (fun x => EX x ∨ x = s) hpre ?_ hvj hjn (by omega)
              rotate_left
              · rintro e (hEXe | rfl)
                · obtain ⟨hv, hd⟩ := hex e hEXe
                  exact ⟨hv, by omega⟩
                · exact ⟨hviss, by omega⟩
              obtain ⟨hppre, hpfrozen, hpuntouched, hpvisj, hpflagval, hpfixj, hpcount⟩ := hcall
              set st2 := (dfsF (f + 1) j st).2 with hst2
              have hviss2 : (st2.f s).visited = true := by
                rw [hpfrozen s hviss]
                exact hviss
              have hex2 : ∀ e, EX e → (st2.f e).visited ∧
                  (st0.f s).depth < (st0.f e).depth := by
                intro e he
                obtain ⟨hv, hd⟩ := hex e he
                exact ⟨by rw [hpfrozen e hv]; exact hv, hd⟩
              have hrest := ihjs ((dfsF (f + 1) j st).1 || flag) st2 hppre hex2 hviss2
                (fun x hx => hjs x (List.mem_cons_of_mem _ hx)) (by omega)
              obtain ⟨hrpre, hrfrozen, hruntouched, hrflag, hrjs, hrcount⟩ := hrest
              refine ⟨hrpre, ?_, ?_, ?_, ?_, by omega⟩
              · intro x hx
                rw [hrfrozen x (by rw [hpfrozen x hx]; exact hx), hpfrozen x hx]
              · intro x hx
                have h2 := hruntouched x hx
                have hnv2 : ¬(st2.f x).visited := by
                  intro hv
                  rw [hrfrozen x hv] at hx
                  exact hx hv
                rw [h2, hpuntouched x hnv2]
              · rw [hrflag, hpflagval, Faux, dif_pos hsp0]
                cases flag <;> cases Ffix st0 j <;> cases Faux st0 s js' <;> simp
              · intro y hy hey
                rcases List.mem_cons.1 hy with rfl | hy'
                · rw [hrfrozen y hpvisj]
                  exact hpvisj
                · exact hrjs y hy' hey
            · rw [if_neg hsp]
              have hrest := ihjs flag st hpre hex hviss
                (fun x hx => hjs x (List.mem_cons_of_mem _ hx)) hfuel
              obtain ⟨hrpre, hrfrozen, hruntouched, hrflag, hrjs, hrcount⟩ := hrest
              refine ⟨hrpre, hrfrozen, hruntouched, ?_, ?_, hrcount⟩
              · rw [hrflag, Faux, dif_neg (fun h => hsp (hsp_iff.2 h))]
                cases flag <;> simp
              · intro y hy hey
                rcases List.mem_cons.1 hy with rfl | hy'
                · exact absurd (hsp_iff.2 ⟨hey.2.1, hey.2.2⟩) hsp
                · exact hrjs y hy' hey

/-! ## resetVisited and the outer loop of pass 2 -/

theorem resetFold_f : ∀ (l : List Nat) (st : Day) (x : Nat),
    ((l.foldl (fun s i => s.upd i (fun b => { b with visited := false })) st).f x)
      = if x ∈ l then { st.f x with visited := false } else st.f x := by
  intro l
  induction l with
  | nil =>
      intro st x
      rw [List.foldl_nil, if_neg (List.not_mem_nil x)]
  | cons i l' ih =>
      intro st x
      rw [List.foldl_cons, ih]
      rcases eq_or_ne x i with rfl | hxi
      · rcases Decidable.em (x ∈ l') with hm | hm
        · rw [if_pos hm, if_pos (List.mem_cons_self _ _), Day.upd_f_same]
        · rw [if_neg hm, if_pos (List.mem_cons_self _ _), Day.upd_f_same]
      · rw [Day.upd_f_other st _ hxi]
        rcases Decidable.em (x ∈ l') with hm | hm
        · rw [if_pos hm, if_pos (List.mem_cons_of_mem _ hm)]
        · rw [if_neg hm, if_neg (by simp [hxi, hm])]

theorem resetFold_n (l : List Nat) (st : Day) :
    ((l.foldl (fun s i => s.upd i (fun b => { b with visited := false })) st).n) = st.n := by
  induction l generalizing st with
  | nil => rfl
  | cons i l' ih => rw [List.foldl_cons, ih]; rfl

theorem resetFold_order (l : List Nat) (st : Day) :
    ((l.foldl (fun s i => s.upd i (fun b => { b with visited := false })) st).order)
      = st.order := by
  induction l generalizing st with
  | nil => rfl
  | cons i l' ih => rw [List.foldl_cons, ih]; rfl

theorem resetVisited_f (st : Day) (x : Nat) :
    (resetVisited st).f x =
      if x ∈ st.order then { st.f x with visited := false } else st.f x :=
  resetFold_f st.order st x

theorem resetVisited_n (st : Day) : (resetVisited st).n = st.n := resetFold_n _ _

theorem resetVisited_order (st : Day) : (resetVisited st).order = st.order :=
  resetFold_order _ _

/-- The outer loop of pass 2: seeding `DFSFindFixed` at local depth-maxima
(or any other selection) maintains the pass-2 invariant with no exceptions,
and leaves unvisited blocks untouched. -/
theorem pass2_fold (st0 : Day)
    (hnbr_lt : ∀ x, ∀ y ∈ (st0.f x).neighbors, y < st0.n) :
    ∀ (todo : List Nat) (st : Day),
      Dfs2Pre st0 (fun _ => False) st → (∀ x ∈ todo, x < st0.n) →
      Dfs2Pre st0 (fun _ => False)
        (todo.foldl
          (fun s i =>
            if ¬(s.f i).visited ∧
                ((s.f i).neighbors.all fun v => (s.f v).depth < (s.f i).depth)
            then (dfsF s.n i s).2 else s)
          st) ∧
      (∀ x, ¬((todo.foldl
          (fun s i =>
            if ¬(s.f i).visited ∧
                ((s.f i).neighbors.all fun v => (s.f v).depth < (s.f i).depth)
            then (dfsF s.n i s).2 else s)
          st).f x).visited →
        (todo.foldl
          (fun s i =>
            if ¬(s.f i).visited ∧
                ((s.f i).neighbors.all fun v => (s.f v).depth < (s.f i).depth)
            then (dfsF s.n i s).2 else s)
          st).f x = st.f x) := by
  intro todo
  induction todo with
  | nil =>
      intro st hpre _
      rw [List.foldl_nil]
      exact ⟨hpre, fun x _ => rfl⟩
  | cons i todo' ih =>
      intro st hpre htodo
      rw [List.foldl_cons]
      by_cases hcond : ¬(st.f i).visited ∧
          ((st.f i).neighbors.all fun v => (st.f v).depth < (st.f i).depth)
      · rw [if_pos hcond]
        have hi_lt : i < st0.n := htodo i (List.mem_cons_self _ _)
        have hcall := (dfsF_spec st0 hnbr_lt st.n).1 i st (fun _ => False) hpre
          (fun e he => he.elim) hcond.1 hi_lt (unvisitedCount_le st)
        obtain ⟨hppre, hpfrozen, hpuntouched, hpvis, _, _, hpcount⟩ := hcall
        have hrest := ih (dfsF st.n i st).2 hppre
          (fun x hx => htodo x (List.mem_cons_of_mem _ hx))
        obtain ⟨hrpre, hruntouched⟩ := hrest
        refine ⟨hrpre, ?_⟩
        intro x hx
        have h2 := hruntouched x hx
        have hnv2 : ¬((dfsF st.n i st).2.f x).visited := by
          intro hv
          rw [h2] at hx
          exact hx hv
        rw [h2, hpuntouched x hnv2]
      · rw [if_neg hcond]
        exact ih st hpre (fun x hx => htodo x (List.mem_cons_of_mem _ hx))

/-- `Ffix` only depends on each block's `depth`, `pathDepth` and `neighbors`. -/
theorem Ffix_congr_aux (stA stB : Day)
    (hagree : ∀ j, (stA.f j).depth = (stB.f j).depth ∧
      (stA.f j).pathDepth = (stB.f j).pathDepth ∧
      (stA.f j).neighbors = (stB.f j).neighbors) :
    ∀ d : Nat,
      (∀ x, (stA.f x).depth ≤ d → ∀ js, Faux stA x js = Faux stB x js) ∧
      (∀ x, (stA.f x).depth ≤ d → Ffix stA x = Ffix stB x) := by
  intro d
  induction d with
  | zero =>
      have hfaux : ∀ x, (stA.f x).depth ≤ 0 → ∀ js, Faux stA x js = Faux stB x js := by
        intro x hx js
        have hd0 : (stA.f x).depth = 0 := Nat.le_zero.1 hx
        have hd0' : (stB.f x).depth = 0 := by rw [← (hagree x).1]; exact hd0
        induction js with
        | nil => rw [Faux, Faux]
        | cons j js' ihjs =>
            rw [Faux, Faux, ihjs]
            congr 1
            rw [dif_neg (by simp [hd0]), dif_neg (by simp [hd0'])]
      refine ⟨hfaux, ?_⟩
      intro x hx
      have hd0 : (stA.f x).depth = 0 := Nat.le_zero.1 hx
      rw [Ffix, Ffix, if_pos hd0, if_pos (by rw [← (hagree x).1]; exact hd0)]
  | succ d ihd =>
      have hfaux : ∀ x, (stA.f x).depth ≤ d + 1 → ∀ js,
          Faux stA x js = Faux stB x js := by
        intro x hx js
        induction js with
        | nil => rw [Faux, Faux]
        | cons j js' ihjs =>
            rw [Faux, Faux, ihjs]
            congr 1
            by_cases hc : (stA.f x).depth = (stA.f j).depth + 1 ∧
                (stA.f x).pathDepth = (stA.f j).pathDepth
            · have hc' : (stB.f x).depth = (stB.f j).depth + 1 ∧
                  (stB.f x).pathDepth = (stB.f j).pathDepth := by
                rw [← (hagree x).1, ← (hagree j).1, ← (hagree x).2.1, ← (hagree j).2.1]
                exact hc
              rw [dif_pos hc, dif_pos hc']
              exact ihd.2 j (by omega)
            · have hc' : ¬((stB.f x).depth = (stB.f j).depth + 1 ∧
                  (stB.f x).pathDepth = (stB.f j).pathDepth) := by
                rw [← (hagree x).1, ← (hagree j).1, ← (hagree x).2.1, ← (hagree j).2.1]
                exact hc
              rw [dif_neg hc, dif_neg hc']
      refine ⟨hfaux, ?_⟩
      intro x hx
      by_cases h0 : (stA.f x).depth = 0
      · rw [Ffix, Ffix, if_pos h0, if_pos (by rw [← (hagree x).1]; exact h0)]
      · rw [Ffix, Ffix, if_neg h0, if_neg (by rw [← (hagree x).1]; exact h0),
          (hagree x).2.2]
        exact hfaux x hx _

theorem Ffix_congr (stA stB : Day)
    (hagree : ∀ j, (stA.f j).depth = (stB.f j).depth ∧
      (stA.f j).pathDepth = (stB.f j).pathDepth ∧
      (stA.f j).neighbors = (stB.f j).neighbors)
    (x : Nat) : Ffix stA x = Ffix stB x :=
  (Ffix_congr_aux stA stB hagree (stA.f x).depth).2 x (le_refl _)

/-- Master specification of `calculateMaxDepth` on a well-formed,
all-unvisited day: only `visited`, `pathDepth` and `isFixed` change;
`pathDepth ≥ depth + 1` everywhere; `pathDepth` is monotone along descending
conflict edges; each `pathDepth` equals `depth r + 1` for a descending-reachable
root `r`, and is `≥ depth r + 1` for every such root; and `isFixed` is exactly
`Ffix` on pass-2-visited blocks, untouched elsewhere. -/
theorem calculateMaxDepth_spec (st : Day)
    (hvis : ∀ x, ¬(st.f x).visited)
    (hperm : st.order.Perm (List.range st.n))
    (hnbr_lt : ∀ x, ∀ y ∈ (st.f x).neighbors, y < st.n) :
    (calculateMaxDepth st).n = st.n ∧
    (calculateMaxDepth st).order.Perm (List.range st.n) ∧
    (∀ j, ((calculateMaxDepth st).f j).startMin = (st.f j).startMin ∧
      ((calculateMaxDepth st).f j).endMin = (st.f j).endMin ∧
      ((calculateMaxDepth st).f j).depth = (st.f j).depth ∧
      ((calculateMaxDepth st).f j).idx = (st.f j).idx ∧
      ((calculateMaxDepth st).f j).left = (st.f j).left ∧
      ((calculateMaxDepth st).f j).width = (st.f j).width ∧
      ((calculateMaxDepth st).f j).neighbors = (st.f j).neighbors) ∧
    (∀ x < st.n, (st.f x).depth + 1 ≤ ((calculateMaxDepth st).f x).pathDepth) ∧
    (∀ x < st.n, ∀ y, E1 st x y →
      ((calculateMaxDepth st).f x).pathDepth ≤ ((calculateMaxDepth st).f y).pathDepth) ∧
    (∀ x < st.n, ∃ rr, rr < st.n ∧ Reach1 st rr x ∧
      ((calculateMaxDepth st).f x).pathDepth = (st.f rr).depth + 1) ∧
    (∀ r, r < st.n → ∀ x, Reach1 st r x →
      (st.f r).depth + 1 ≤ ((calculateMaxDepth st).f x).pathDepth) ∧
    (∀ x, ((calculateMaxDepth st).f x).isFixed =
      if ((calculateMaxDepth st).f x).visited then Ffix (calculateMaxDepth st) x
      else (st.f x).isFixed) := by
  set stA := sortByDepthDesc st with hstA
  have hn_ordA : ∀ x ∈ stA.order, x < stA.n := by
    intro x hx
    have hx' : x ∈ st.order := (sortByDepthDesc_perm st).mem_iff.1 hx
    have := hperm.mem_iff.1 hx'
    exact List.mem_range.1 this
  have hnbrA : ∀ x, ∀ y ∈ (stA.f x).neighbors, y < stA.n := hnbr_lt
  have hbase1 : Pass1Inv stA stA.order stA :=
    ⟨VP.refl _, fun x hv => absurd hv (hvis x), fun x hv => absurd hv (hvis x),
      fun r _ x hv => absurd hv (hvis x), fun x hv => absurd hv (hvis x)⟩
  have hp1 := pass1_fold stA hnbrA hn_ordA stA.order [] stA rfl
    (sortByDepthDesc_sorted st) hbase1 (fun r hr => absurd hr (List.not_mem_nil r))
  set stB := stA.order.foldl
    (fun s i => if (s.f i).visited then s else dfs1 s.n i ((s.f i).depth + 1) s) stA
    with hstB
  obtain ⟨hinv1, hall1⟩ := hp1
  have hBn : stB.n = stA.n := hinv1.1.1
  have hBord : stB.order = stA.order := hinv1.1.2.1
  have hBf : ∀ j, stB.f j = { stA.f j with visited := (stB.f j).visited, pathDepth := (stB.f j).pathDepth } := hinv1.1.2.2
  have P1 := hinv1.2.1
  have P3 := hinv1.2.2.1
  have P4 := hinv1.2.2.2.2
  have hvisB : ∀ x < st.n, (stB.f x).visited := by
    intro x hx
    refine hall1 x ?_
    have hx1 : x ∈ st.order := hperm.mem_iff.2 (List.mem_range.2 hx)
    exact (sortByDepthDesc_perm st).mem_iff.2 hx1
  have hvisB' : ∀ x, (stB.f x).visited → x < st.n := by
    intro x hv
    obtain ⟨rr, hrr, hre, -⟩ := P4 x hv
    exact Reach1_lt_n hnbrA hre hrr
  set stC := resetVisited stB with hstC
  have hCf : ∀ j, stC.f j = { stB.f j with visited := (stC.f j).visited } := by
    intro j
    rw [hstC, resetVisited_f]
    split <;> rfl
  have hC_unvis : ∀ x, ¬(stC.f x).visited := by
    intro x
    rw [hstC, resetVisited_f]
    by_cases hmem : x ∈ stB.order
    · rw [if_pos hmem]
      simp
    · rw [if_neg hmem]
      intro hv
      have hx := hvisB' x hv
      refine hmem ?_
      rw [hBord]
      exact (sortByDepthDesc_perm st).mem_iff.2 (hperm.mem_iff.2 (List.mem_range.2 hx))
  have hCn : stC.n = st.n := by
    rw [hstC, resetVisited_n]
    exact hBn
  have hCord : stC.order = stA.order := by
    rw [hstC, resetVisited_order]
    exact hBord
  have hnbrC : ∀ x, ∀ y ∈ (stC.f x).neighbors, y < stC.n := by
    intro x y hy
    have h1 : (stC.f x).neighbors = (st.f x).neighbors := by
      rw [hCf x, hBf x]
      rfl
    rw [hCn]
    refine hnbr_lt x y ?_
    rw [← h1]
    exact hy
  have hbase2 : Dfs2Pre stC (fun _ => False) stC :=
    ⟨⟨rfl, rfl, fun _ => rfl⟩, fun x hv _ => absurd hv (hC_unvis x)⟩
  have htodoC : ∀ x ∈ stC.order, x < stC.n := by
    intro x hx
    rw [hCord] at hx
    rw [hCn]
    exact hn_ordA x hx
  have hp2 := pass2_fold stC hnbrC stC.order stC hbase2 htodoC
  set stM := stC.order.foldl
    (fun s i =>
      if ¬(s.f i).visited ∧
          ((s.f i).neighbors.all fun v => (s.f v).depth < (s.f i).depth)
      then (dfsF s.n i s).2 else s)
    stC with hstM
  obtain ⟨hpre2, hunt2⟩ := hp2
  have hMf : ∀ j, stM.f j = { stC.f j with visited := (stM.f j).visited, isFixed := (stM.f j).isFixed } := hpre2.1.2.2
  have hMn : stM.n = st.n := by rw [hpre2.1.1]; exact hCn
  have hMord : stM.order = stA.order := by rw [hpre2.1.2.1]; exact hCord
  have hMeq : calculateMaxDepth st = stM := rfl
  rw [hMeq]
  have h4 : ∀ x < st.n, (st.f x).depth + 1 ≤ (stM.f x).pathDepth := by
    intro x hx
    have hpd : (stM.f x).pathDepth = (stB.f x).pathDepth := by
      rw [hMf x, hCf x]
    rw [hpd]
    exact P1 x (hvisB x hx)
  have h5 : ∀ x < st.n, ∀ y, E1 st x y →
      (stM.f x).pathDepth ≤ (stM.f y).pathDepth := by
    intro x hx y hE
    have hpdx : (stM.f x).pathDepth = (stB.f x).pathDepth := by rw [hMf x, hCf x]
    have hpdy : (stM.f y).pathDepth = (stB.f y).pathDepth := by rw [hMf y, hCf y]
    rw [hpdx, hpdy]
    exact (P3 x (hvisB x hx) y hE).2
  have h6 : ∀ x < st.n, ∃ rr, rr < st.n ∧ Reach1 st rr x ∧
      (stM.f x).pathDepth = (st.f rr).depth + 1 := by
    intro x hx
    obtain ⟨rr, hrr, hre, heq⟩ := P4 x (hvisB x hx)
    refine ⟨rr, hrr, hre, ?_⟩
    have hpd : (stM.f x).pathDepth = (stB.f x).pathDepth := by rw [hMf x, hCf x]
    rw [hpd]
    exact heq
  have h7 : ∀ r, r < st.n → ∀ x, Reach1 st r x →
      (st.f r).depth + 1 ≤ (stM.f x).pathDepth := by
    intro r hr x hre
    induction hre with
    | refl => exact h4 r hr
    | @tail b c hsub he ih =>
        have hb_lt : b < st.n := Reach1_lt_n hnbr_lt hsub hr
        exact le_trans ih (h5 b hb_lt c he)
  have h8 : ∀ x, (stM.f x).isFixed =
      if (stM.f x).visited then Ffix stM x else (st.f x).isFixed := by
    intro x
    by_cases hv : (stM.f x).visited
    · rw [if_pos hv]
      have h := hpre2.2 x hv (fun hF => hF)
      rw [h.1]
      exact Ffix_congr stC stM
        (fun j => ⟨(vfFrame_depth (hMf j)).symm, (vfFrame_pd (hMf j)).symm,
          (vfFrame_nbrs (hMf j)).symm⟩) x
    · rw [if_neg hv]
      have h := hunt2 x hv
      rw [h, hCf x, hBf x]
      rfl
  refine ⟨hMn, ?_, ?_, h4, h5, h6, h7, h8⟩
  · rw [hMord]
    exact (sortByDepthDesc_perm st).trans hperm
  · intro j
    refine ⟨?_, ?_, ?_, ?_, ?_, ?_, ?_⟩ <;> (rw [hMf j, hCf j, hBf j]; rfl)

/-! ## Frames of the field-setting loops of computeBlockPositions -/

theorem foldUpd_proj {α β : Type} (key : α → Nat) (g : α → SB → SB) (proj : SB → β)
    (hg : ∀ a b, proj (g a b) = proj b) :
    ∀ (l : List α) (st : Day) (x : Nat),
      proj ((l.foldl (fun s p => s.upd (key p) (g p)) st).f x) = proj (st.f x) := by
  intro l
  induction l with
  | nil => intro st x; rfl
  | cons a l' ih =>
      intro st x
      rw [List.foldl_cons, ih, Day.upd_f]
      split
      · exact hg a _
      · rfl

theorem foldUpd_n {α : Type} (key : α → Nat) (g : α → SB → SB) :
    ∀ (l : List α) (st : Day),
      (l.foldl (fun s p => s.upd (key p) (g p)) st).n = st.n := by
  intro l
  induction l with
  | nil => intro st; rfl
  | cons a l' ih => intro st; rw [List.foldl_cons, ih]; rfl

theorem foldUpd_order {α : Type} (key : α → Nat) (g : α → SB → SB) :
    ∀ (l : List α) (st : Day),
      (l.foldl (fun s p => s.upd (key p) (g p)) st).order = st.order := by
  intro l
  induction l with
  | nil => intro st; rfl
  | cons a l' ih => intro st; rw [List.foldl_cons, ih]; rfl

theorem foldUpd_not_mem (g : Nat → SB → SB) :
    ∀ (l : List Nat) (st : Day) (x : Nat), x ∉ l →
      (l.foldl (fun s i => s.upd i (g i)) st).f x = st.f x := by
  intro l
  induction l with
  | nil => intro st x _; rfl
  | cons a l' ih =>
      intro st x hx
      rw [List.foldl_cons, ih _ _ (fun h => hx (List.mem_cons_of_mem _ h)),
        Day.upd_f_other st _
          (fun h => hx (by rw [h]; exact List.mem_cons_self _ _))]

theorem foldUpd_apply (g : Nat → SB → SB) :
    ∀ (l : List Nat), l.Nodup → ∀ (st : Day) (x : Nat), x ∈ l →
      (l.foldl (fun s i => s.upd i (g i)) st).f x = g x (st.f x) := by
  intro l
  induction l with
  | nil => intro _ st x hx; cases hx
  | cons a l' ih =>
      intro hnd st x hx
      rw [List.foldl_cons]
      rcases List.mem_cons.1 hx with rfl | hx'
      · rw [foldUpd_not_mem g l' _ _ (List.nodup_cons.1 hnd).1, Day.upd_f_same]
      · rw [ih (List.nodup_cons.1 hnd).2 _ _ hx',
          Day.upd_f_other st _
            (fun h => (List.nodup_cons.1 hnd).1 (by rw [← h]; exact hx'))]

theorem setIdx_n (st : Day) : (setIdx st).n = st.n :=
  @foldUpd_n (Nat × Nat) (fun p => p.2) (fun p b => { b with idx := p.1 })
    st.order.enum st

theorem setIdx_order (st : Day) : (setIdx st).order = st.order :=
  @foldUpd_order (Nat × Nat) (fun p => p.2) (fun p b => { b with idx := p.1 })
    st.order.enum st

/-- `setIdx` only changes `idx`. -/
theorem setIdx_f (st : Day) (x : Nat) :
    (setIdx st).f x = { st.f x with idx := ((setIdx st).f x).idx } := by
  unfold setIdx
  generalize st.order.enum = l
  induction l generalizing st with
  | nil => rfl
  | cons a l' ih =>
      rw [List.foldl_cons, ih, Day.upd_f]
      split <;> rfl

theorem setLW1_n (st : Day) : (setLW1 st).n = st.n :=
  foldUpd_n (fun i => i) (fun _ b => { b with left := 0, width := 1 }) _ _

theorem setLW1_order (st : Day) : (setLW1 st).order = st.order :=
  foldUpd_order (fun i => i) (fun _ b => { b with left := 0, width := 1 }) _ _

theorem setLW1_f_mem (st : Day) (hnd : st.order.Nodup) {x : Nat} (hx : x ∈ st.order) :
    (setLW1 st).f x = { st.f x with left := 0, width := 1 } :=
  foldUpd_apply (fun _ b => { b with left := 0, width := 1 }) st.order hnd st x hx

theorem setLW1_f_not_mem (st : Day) {x : Nat} (hx : x ∉ st.order) :
    (setLW1 st).f x = st.f x :=
  foldUpd_not_mem (fun _ b => { b with left := 0, width := 1 }) st.order st x hx

theorem setLW_n (st : Day) : (setLW st).n = st.n :=
  foldUpd_n (fun i => i)
    (fun _ b => { b with left := (b.depth : Rat) / (b.pathDepth : Rat),
                         width := 1 / (b.pathDepth : Rat) }) _ _

theorem setLW_order (st : Day) : (setLW st).order = st.order :=
  foldUpd_order (fun i => i)
    (fun _ b => { b with left := (b.depth : Rat) / (b.pathDepth : Rat),
                         width := 1 / (b.pathDepth : Rat) }) _ _

theorem setLW_f_mem (st : Day) (hnd : st.order.Nodup) {x : Nat} (hx : x ∈ st.order) :
    (setLW st).f x =
      { st.f x with left := ((st.f x).depth : Rat) / ((st.f x).pathDepth : Rat),
                    width := 1 / ((st.f x).pathDepth : Rat) } :=
  foldUpd_apply
    (fun _ b => { b with left := (b.depth : Rat) / (b.pathDepth : Rat),
                         width := 1 / (b.pathDepth : Rat) }) st.order hnd st x hx

theorem setLW_f_not_mem (st : Day) {x : Nat} (hx : x ∉ st.order) :
    (setLW st).f x = st.f x :=
  foldUpd_not_mem
    (fun _ b => { b with left := (b.depth : Rat) / (b.pathDepth : Rat),
                         width := 1 / (b.pathDepth : Rat) }) st.order st x hx

/-! ## BFS only changes `visited` -/

/-- Frame of the BFS stage: only `visited` may differ. -/
def VO (st0 st : Day) : Prop :=
  st.n = st0.n ∧ st.order = st0.order ∧
  ∀ j, st.f j = { st0.f j with visited := (st.f j).visited }

theorem VO_refl (st : Day) : VO st st := ⟨rfl, rfl, fun _ => rfl⟩

theorem VO.trans {a b c : Day} (h1 : VO a b) (h2 : VO b c) : VO a c := by
  refine ⟨h2.1.trans h1.1, h2.2.1.trans h1.2.1, fun j => ?_⟩
  rw [h2.2.2 j, h1.2.2 j]

theorem bfsScan_vo (sc : Day × List Nat) (j : Nat) : VO sc.1 (bfsScan sc j).1 := by
  unfold bfsScan
  split
  · refine ⟨rfl, rfl, fun x => ?_⟩
    dsimp only
    rw [Day.upd_f]
    split <;> rfl
  · exact VO_refl _

theorem bfsScan_fold_vo (js : List Nat) :
    ∀ sc : Day × List Nat, VO sc.1 (js.foldl bfsScan sc).1 := by
  induction js with
  | nil => intro sc; exact VO_refl _
  | cons j js' ih =>
      intro sc
      rw [List.foldl_cons]
      exact (bfsScan_vo sc j).trans (ih _)

theorem bfsRun_vo : ∀ (fuel : Nat) (st : Day) (comp : List Nat) (q : Nat),
    VO st (bfsRun fuel st comp q).1 := by
  intro fuel
  induction fuel with
  | zero => intro st comp q; exact VO_refl _
  | succ fuel ih =>
      intro st comp q
      rw [bfsRun]
      split
      · exact VO_refl _
      · exact (bfsScan_fold_vo _ _).trans (ih _ _ _)

theorem bfsFrom_vo (st : Day) (start : Nat) : VO st (bfsFrom st start) := by
  refine @VO.trans _ (st.upd start (fun b => { b with visited := true })) _ ?_
    (bfsRun_vo _ _ _ _)
  refine ⟨rfl, rfl, fun x => ?_⟩
  rw [Day.upd_f]
  split <;> rfl

theorem bfsAll_vo (st : Day) : VO st (bfsAll st) := by
  unfold bfsAll
  generalize st.order = l
  induction l generalizing st with
  | nil => exact VO_refl _
  | cons i l' ih =>
      rw [List.foldl_cons]
      refine @VO.trans _ (if ¬(st.f i).visited ∧ ¬(st.f i).isFixed
        then bfsFrom st i else st) _ ?_ (ih _)
      split
      · exact bfsFrom_vo st i
      · exact VO_refl _

theorem voFrame_depth {b c : SB} (h : b = { c with visited := b.visited }) :
    b.depth = c.depth := by rw [h]

theorem voFrame_pd {b c : SB} (h : b = { c with visited := b.visited }) :
    b.pathDepth = c.pathDepth := by rw [h]

theorem voFrame_left {b c : SB} (h : b = { c with visited := b.visited }) :
    b.left = c.left := by rw [h]

theorem voFrame_width {b c : SB} (h : b = { c with visited := b.visited }) :
    b.width = c.width := by rw [h]

theorem voFrame_isFixed {b c : SB} (h : b = { c with visited := b.visited }) :
    b.isFixed = c.isFixed := by rw [h]

theorem voFrame_startMin {b c : SB} (h : b = { c with visited := b.visited }) :
    b.startMin = c.startMin := by rw [h]

theorem voFrame_endMin {b c : SB} (h : b = { c with visited := b.visited }) :
    b.endMin = c.endMin := by rw [h]

theorem voFrame_nbrs {b c : SB} (h : b = { c with visited := b.visited }) :
    b.neighbors = c.neighbors := by rw [h]

/-! ## Conflicts force at least two simultaneous blocks -/

theorem conflict_le_maxOverlap (st : Day)
    (hwf : ∀ i < st.n, (st.f i).startMin < (st.f i).endMin)
    {i j : Nat} (hi : i < st.n) (hj : j < st.n) (hij : i ≠ j)
    (hc : (st.f i).conflict (st.f j) = true) : 2 ≤ maxOverlap st := by
  simp only [SB.conflict, Bool.and_eq_true, decide_eq_true_eq] at hc
  have hwi := hwf i hi
  have hwj := hwf j hj
  have key : ∀ t : Int, (st.f i).startMin ≤ t → (st.f j).startMin ≤ t →
      t < (st.f i).endMin → t < (st.f j).endMin → 2 ≤ countActive st t := by
    intro t h1 h2 h3 h4
    have hsub : ∀ x ∈ [i, j],
        x ∈ (List.range st.n).filter
          fun k => (st.f k).startMin ≤ t ∧ t < (st.f k).endMin := by
      intro x hx
      rw [List.mem_filter, List.mem_range]
      rcases List.mem_cons.1 hx with rfl | hx'
      · exact ⟨hi, decide_eq_true ⟨h1, h3⟩⟩
      · rw [List.mem_singleton.1 hx']
        exact ⟨hj, decide_eq_true ⟨h2, h4⟩⟩
    have hnd : ([i, j] : List Nat).Nodup := by
      rw [List.nodup_cons]
      exact ⟨by simp [hij], List.nodup_singleton _⟩
    have := nodup_subset_length hnd hsub
    simpa [countActive] using this
  by_cases hle : (st.f j).startMin ≤ (st.f i).startMin
  · have h2 : 2 ≤ countActive st (st.f i).startMin :=
      key _ (le_refl _) hle hwi hc.1
    exact le_trans h2 (countActive_le_maxOverlap st hi)
  · have h2 : 2 ≤ countActive st (st.f j).startMin :=
      key _ (le_of_not_le hle) (le_refl _) hc.2 hwj
    exact le_trans h2 (countActive_le_maxOverlap st hj)

/-! ## computeDay: assembled specification -/

theorem depthFrame_vis {b c : SB} (h : b = { c with depth := b.depth }) :
    b.visited = c.visited := by rw [h]

theorem depthFrame_nbrs {b c : SB} (h : b = { c with depth := b.depth }) :
    b.neighbors = c.neighbors := by rw [h]

theorem depthFrame_pd {b c : SB} (h : b = { c with depth := b.depth }) :
    b.pathDepth = c.pathDepth := by rw [h]

theorem eraseNb_depth {b b' : SB} (h : eraseNb b = eraseNb b') :
    b.depth = b'.depth := by
  have := congrArg SB.depth h
  simpa [eraseNb] using this

theorem eraseNb_visited {b b' : SB} (h : eraseNb b = eraseNb b') :
    b.visited = b'.visited := by
  have := congrArg SB.visited h
  simpa [eraseNb] using this

theorem resetVisited_vo (st : Day) : VO st (resetVisited st) := by
  refine ⟨resetVisited_n st, resetVisited_order st, fun j => ?_⟩
  rw [resetVisited_f]
  split <;> rfl

theorem distinctDepths_eq (st : Day) (cnt : Nat)
    (hlt : ∀ i < st.n, (st.f i).depth < cnt)
    (hcov : ∀ d < cnt, ∃ i < st.n, (st.f i).depth = d) :
    distinctDepths st = cnt := by
  unfold distinctDepths
  have himg : (Finset.range st.n).image (fun i => (st.f i).depth) = Finset.range cnt := by
    ext d
    simp only [Finset.mem_image, Finset.mem_range]
    constructor
    · rintro ⟨i, hi, rfl⟩
      exact hlt i hi
    · intro hd
      obtain ⟨i, hi, he⟩ := hcov d hd
      exact ⟨i, hi, he⟩
  rw [himg, Finset.card_range]

/-- Master specification of the per-day driver `computeDay`
(`computeBlockPositions`, one weekday) on a fresh well-formed day:
conflicting blocks end with distinct depths; the final `neighbors` are
exactly the conflict relation; a conflict-free day gets the trivial layout
`left = 0, width = 1, depth = 0`; otherwise `left = depth / pathDepth`,
`width = 1 / pathDepth` with `depth + 1 ≤ pathDepth`, and `pathDepth` is
antitone across a conflict in the `depth` direction. -/
theorem computeDay_spec (st : Day)
    (hperm : st.order.Perm (List.range st.n))
    (hwf : ∀ i < st.n, (st.f i).startMin < (st.f i).endMin)
    (hd0 : ∀ i < st.n, (st.f i).depth = 0)
    (hvis : ∀ x, ¬(st.f x).visited)
    (hnb0 : ∀ x, (st.f x).neighbors = []) :
    (computeDay st).n = st.n ∧
    (∀ i < st.n, ∀ j < st.n, i ≠ j → (st.f i).conflict (st.f j) = true →
      ((computeDay st).f i).depth ≠ ((computeDay st).f j).depth) ∧
    (∀ i j : Nat, j ∈ ((computeDay st).f i).neighbors ↔
      (i < st.n ∧ j < st.n ∧ j ≠ i ∧ (st.f i).conflict (st.f j) = true)) ∧
    (maxOverlap st ≤ 1 → ∀ i < st.n,
      ((computeDay st).f i).left = 0 ∧ ((computeDay st).f i).width = 1 ∧
      ((computeDay st).f i).depth = 0) ∧
    (2 ≤ maxOverlap st → ∀ i < st.n,
      ((computeDay st).f i).depth + 1 ≤ ((computeDay st).f i).pathDepth ∧
      ((computeDay st).f i).left =
        (((computeDay st).f i).depth : Rat) / (((computeDay st).f i).pathDepth : Rat) ∧
      ((computeDay st).f i).width = 1 / (((computeDay st).f i).pathDepth : Rat)) ∧
    (2 ≤ maxOverlap st → ∀ i < st.n, ∀ j < st.n, i ≠ j →
      (st.f i).conflict (st.f j) = true →
      ((computeDay st).f i).depth < ((computeDay st).f j).depth →
      ((computeDay st).f j).pathDepth ≤ ((computeDay st).f i).pathDepth) := by
  -- stage 0: idx assignment
  have hIf : ∀ x, (setIdx st).f x = { st.f x with idx := ((setIdx st).f x).idx } :=
    setIdx_f st
  have hIs : ∀ x, ((setIdx st).f x).startMin = (st.f x).startMin :=
    fun x => by rw [hIf x]
  have hIe : ∀ x, ((setIdx st).f x).endMin = (st.f x).endMin :=
    fun x => by rw [hIf x]
  have hId : ∀ x, ((setIdx st).f x).depth = (st.f x).depth :=
    fun x => by rw [hIf x]
  have hIv : ∀ x, ((setIdx st).f x).visited = (st.f x).visited :=
    fun x => by rw [hIf x]
  have hInb : ∀ x, ((setIdx st).f x).neighbors = (st.f x).neighbors :=
    fun x => by rw [hIf x]
  -- stage 1: adjacency construction
  set st1 := constructAdjList (setIdx st) with hst1
  have h1n : st1.n = st.n := by
    rw [hst1]
    show (adjOuter _ _).n = st.n
    rw [adjOuter_n, setIdx_n]
  have h1ord : st1.order = st.order := by
    rw [hst1]
    show (adjOuter _ _).order = st.order
    rw [adjOuter_order, setIdx_order]
  have h1er : ∀ x, eraseNb (st1.f x) = eraseNb ((setIdx st).f x) := by
    intro x
    rw [hst1]
    exact eraseNb_adjOuter _ _ x
  have h1s : ∀ x, (st1.f x).startMin = (st.f x).startMin :=
    fun x => (eraseNb_startMin (h1er x)).trans (hIs x)
  have h1e : ∀ x, (st1.f x).endMin = (st.f x).endMin :=
    fun x => (eraseNb_endMin (h1er x)).trans (hIe x)
  have h1d : ∀ x, (st1.f x).depth = (st.f x).depth :=
    fun x => (eraseNb_depth (h1er x)).trans (hId x)
  have h1v : ∀ x, (st1.f x).visited = (st.f x).visited :=
    fun x => (eraseNb_visited (h1er x)).trans (hIv x)
  have hconf_eq : ∀ i j, (st1.f i).conflict (st1.f j) = (st.f i).conflict (st.f j) := by
    intro i j
    simp [SB.conflict, h1s, h1e]
  have hnodupI : (setIdx st).order.Nodup := by
    rw [setIdx_order]
    exact hperm.symm.nodup (List.nodup_range _)
  have h1mem : ∀ i j, j ∈ (st1.f i).neighbors ↔
      (i < st.n ∧ j < st.n ∧ j ≠ i ∧ (st.f i).conflict (st.f j) = true) := by
    intro i j
    rw [hst1, constructAdjList_mem (setIdx st) hnodupI i j, hInb i, hnb0 i]
    rw [setIdx_order]
    constructor
    · rintro (h | ⟨hi, hj, hne, hc⟩)
      · cases h
      · refine ⟨List.mem_range.1 (hperm.mem_iff.1 hi),
          List.mem_range.1 (hperm.mem_iff.1 hj), hne, ?_⟩
        rw [← hc]
        simp [SB.conflict, hIs, hIe]
    · rintro ⟨hi, hj, hne, hc⟩
      refine Or.inr ⟨hperm.mem_iff.2 (List.mem_range.2 hi),
        hperm.mem_iff.2 (List.mem_range.2 hj), hne, ?_⟩
      rw [← hc]
      simp [SB.conflict, hIs, hIe]
  have h1perm : st1.order.Perm (List.range st1.n) := by
    rw [h1ord, h1n]
    exact hperm
  have h1wf : ∀ i < st1.n, (st1.f i).startMin < (st1.f i).endMin := by
    intro i hi
    rw [h1s, h1e]
    exact hwf i (h1n ▸ hi)
  have h1d0 : ∀ i < st1.n, (st1.f i).depth = 0 := by
    intro i hi
    rw [h1d]
    exact hd0 i (h1n ▸ hi)
  have hMOeq : maxOverlap st1 = maxOverlap st :=
    maxOverlap_congr h1n (fun i _ => ⟨h1s i, h1e i⟩)
  -- stage 2: the scheduler
  have hfull := intervalScheduling2_full st1 h1perm h1wf h1d0
  set cnt := (intervalScheduling2 st1).1 with hcnt
  set stS := (intervalScheduling2 st1).2 with hstS
  obtain ⟨hSn, hSord, hSframe, hSproper, hSdlt, hScov, hScnt⟩ := hfull
  have hSn' : stS.n = st.n := hSn.trans h1n
  have hSs : ∀ x, (stS.f x).startMin = (st.f x).startMin :=
    fun x => (depthFrame_startMin (hSframe x)).trans (h1s x)
  have hSe : ∀ x, (stS.f x).endMin = (st.f x).endMin :=
    fun x => (depthFrame_endMin (hSframe x)).trans (h1e x)
  have hSv : ∀ x, ¬(stS.f x).visited := by
    intro x
    rw [depthFrame_vis (hSframe x), h1v]
    exact hvis x
  have hSnb : ∀ x, (stS.f x).neighbors = (st1.f x).neighbors :=
    fun x => depthFrame_nbrs (hSframe x)
  have hSperm : stS.order.Perm (List.range stS.n) := by
    rw [hSord, hSn]
    exact (sortByStart_perm st1).trans h1perm
  have hSnbr_lt : ∀ x, ∀ y ∈ (stS.f x).neighbors, y < stS.n := by
    intro x y hy
    rw [hSnb] at hy
    rw [hSn']
    exact ((h1mem x y).1 hy).2.1
  have hcnt_mo : cnt = maxOverlap st := hScnt.trans hMOeq
  have hSproper' : ∀ i < st.n, ∀ j < st.n, i ≠ j →
      (st.f i).conflict (st.f j) = true →
      (stS.f i).depth ≠ (stS.f j).depth := by
    intro i hi j hj hne hc
    exact hSproper i (h1n ▸ hi) j (h1n ▸ hj) hne (by rw [hconf_eq]; exact hc)
  have hCD : computeDay st = if cnt ≤ 1 then setLW1 stS
      else bfsAll (resetVisited (setLW (calculateMaxDepth stS))) := rfl
  by_cases hbr : cnt ≤ 1
  · -- trivial branch: at most one column
    rw [hCD, if_pos hbr]
    have hW1d : ∀ x, ((setLW1 stS).f x).depth = (stS.f x).depth := fun x =>
      foldUpd_proj (fun i => i) (fun _ b => { b with left := 0, width := 1 })
        SB.depth (fun _ _ => rfl) stS.order stS x
    have hW1nb : ∀ x, ((setLW1 stS).f x).neighbors = (stS.f x).neighbors := fun x =>
      foldUpd_proj (fun i => i) (fun _ b => { b with left := 0, width := 1 })
        SB.neighbors (fun _ _ => rfl) stS.order stS x
    have hndS : stS.order.Nodup := hSperm.symm.nodup (List.nodup_range _)
    have hmemS : ∀ i < st.n, i ∈ stS.order := by
      intro i hi
      exact hSperm.mem_iff.2 (List.mem_range.2 (hSn' ▸ hi))
    refine ⟨(setLW1_n stS).trans hSn', ?_, ?_, ?_, ?_, ?_⟩
    · intro i hi j hj hne hc
      rw [hW1d i, hW1d j]
      exact hSproper' i hi j hj hne hc
    · intro i j
      rw [hW1nb i, hSnb i]
      exact h1mem i j
    · intro _ i hi
      have hmem := hmemS i hi
      refine ⟨?_, ?_, ?_⟩
      · rw [setLW1_f_mem stS hndS hmem]
      · rw [setLW1_f_mem stS hndS hmem]
      · rw [hW1d i]
        have := hSdlt i (by omega)
        omega
    · intro hmo
      rw [hcnt_mo] at hbr
      omega
    · intro hmo
      rw [hcnt_mo] at hbr
      omega
  · -- layout branch: at least two columns
    rw [hCD, if_neg hbr]
    obtain ⟨hMn, hMperm, hMfield, hM4, hM5, hM6, hM7, hM8⟩ :=
      calculateMaxDepth_spec stS hSv hSperm hSnbr_lt
    set stM := calculateMaxDepth stS with hstM
    have hMd : ∀ x, (stM.f x).depth = (stS.f x).depth := fun x => (hMfield x).2.2.1
    have hMnb : ∀ x, (stM.f x).neighbors = (stS.f x).neighbors :=
      fun x => (hMfield x).2.2.2.2.2.2
    set stL := setLW stM with hstL
    have hLd : ∀ x, (stL.f x).depth = (stM.f x).depth := fun x =>
      foldUpd_proj (fun i => i)
        (fun _ b => { b with left := (b.depth : Rat) / (b.pathDepth : Rat),
                             width := 1 / (b.pathDepth : Rat) })
        SB.depth (fun _ _ => rfl) stM.order stM x
    have hLpd : ∀ x, (stL.f x).pathDepth = (stM.f x).pathDepth := fun x =>
      foldUpd_proj (fun i => i)
        (fun _ b => { b with left := (b.depth : Rat) / (b.pathDepth : Rat),
                             width := 1 / (b.pathDepth : Rat) })
        SB.pathDepth (fun _ _ => rfl) stM.order stM x
    have hLnb : ∀ x, (stL.f x).neighbors = (stM.f x).neighbors := fun x =>
      foldUpd_proj (fun i => i)
        (fun _ b => { b with left := (b.depth : Rat) / (b.pathDepth : Rat),
                             width := 1 / (b.pathDepth : Rat) })
        SB.neighbors (fun _ _ => rfl) stM.order stM x
    have hndM : stM.order.Nodup := hMperm.symm.nodup (List.nodup_range _)
    have hmemM : ∀ i < st.n, i ∈ stM.order := by
      intro i hi
      exact hMperm.mem_iff.2 (List.mem_range.2 (hSn' ▸ hi))
    have hLlw : ∀ i < st.n,
        (stL.f i).left = ((stM.f i).depth : Rat) / ((stM.f i).pathDepth : Rat) ∧
        (stL.f i).width = 1 / ((stM.f i).pathDepth : Rat) := by
      intro i hi
      rw [hstL, setLW_f_mem stM hndM (hmemM i hi)]
      exact ⟨rfl, rfl⟩
    have hVO : VO stL (bfsAll (resetVisited stL)) :=
      (resetVisited_vo stL).trans (bfsAll_vo _)
    have hFd : ∀ x, ((bfsAll (resetVisited stL)).f x).depth = (stS.f x).depth :=
      fun x => (voFrame_depth (hVO.2.2 x)).trans ((hLd x).trans (hMd x))
    have hFpd : ∀ x, ((bfsAll (resetVisited stL)).f x).pathDepth = (stM.f x).pathDepth :=
      fun x => (voFrame_pd (hVO.2.2 x)).trans (hLpd x)
    have hFl : ∀ x, ((bfsAll (resetVisited stL)).f x).left = (stL.f x).left :=
      fun x => voFrame_left (hVO.2.2 x)
    have hFw : ∀ x, ((bfsAll (resetVisited stL)).f x).width = (stL.f x).width :=
      fun x => voFrame_width (hVO.2.2 x)
    have hFnb : ∀ x, ((bfsAll (resetVisited stL)).f x).neighbors = (stS.f x).neighbors :=
      fun x => (voFrame_nbrs (hVO.2.2 x)).trans ((hLnb x).trans (hMnb x))
    have hFn : (bfsAll (resetVisited stL)).n = st.n := by
      rw [hVO.1, hstL, setLW_n, hMn, hSn']
    have hpd_pos : ∀ i < st.n, (stS.f i).depth + 1 ≤ (stM.f i).pathDepth := by
      intro i hi
      have := hM4 i (hSn' ▸ hi)
      have hd := hMd i
      omega
    refine ⟨hFn, ?_, ?_, ?_, ?_, ?_⟩
    · intro i hi j hj hne hc
      rw [hFd i, hFd j]
      exact hSproper' i hi j hj hne hc
    · intro i j
      rw [hFnb i, hSnb i]
      exact h1mem i j
    · intro hmo
      rw [hcnt_mo] at hbr
      omega
    · intro _ i hi
      obtain ⟨hl, hw⟩ := hLlw i hi
      refine ⟨?_, ?_, ?_⟩
      · rw [hFd i, hFpd i]
        exact hpd_pos i hi
      · rw [hFl i, hl, hFd i, hFpd i, hMd i]
      · rw [hFw i, hw, hFpd i]
    · intro _ i hi j hj hne hc hdlt
      rw [hFd i, hFd j] at hdlt
      rw [hFpd i, hFpd j]
      have hji : i ∈ (stS.f j).neighbors := by
        rw [hSnb j]
        exact (h1mem j i).2 ⟨hj, hi, hne, by rw [SB.conflict_comm]; exact hc⟩
      have hE1 : E1 stS j i := ⟨hji, hdlt⟩
      exact hM5 j (hSn' ▸ hj) i hE1

/-! ## Facts about fresh days and the scheduler pipeline prefix -/

theorem depthFrame_isFixed {b c : SB} (h : b = { c with depth := b.depth }) :
    b.isFixed = c.isFixed := by rw [h]

theorem eraseNb_isFixed {b b' : SB} (h : eraseNb b = eraseNb b') :
    b.isFixed = b'.isFixed := by
  have := congrArg SB.isFixed h
  simpa [eraseNb] using this

theorem mkDay_n (l : List (Int × Int)) : (mkDay l).n = l.length := rfl

theorem mkDay_order (l : List (Int × Int)) : (mkDay l).order = List.range l.length := rfl

theorem mkDay_perm (l : List (Int × Int)) :
    (mkDay l).order.Perm (List.range (mkDay l).n) := List.Perm.refl _

theorem mkDay_vis (l : List (Int × Int)) (x : Nat) : ¬((mkDay l).f x).visited :=
  fun h => Bool.noConfusion h

theorem mkDay_fix (l : List (Int × Int)) (x : Nat) : ((mkDay l).f x).isFixed = false := rfl

theorem mkDay_d0 (l : List (Int × Int)) : ∀ i < (mkDay l).n, ((mkDay l).f i).depth = 0 :=
  fun _ _ => rfl

theorem mkDay_nb0 (l : List (Int × Int)) (x : Nat) : ((mkDay l).f x).neighbors = [] := rfl

theorem mkDay_wf (l : List (Int × Int)) (hwf : ∀ p ∈ l, p.1 < p.2) :
    ∀ i < (mkDay l).n, ((mkDay l).f i).startMin < ((mkDay l).f i).endMin := by
  intro i hi
  have hi' : i < l.length := hi
  show (l.getD i (0, 0)).1 < (l.getD i (0, 0)).2
  rw [List.getD_eq_getElem?_getD, List.getElem?_eq_getElem hi', Option.getD_some]
  exact hwf _ (List.getElem_mem hi')

/-- The pipeline prefix of `computeBlockPositions` up to and including the
scheduler: index assignment, adjacency construction, `intervalScheduling2`. -/
def sched2Pipe (l : List (Int × Int)) : Day :=
  (intervalScheduling2 (constructAdjList (setIdx (mkDay l)))).2

theorem sched2Pipe_facts (l : List (Int × Int)) (hwf : ∀ p ∈ l, p.1 < p.2) :
    (sched2Pipe l).n = l.length ∧
    (sched2Pipe l).order.Perm (List.range (sched2Pipe l).n) ∧
    (∀ x, ¬((sched2Pipe l).f x).visited) ∧
    (∀ x, ((sched2Pipe l).f x).isFixed = false) ∧
    (∀ x, ∀ y ∈ ((sched2Pipe l).f x).neighbors, y < (sched2Pipe l).n) := by
  have hIf := setIdx_f (mkDay l)
  have hIs : ∀ x, ((setIdx (mkDay l)).f x).startMin = ((mkDay l).f x).startMin :=
    fun x => by rw [hIf x]
  have hIe : ∀ x, ((setIdx (mkDay l)).f x).endMin = ((mkDay l).f x).endMin :=
    fun x => by rw [hIf x]
  have hId : ∀ x, ((setIdx (mkDay l)).f x).depth = ((mkDay l).f x).depth :=
    fun x => by rw [hIf x]
  have hIv : ∀ x, ((setIdx (mkDay l)).f x).visited = ((mkDay l).f x).visited :=
    fun x => by rw [hIf x]
  have hIfx : ∀ x, ((setIdx (mkDay l)).f x).isFixed = ((mkDay l).f x).isFixed :=
    fun x => by rw [hIf x]
  set st1 := constructAdjList (setIdx (mkDay l)) with hst1
  have h1n : st1.n = l.length := by
    rw [hst1]
    show (adjOuter _ _).n = l.length
    rw [adjOuter_n, setIdx_n, mkDay_n]
  have h1ord : st1.order = List.range l.length := by
    rw [hst1]
    show (adjOuter _ _).order = List.range l.length
    rw [adjOuter_order, setIdx_order, mkDay_order]
  have h1er : ∀ x, eraseNb (st1.f x) = eraseNb ((setIdx (mkDay l)).f x) := by
    intro x
    rw [hst1]
    exact eraseNb_adjOuter _ _ x
  have h1s : ∀ x, (st1.f x).startMin = ((mkDay l).f x).startMin :=
    fun x => (eraseNb_startMin (h1er x)).trans (hIs x)
  have h1e : ∀ x, (st1.f x).endMin = ((mkDay l).f x).endMin :=
    fun x => (eraseNb_endMin (h1er x)).trans (hIe x)
  have h1d : ∀ x, (st1.f x).depth = ((mkDay l).f x).depth :=
    fun x => (eraseNb_depth (h1er x)).trans (hId x)
  have h1v : ∀ x, (st1.f x).visited = ((mkDay l).f x).visited :=
    fun x => (eraseNb_visited (h1er x)).trans (hIv x)
  have h1fx : ∀ x, (st1.f x).isFixed = ((mkDay l).f x).isFixed :=
    fun x => (eraseNb_isFixed (h1er x)).trans (hIfx x)
  have hnodupI : (setIdx (mkDay l)).order.Nodup := by
    rw [setIdx_order, mkDay_order]
    exact List.nodup_range _
  have h1mem : ∀ i j, j ∈ (st1.f i).neighbors → j ∈ (mkDay l).order := by
    intro i j hj
    rw [hst1] at hj
    rcases (constructAdjList_mem (setIdx (mkDay l)) hnodupI i j).1 hj with h | h
    · rw [setIdx_f (mkDay l) i] at h
      have : ((mkDay l).f i).neighbors = [] := mkDay_nb0 l i
      rw [show ((setIdx (mkDay l)).f i).idx = ((setIdx (mkDay l)).f i).idx from rfl] at h
      simp only [this] at h
      cases h
    · rw [setIdx_order] at h
      exact h.2.1
  have h1perm : st1.order.Perm (List.range st1.n) := by
    rw [h1ord, h1n]
  have h1wf : ∀ i < st1.n, (st1.f i).startMin < (st1.f i).endMin := by
    intro i hi
    rw [h1s, h1e]
    exact mkDay_wf l hwf i (by rw [mkDay_n]; omega)
  have h1d0 : ∀ i < st1.n, (st1.f i).depth = 0 := by
    intro i _
    rw [h1d]
    exact rfl
  obtain ⟨hSn, hSord, hSframe, -, -, -, -⟩ := intervalScheduling2_full st1 h1perm h1wf h1d0
  have hpipe : sched2Pipe l = (intervalScheduling2 st1).2 := rfl
  refine ⟨?_, ?_, ?_, ?_, ?_⟩
  · rw [hpipe, hSn, h1n]
  · rw [hpipe, hSord, hSn]
    exact (sortByStart_perm st1).trans h1perm
  · intro x
    rw [hpipe, depthFrame_vis (hSframe x), h1v]
    exact mkDay_vis l x
  · intro x
    rw [hpipe, depthFrame_isFixed (hSframe x), h1fx]
    exact mkDay_fix l x
  · intro x y hy
    rw [hpipe, depthFrame_nbrs (hSframe x)] at hy
    have := h1mem x y hy
    rw [mkDay_order, List.mem_range] at this
    rw [hpipe, hSn, h1n]
    exact this

/-! ## Claim theorems -/

/-- C8: on empty input both schedulers return zero columns and the layout
pass is a no-op, and on a weekday needing at most one column every block
receives `left = 0`, `width = 1` and `depth = 0`. -/
theorem C8_edge_cases :
    (intervalScheduling (mkDay [])).1 = 0 ∧
    (intervalScheduling2 (mkDay [])).1 = 0 ∧
    computeDay (mkDay []) = mkDay [] ∧
    ∀ (l : List (Int × Int)), (∀ p ∈ l, p.1 < p.2) → maxOverlap (mkDay l) ≤ 1 →
      ∀ i < (mkDay l).n,
        ((computeDay (mkDay l)).f i).left = 0 ∧
        ((computeDay (mkDay l)).f i).width = 1 ∧
        ((computeDay (mkDay l)).f i).depth = 0 := by
  refine ⟨by decide, by decide, by rfl, ?_⟩
  intro l hwf hmo i hi
  obtain ⟨-, -, -, h4, -, -⟩ := computeDay_spec (mkDay l) (mkDay_perm l)
    (mkDay_wf l hwf) (mkDay_d0 l) (mkDay_vis l) (mkDay_nb0 l)
  exact h4 hmo i hi

/-- Witness for C8 at the spec's scenario 2: the two non-overlapping blocks
`[540,600)` and `[600,660)` both get `left = 0`, `width = 1`, `depth = 0`. -/
theorem C8_edge_cases_witness :
    ((computeDay (mkDay [(540, 600), (600, 660)])).f 0).left = 0 ∧
    ((computeDay (mkDay [(540, 600), (600, 660)])).f 0).width = 1 ∧
    ((computeDay (mkDay [(540, 600), (600, 660)])).f 0).depth = 0 :=
  C8_edge_cases.2.2.2 [(540, 600), (600, 660)] (by decide) (by decide) 0 (by decide)

/-- C2: on every fresh well-formed block list, both schedulers give
conflicting blocks distinct depths, and the number of distinct depths used
equals the returned column count, which equals the maximum number of blocks
simultaneously active at any instant. -/
theorem C2_optimal_coloring (l : List (Int × Int)) (hwf : ∀ p ∈ l, p.1 < p.2) :
    ((∀ i < (mkDay l).n, ∀ j < (mkDay l).n, i ≠ j →
        ((mkDay l).f i).conflict ((mkDay l).f j) = true →
        (((intervalScheduling (mkDay l)).2).f i).depth ≠
          (((intervalScheduling (mkDay l)).2).f j).depth) ∧
      distinctDepths ((intervalScheduling (mkDay l)).2) =
        (intervalScheduling (mkDay l)).1 ∧
      (intervalScheduling (mkDay l)).1 = maxOverlap (mkDay l)) ∧
    ((∀ i < (mkDay l).n, ∀ j < (mkDay l).n, i ≠ j →
        ((mkDay l).f i).conflict ((mkDay l).f j) = true →
        (((intervalScheduling2 (mkDay l)).2).f i).depth ≠
          (((intervalScheduling2 (mkDay l)).2).f j).depth) ∧
      distinctDepths ((intervalScheduling2 (mkDay l)).2) =
        (intervalScheduling2 (mkDay l)).1 ∧
      (intervalScheduling2 (mkDay l)).1 = maxOverlap (mkDay l)) := by
  obtain ⟨hn1, -, -, hprop1, hlt1, hcov1, hcnt1⟩ :=
    intervalScheduling_full (mkDay l) (mkDay_perm l) (mkDay_wf l hwf) (mkDay_d0 l)
  obtain ⟨hn2, -, -, hprop2, hlt2, hcov2, hcnt2⟩ :=
    intervalScheduling2_full (mkDay l) (mkDay_perm l) (mkDay_wf l hwf) (mkDay_d0 l)
  refine ⟨⟨hprop1, ?_, hcnt1⟩, ⟨hprop2, ?_, hcnt2⟩⟩
  · refine distinctDepths_eq _ _ ?_ ?_
    · intro i hi
      exact hlt1 i (by omega)
    · intro d hd
      obtain ⟨i, hi, he⟩ := hcov1 d hd
      exact ⟨i, by omega, he⟩
  · refine distinctDepths_eq _ _ ?_ ?_
    · intro i hi
      exact hlt2 i (by omega)
    · intro d hd
      obtain ⟨i, hi, he⟩ := hcov2 d hd
      exact ⟨i, by omega, he⟩

/-- Witness for C2 on `[0,10)`, `[5,15)`: the two conflicting blocks get
distinct depths in both schedulers, and both column counts and
distinct-depth counts equal the maximal overlap `2`. -/
theorem C2_optimal_coloring_witness :
    (((intervalScheduling (mkDay [(0, 10), (5, 15)])).2).f 0).depth ≠
      (((intervalScheduling (mkDay [(0, 10), (5, 15)])).2).f 1).depth ∧
    distinctDepths ((intervalScheduling (mkDay [(0, 10), (5, 15)])).2) =
      (intervalScheduling (mkDay [(0, 10), (5, 15)])).1 ∧
    (intervalScheduling (mkDay [(0, 10), (5, 15)])).1 =
      maxOverlap (mkDay [(0, 10), (5, 15)]) ∧
    (((intervalScheduling2 (mkDay [(0, 10), (5, 15)])).2).f 0).depth ≠
      (((intervalScheduling2 (mkDay [(0, 10), (5, 15)])).2).f 1).depth ∧
    distinctDepths ((intervalScheduling2 (mkDay [(0, 10), (5, 15)])).2) =
      (intervalScheduling2 (mkDay [(0, 10), (5, 15)])).1 ∧
    (intervalScheduling2 (mkDay [(0, 10), (5, 15)])).1 =
      maxOverlap (mkDay [(0, 10), (5, 15)]) := by
  have h := C2_optimal_coloring [(0, 10), (5, 15)] (by decide)
  exact ⟨h.1.1 0 (by decide) 1 (by decide) (by decide) (by decide), h.1.2.1, h.1.2.2,
    h.2.1 0 (by decide) 1 (by decide) (by decide) (by decide), h.2.2.1, h.2.2.2⟩

/-- C3: on every fresh well-formed block list the greedy quadratic scheduler
and the heap-based scheduler return the same column count. -/
theorem C3_counts_agree (l : List (Int × Int)) (hwf : ∀ p ∈ l, p.1 < p.2) :
    (intervalScheduling (mkDay l)).1 = (intervalScheduling2 (mkDay l)).1 := by
  obtain ⟨-, -, -, -, -, -, hcnt1⟩ :=
    intervalScheduling_full (mkDay l) (mkDay_perm l) (mkDay_wf l hwf) (mkDay_d0 l)
  obtain ⟨-, -, -, -, -, -, hcnt2⟩ :=
    intervalScheduling2_full (mkDay l) (mkDay_perm l) (mkDay_wf l hwf) (mkDay_d0 l)
  rw [hcnt1, hcnt2]

/-- Witness for C3 on a three-block day with a double overlap. -/
theorem C3_counts_agree_witness :
    (intervalScheduling (mkDay [(0, 10), (5, 15), (8, 20)])).1 =
      (intervalScheduling2 (mkDay [(0, 10), (5, 15), (8, 20)])).1 :=
  C3_counts_agree [(0, 10), (5, 15), (8, 20)] (by decide)

/-- C10: after a weekday needing at least two columns is laid out, every
block satisfies `pathDepth > depth`, `0 ≤ left < 1`,
`left + width = (depth + 1) / pathDepth` exactly, and `left + width ≤ 1`. -/
theorem C10_heuristic_bounds (l : List (Int × Int)) (hwf : ∀ p ∈ l, p.1 < p.2)
    (h2 : 2 ≤ maxOverlap (mkDay l)) :
    ∀ i < (mkDay l).n,
      ((computeDay (mkDay l)).f i).depth < ((computeDay (mkDay l)).f i).pathDepth ∧
      0 ≤ ((computeDay (mkDay l)).f i).left ∧
      ((computeDay (mkDay l)).f i).left < 1 ∧
      ((computeDay (mkDay l)).f i).left + ((computeDay (mkDay l)).f i).width =
        ((((computeDay (mkDay l)).f i).depth : Rat) + 1) /
          (((computeDay (mkDay l)).f i).pathDepth : Rat) ∧
      ((computeDay (mkDay l)).f i).left + ((computeDay (mkDay l)).f i).width ≤ 1 := by
  intro i hi
  obtain ⟨-, -, -, -, h5, -⟩ := computeDay_spec (mkDay l) (mkDay_perm l)
    (mkDay_wf l hwf) (mkDay_d0 l) (mkDay_vis l) (mkDay_nb0 l)
  obtain ⟨hpd, hl, hw⟩ := h5 h2 i hi
  set d := ((computeDay (mkDay l)).f i).depth with hd
  set pd := ((computeDay (mkDay l)).f i).pathDepth with hpdn
  have hpd_pos : (0 : Rat) < (pd : Rat) := by exact_mod_cast (by omega : 0 < pd)
  refine ⟨by omega, ?_, ?_, ?_, ?_⟩
  · rw [hl]
    positivity
  · rw [hl, div_lt_one hpd_pos]
    exact_mod_cast (by omega : d < pd)
  · rw [hl, hw, div_add_div_same]
  · rw [hl, hw, div_add_div_same, div_le_one hpd_pos]
    exact_mod_cast hpd

/-- Witness for C10 on `[0,10)`, `[5,15)` at block `0`. -/
theorem C10_heuristic_bounds_witness :
    ((computeDay (mkDay [(0, 10), (5, 15)])).f 0).depth <
      ((computeDay (mkDay [(0, 10), (5, 15)])).f 0).pathDepth ∧
    0 ≤ ((computeDay (mkDay [(0, 10), (5, 15)])).f 0).left ∧
    ((computeDay (mkDay [(0, 10), (5, 15)])).f 0).left < 1 ∧
    ((computeDay (mkDay [(0, 10), (5, 15)])).f 0).left +
        ((computeDay (mkDay [(0, 10), (5, 15)])).f 0).width =
      ((((computeDay (mkDay [(0, 10), (5, 15)])).f 0).depth : Rat) + 1) /
        (((computeDay (mkDay [(0, 10), (5, 15)])).f 0).pathDepth : Rat) ∧
    ((computeDay (mkDay [(0, 10), (5, 15)])).f 0).left +
        ((computeDay (mkDay [(0, 10), (5, 15)])).f 0).width ≤ 1 :=
  C10_heuristic_bounds [(0, 10), (5, 15)] (by decide) (by decide) 0 (by decide)

/-- C7: in the greedy scheduler's step, when some occupied column's
representative ends at or before the current block's start, the step reuses
a column attaining the minimal `depth` among all such columns (writing that
depth); otherwise it opens a fresh column. -/
theorem C7_lowest_depth_reuse (acc : Day × List Nat × Nat) (bid : Nat) :
    (selectRoom acc.1 (acc.1.f bid).startMin acc.2.1 = none →
      sched1Step acc bid =
        (acc.1.upd bid (fun b => { b with depth := acc.2.2 + 1 }),
          acc.2.1 ++ [bid], acc.2.2 + 1) ∧
      ∀ x ∈ acc.2.1, ¬((acc.1.f x).endMin ≤ (acc.1.f bid).startMin)) ∧
    (∀ k d, selectRoom acc.1 (acc.1.f bid).startMin acc.2.1 = some (k, d) →
      sched1Step acc bid =
        (acc.1.upd bid (fun b => { b with depth := d }), acc.2.1.set k bid, acc.2.2) ∧
      ∃ x, acc.2.1[k]? = some x ∧ (acc.1.f x).depth = d ∧
        (acc.1.f x).endMin ≤ (acc.1.f bid).startMin ∧
        ∀ y ∈ acc.2.1, (acc.1.f y).endMin ≤ (acc.1.f bid).startMin →
          d ≤ (acc.1.f y).depth) := by
  obtain ⟨st, occ, rooms⟩ := acc
  have hs := selectRoom_spec st (st.f bid).startMin occ
  constructor
  · intro hnone
    refine ⟨?_, hs.1 hnone⟩
    rw [sched1Step]
    dsimp only
    rw [hnone]
  · intro k d hsome
    refine ⟨?_, hs.2 k d hsome⟩
    rw [sched1Step]
    dsimp only
    rw [hsome]

/-- Witness for C7: with occupied column `[0]` (block `[0,10)`, depth `0`)
and incoming block `[12,20)`, the step reuses position `0` at depth `0`. -/
theorem C7_lowest_depth_reuse_witness :
    sched1Step (mkDay [(0, 10), (12, 20)], [0], 0) 1 =
      ((mkDay [(0, 10), (12, 20)]).upd 1 (fun b => { b with depth := 0 }),
        [0].set 0 1, 0) ∧
    ∃ x, ([0] : List Nat)[0]? = some x ∧
      ((mkDay [(0, 10), (12, 20)]).f x).depth = 0 ∧
      ((mkDay [(0, 10), (12, 20)]).f x).endMin ≤
        ((mkDay [(0, 10), (12, 20)]).f 1).startMin ∧
      ∀ y ∈ ([0] : List Nat),
        ((mkDay [(0, 10), (12, 20)]).f y).endMin ≤
          ((mkDay [(0, 10), (12, 20)]).f 1).startMin →
        0 ≤ ((mkDay [(0, 10), (12, 20)]).f y).depth :=
  (C7_lowest_depth_reuse (mkDay [(0, 10), (12, 20)], [0], 0) 1).2 0 0 (by decide)

/-- C9: neither scheduler ever writes the depth of the first block in sorted
order, so it keeps its entry value; consequently the distinct-depth guarantee
needs the depth-0 entry precondition, and with a nonzero entry depth on the
first block two conflicting blocks can end up sharing a depth. -/
theorem C9_head_depth_precondition :
    (∀ (st : Day) (b0 : Nat) (rest : List Nat), st.order.Nodup →
      (sortByStart st).order = b0 :: rest →
      ((intervalScheduling st).2).f b0 = st.f b0 ∧
      ((intervalScheduling2 st).2).f b0 = st.f b0) ∧
    ((((intervalScheduling2 ((mkDay [(0, 10), (0, 10)]).upd 0
          (fun b => { b with depth := 1 }))).2).f 0).depth =
        (((intervalScheduling2 ((mkDay [(0, 10), (0, 10)]).upd 0
          (fun b => { b with depth := 1 }))).2).f 1).depth ∧
      (((mkDay [(0, 10), (0, 10)]).upd 0 (fun b => { b with depth := 1 })).f 0).conflict
        (((mkDay [(0, 10), (0, 10)]).upd 0 (fun b => { b with depth := 1 })).f 1) =
        true) := by
  constructor
  · intro st b0 rest hnd hord
    have hnd' : (sortByStart st).order.Nodup := (sortByStart_perm st).symm.nodup hnd
    rw [hord] at hnd'
    have hb0 : b0 ∉ rest := (List.nodup_cons.1 hnd').1
    constructor
    · rw [intervalScheduling]
      dsimp only
      rw [hord]
      exact sched1_foldl_frame rest _ hb0
    · rw [intervalScheduling2]
      dsimp only
      rw [hord]
      exact sched2_foldl_frame rest _ hb0
  · exact ⟨by decide, by decide⟩

/-- Witness for C9's untouched-head part on `[0,10)`, `[12,20)`. -/
theorem C9_head_depth_precondition_witness :
    ((intervalScheduling (mkDay [(0, 10), (12, 20)])).2).f 0 =
      (mkDay [(0, 10), (12, 20)]).f 0 ∧
    ((intervalScheduling2 (mkDay [(0, 10), (12, 20)])).2).f 0 =
      (mkDay [(0, 10), (12, 20)]).f 0 :=
  C9_head_depth_precondition.1 (mkDay [(0, 10), (12, 20)]) 0 [1] (by decide) (by decide)

/-- C4 (amended): after the fixed-block detection pass on a freshly scheduled
day, a block is marked `isFixed` exactly when the seeded pass visited it and
the code's recursive criterion `Ffix` holds: depth 0, or SOME neighbor at
depth exactly one lower with equal `pathDepth` is fixed. -/
theorem C4_fixed_flag (l : List (Int × Int)) (hwf : ∀ p ∈ l, p.1 < p.2) :
    ∀ x, ((calculateMaxDepth (sched2Pipe l)).f x).isFixed =
      (((calculateMaxDepth (sched2Pipe l)).f x).visited &&
        Ffix (calculateMaxDepth (sched2Pipe l)) x) := by
  obtain ⟨-, hperm, hvis, hfix, hnbr⟩ := sched2Pipe_facts l hwf
  obtain ⟨-, -, -, -, -, -, -, h8⟩ :=
    calculateMaxDepth_spec (sched2Pipe l) hvis hperm hnbr
  intro x
  rw [h8 x]
  by_cases hv : ((calculateMaxDepth (sched2Pipe l)).f x).visited
  · rw [if_pos hv, hv, Bool.true_and]
  · rw [if_neg hv, hfix x]
    rw [Bool.not_eq_true] at hv
    rw [hv, Bool.false_and]

/-- Witness for C4's amended characterization at block `0` of a two-block
conflict. -/
theorem C4_fixed_flag_witness :
    ((calculateMaxDepth (sched2Pipe [(0, 10), (5, 15)])).f 0).isFixed =
      (((calculateMaxDepth (sched2Pipe [(0, 10), (5, 15)])).f 0).visited &&
        Ffix (calculateMaxDepth (sched2Pipe [(0, 10), (5, 15)])) 0) :=
  C4_fixed_flag [(0, 10), (5, 15)] (by decide) 0

/-- C4 counterexample to the claimed characterization: on the day
`[0,20), [0,8), [0,4), [10,20)` the fixed-block pass leaves block `3` at
`depth = 0` yet unfixed (the seeded DFS never reaches it), contradicting
"isFixed exactly when it sits at depth = 0, or ...". -/
theorem C4_fixed_flag_counterexample :
    ((calculateMaxDepth (sched2Pipe [(0, 20), (0, 8), (0, 4), (10, 20)])).f 3).depth =
      0 ∧
    ((calculateMaxDepth (sched2Pipe [(0, 20), (0, 8), (0, 4), (10, 20)])).f 3).isFixed =
      false := by decide

/-- C6 (amended): `constructAdjList` never clears `neighbors`; it appends the
rebuilt conflict lists to whatever is already there, so a repeated layout
pass duplicates every neighbor entry. -/
theorem C6_no_clearing (st : Day) (hnd : st.order.Nodup) (a : Nat) :
    ((constructAdjList st).f a).neighbors =
      (st.f a).neighbors ++ conflictNbrs st st.order a :=
  adjOuter_nbrs st.order hnd st a

/-- Witness for C6's append behavior on a fresh two-block day. -/
theorem C6_no_clearing_witness :
    ((constructAdjList (mkDay [(0, 10), (5, 15)])).f 0).neighbors =
      ((mkDay [(0, 10), (5, 15)]).f 0).neighbors ++
        conflictNbrs (mkDay [(0, 10), (5, 15)]) (mkDay [(0, 10), (5, 15)]).order 0 :=
  C6_no_clearing (mkDay [(0, 10), (5, 15)]) (by decide) 0

/-- C6 counterexample to the claimed clearing: running the layout pass twice
on `[0,10)`, `[5,15)` leaves the duplicated neighbor list `[1, 1]` on block
`0`, while a single pass leaves `[1]`. -/
theorem C6_no_clearing_counterexample :
    ((computeDay (computeDay (mkDay [(0, 10), (5, 15)]))).f 0).neighbors = [1, 1] ∧
    ((computeDay (mkDay [(0, 10), (5, 15)])).f 0).neighbors = [1] := by decide

/-- C1: on a fresh well-formed day, any two blocks whose time intervals
overlap end with disjoint horizontal ranges `[left, left + width)`, both in
the heuristic layout and under any feasible LP assignment. -/
theorem C1_no_overlap (l : List (Int × Int)) (hwf : ∀ p ∈ l, p.1 < p.2) :
    ∀ i < (mkDay l).n, ∀ j < (mkDay l).n, i ≠ j →
      ((mkDay l).f i).conflict ((mkDay l).f j) = true →
      disjointIv ((computeDay (mkDay l)).f i).left ((computeDay (mkDay l)).f i).width
        ((computeDay (mkDay l)).f j).left ((computeDay (mkDay l)).f j).width ∧
      ∀ L W, lpFeasible (computeDay (mkDay l)) L W →
        disjointIv (L i) (W i) (L j) (W j) := by
  intro i hi j hj hij hc
  have h2 : 2 ≤ maxOverlap (mkDay l) :=
    conflict_le_maxOverlap (mkDay l) (mkDay_wf l hwf) hi hj hij hc
  obtain ⟨hn, hprop, hnbrs, -, h5, h6⟩ := computeDay_spec (mkDay l) (mkDay_perm l)
    (mkDay_wf l hwf) (mkDay_d0 l) (mkDay_vis l) (mkDay_nb0 l)
  have key : ∀ a b, a < (mkDay l).n → b < (mkDay l).n → a ≠ b →
      ((mkDay l).f a).conflict ((mkDay l).f b) = true →
      ((computeDay (mkDay l)).f a).depth < ((computeDay (mkDay l)).f b).depth →
      (((computeDay (mkDay l)).f a).left + ((computeDay (mkDay l)).f a).width ≤
        ((computeDay (mkDay l)).f b).left) ∧
      (∀ L W, lpFeasible (computeDay (mkDay l)) L W → L a + W a ≤ L b) := by
    intro a b ha hb hab hcab hdab
    constructor
    · obtain ⟨hpda, hla, hwa⟩ := h5 h2 a ha
      obtain ⟨hpdb, hlb, hwb⟩ := h5 h2 b hb
      have hpd := h6 h2 a ha b hb hab hcab hdab
      rw [hla, hwa, hlb, div_add_div_same]
      have hpa : (0 : Rat) < (((computeDay (mkDay l)).f a).pathDepth : Rat) := by
        exact_mod_cast (by omega : 0 < ((computeDay (mkDay l)).f a).pathDepth)
      have hpb : (0 : Rat) < (((computeDay (mkDay l)).f b).pathDepth : Rat) := by
        exact_mod_cast (by omega : 0 < ((computeDay (mkDay l)).f b).pathDepth)
      rw [div_le_div_iff hpa hpb]
      have hnat : (((computeDay (mkDay l)).f a).depth + 1) *
            ((computeDay (mkDay l)).f b).pathDepth ≤
          ((computeDay (mkDay l)).f b).depth *
            ((computeDay (mkDay l)).f a).pathDepth :=
        Nat.mul_le_mul (by omega) hpd
      exact_mod_cast hnat
    · intro L W hLW
      have hmem : b ∈ ((computeDay (mkDay l)).f a).neighbors :=
        (hnbrs a b).2 ⟨ha, hb, fun h => hab h.symm, hcab⟩
      exact hLW.2.2 a (by omega) b hmem (by omega) hdab
  have hd := hprop i hi j hj hij hc
  rcases Nat.lt_or_ge ((computeDay (mkDay l)).f i).depth
    ((computeDay (mkDay l)).f j).depth with hlt | hge
  · obtain ⟨k1, k2⟩ := key i j hi hj hij hc hlt
    exact ⟨Or.inl k1, fun L W h => Or.inl (k2 L W h)⟩
  · have hlt' : ((computeDay (mkDay l)).f j).depth <
        ((computeDay (mkDay l)).f i).depth := by omega
    obtain ⟨k1, k2⟩ := key j i hj hi (fun h => hij h.symm)
      (by rw [SB.conflict_comm]; exact hc) hlt'
    exact ⟨Or.inr k1, fun L W h => Or.inr (k2 L W h)⟩

/-- Witness for C1 on the conflicting pair `[0,10)`, `[5,15)`. -/
theorem C1_no_overlap_witness :
    disjointIv ((computeDay (mkDay [(0, 10), (5, 15)])).f 0).left
      ((computeDay (mkDay [(0, 10), (5, 15)])).f 0).width
      ((computeDay (mkDay [(0, 10), (5, 15)])).f 1).left
      ((computeDay (mkDay [(0, 10), (5, 15)])).f 1).width ∧
    ∀ L W, lpFeasible (computeDay (mkDay [(0, 10), (5, 15)])) L W →
      disjointIv (L 0) (W 0) (L 1) (W 1) :=
  C1_no_overlap [(0, 10), (5, 15)] (by decide) 0 (by decide) 1 (by decide)
    (by decide) (by decide)

/-! ## Machinery for idempotence (C5): sorted-order uniqueness and
scheduler determinism -/

/-- Two sorted permutations of each other agree when the order is
antisymmetric on their members. -/
theorem eq_of_perm_of_sorted_mem {α : Type} {r : α → α → Prop} :
    ∀ {l1 l2 : List α}, l1.Perm l2 → l1.Pairwise r → l2.Pairwise r →
      (∀ a ∈ l1, ∀ b ∈ l1, r a b → r b a → a = b) → l1 = l2 := by
  intro l1
  induction l1 with
  | nil =>
      intro l2 hp _ _ _
      exact (hp.nil_eq).symm ▸ rfl
  | cons a t1 ih =>
      intro l2 hp hs1 hs2 hanti
      cases l2 with
      | nil => exact absurd hp.symm.nil_eq (by simp)
      | cons b t2 =>
          have hab : a = b := by
            by_contra hne
            have hbmem : b ∈ a :: t1 := hp.mem_iff.2 (List.mem_cons_self _ _)
            have hamem : a ∈ b :: t2 := hp.mem_iff.1 (List.mem_cons_self _ _)
            have hb1 : b ∈ t1 := by
              rcases List.mem_cons.1 hbmem with h | h
              · exact absurd h.symm hne
              · exact h
            have ha2 : a ∈ t2 := by
              rcases List.mem_cons.1 hamem with h | h
              · exact absurd h hne
              · exact h
            have hrab : r a b := (List.pairwise_cons.1 hs1).1 b hb1
            have hrba : r b a := (List.pairwise_cons.1 hs2).1 a ha2
            exact hne (hanti a (List.mem_cons_self _ _) b hbmem hrab hrba)
          subst hab
          have hp' : t1.Perm t2 := hp.cons_inv
          rw [ih hp' (List.pairwise_cons.1 hs1).2 (List.pairwise_cons.1 hs2).2
            (fun x hx y hy => hanti x (List.mem_cons_of_mem _ hx)
              y (List.mem_cons_of_mem _ hy))]

theorem qInsert_congr {sA sB : Day} (i : Nat) :
    ∀ (q : List Nat),
      (∀ x ∈ i :: q, (sA.f x).endMin = (sB.f x).endMin ∧
        (sA.f x).depth = (sB.f x).depth) →
      qInsert sA i q = qInsert sB i q := by
  intro q
  induction q with
  | nil => intro _; rfl
  | cons j js ih =>
      intro h
      have hi := h i (List.mem_cons_self _ _)
      have hj := h j (List.mem_cons_of_mem _ (List.mem_cons_self _ _))
      have hle : qLE sA i j = qLE sB i j := by
        simp [qLE, hi.1, hi.2, hj.1, hj.2]
      rw [qInsert, qInsert, hle]
      split
      · rfl
      · rw [ih (fun x hx => by
          rcases List.mem_cons.1 hx with rfl | hx'
          · exact hi
          · exact h x (List.mem_cons_of_mem _ (List.mem_cons_of_mem _ hx')))]

theorem qInsert_ne_nil (st : Day) (i : Nat) (q : List Nat) : qInsert st i q ≠ [] := by
  cases q with
  | nil => simp [qInsert]
  | cons j js =>
      rw [qInsert]
      split <;> simp

/-- Determinism of the `intervalScheduling2` main loop: starting from two
stores with identical `startMin`/`endMin` everywhere, the same queue and room
count, and equal depths on the queue members, the loop makes identical
decisions: same final queue, same room count, and identical depth writes on
every processed block. -/
theorem sched2_det : ∀ (todo : List Nat) (stA stB : Day) (q : List Nat) (rooms : Nat),
    (∀ j, (stA.f j).startMin = (stB.f j).startMin ∧
      (stA.f j).endMin = (stB.f j).endMin) →
    todo.Nodup → (∀ x ∈ todo, x ∉ q) → q ≠ [] →
    (∀ x ∈ q, (stA.f x).depth = (stB.f x).depth) →
    (todo.foldl sched2Step (stA, q, rooms)).2.1 =
      (todo.foldl sched2Step (stB, q, rooms)).2.1 ∧
    (todo.foldl sched2Step (stA, q, rooms)).2.2 =
      (todo.foldl sched2Step (stB, q, rooms)).2.2 ∧
    (∀ x ∈ todo, ((todo.foldl sched2Step (stA, q, rooms)).1.f x).depth =
      ((todo.foldl sched2Step (stB, q, rooms)).1.f x).depth) := by
  intro todo
  induction todo with
  | nil =>
      intro stA stB q rooms _ _ _ _ _
      exact ⟨rfl, rfl, fun x hx => absurd hx (List.not_mem_nil x)⟩
  | cons bid todo' ih =>
      intro stA stB q rooms hkeys hnd hdisj hqne hq
      cases q with
      | nil => exact absurd rfl hqne
      | cons p qrest =>
          have hbid_q : bid ∉ p :: qrest := hdisj bid (List.mem_cons_self _ _)
          have hbid_td : bid ∉ todo' := (List.nodup_cons.1 hnd).1
          rw [List.foldl_cons, List.foldl_cons, sched2Step, sched2Step]
          dsimp only
          by_cases hcond : (stA.f p).endMin > (stA.f bid).startMin
          · have hcondB : (stB.f p).endMin > (stB.f bid).startMin := by
              rw [← (hkeys p).2, ← (hkeys bid).1]
              exact hcond
            rw [if_pos hcond, if_pos hcondB]
            set stA' := stA.upd bid (fun b => { b with depth := rooms + 1 }) with hstA'
            set stB' := stB.upd bid (fun b => { b with depth := rooms + 1 }) with hstB'
            have hkeys' : ∀ j, (stA'.f j).startMin = (stB'.f j).startMin ∧
                (stA'.f j).endMin = (stB'.f j).endMin := by
              intro j
              rw [hstA', hstB', Day.upd_f, Day.upd_f]
              split
              · exact ⟨(hkeys j).1, (hkeys j).2⟩
              · exact hkeys j
            have hdeq : ∀ x ∈ bid :: p :: qrest,
                (stA'.f x).endMin = (stB'.f x).endMin ∧
                (stA'.f x).depth = (stB'.f x).depth := by
              intro x hx
              rcases List.mem_cons.1 hx with rfl | hx'
              · rw [hstA', hstB', Day.upd_f_same, Day.upd_f_same]
                exact ⟨(hkeys x).2, rfl⟩
              · have hxb : x ≠ bid := fun h => hbid_q (h ▸ hx')
                rw [hstA', hstB', Day.upd_f_other stA _ hxb, Day.upd_f_other stB _ hxb]
                exact ⟨(hkeys x).2, hq x hx'⟩
            have hqeq : qInsert stA' bid (p :: qrest) = qInsert stB' bid (p :: qrest) :=
              qInsert_congr bid (p :: qrest) hdeq
            rw [hqeq]
            have hih := ih stA' stB' (qInsert stB' bid (p :: qrest)) (rooms + 1) hkeys'
              (List.nodup_cons.1 hnd).2
              (fun x hx hmem => by
                have hperm := qInsert_perm stB' bid (p :: qrest)
                have := hperm.mem_iff.1 hmem
                rcases List.mem_cons.1 this with rfl | hx'
                · exact hbid_td hx
                · exact hdisj x (List.mem_cons_of_mem _ hx) hx')
              (qInsert_ne_nil _ _ _)
              (fun x hx => by
                have hperm := qInsert_perm stB' bid (p :: qrest)
                have hx' := hperm.mem_iff.1 hx
                rcases List.mem_cons.1 hx' with rfl | hx''
                · rw [hstA', hstB', Day.upd_f_same, Day.upd_f_same]
                · have hxb : x ≠ bid := fun h => hbid_q (h ▸ hx'')
                  rw [hstA', hstB', Day.upd_f_other stA _ hxb,
                    Day.upd_f_other stB _ hxb]
                  exact hq x hx'')
            refine ⟨hih.1, hih.2.1, ?_⟩
            intro x hx
            rcases List.mem_cons.1 hx with rfl | hx'
            · rw [sched2_foldl_frame todo' _ hbid_td, sched2_foldl_frame todo' _ hbid_td,
                hstA', hstB', Day.upd_f_same, Day.upd_f_same]
            · exact hih.2.2 x hx'
          · have hcondB : ¬((stB.f p).endMin > (stB.f bid).startMin) := by
              rw [← (hkeys p).2, ← (hkeys bid).1]
              exact hcond
            rw [if_neg hcond, if_neg hcondB]
            have hdp : (stA.f p).depth = (stB.f p).depth :=
              hq p (List.mem_cons_self _ _)
            set stA' := stA.upd bid (fun b => { b with depth := (stA.f p).depth })
              with hstA'
            set stB' := stB.upd bid (fun b => { b with depth := (stB.f p).depth })
              with hstB'
            have hkeys' : ∀ j, (stA'.f j).startMin = (stB'.f j).startMin ∧
                (stA'.f j).endMin = (stB'.f j).endMin := by
              intro j
              rw [hstA', hstB', Day.upd_f, Day.upd_f]
              split
              · exact ⟨(hkeys j).1, (hkeys j).2⟩
              · exact hkeys j
            have hdeq : ∀ x ∈ bid :: qrest,
                (stA'.f x).endMin = (stB'.f x).endMin ∧
                (stA'.f x).depth = (stB'.f x).depth := by
              intro x hx
              rcases List.mem_cons.1 hx with rfl | hx'
              · rw [hstA', hstB', Day.upd_f_same, Day.upd_f_same]
                exact ⟨(hkeys x).2, hdp⟩
              · have hxb : x ≠ bid :=
                  fun h => hbid_q (h ▸ List.mem_cons_of_mem _ hx')
                rw [hstA', hstB', Day.upd_f_other stA _ hxb, Day.upd_f_other stB _ hxb]
                exact ⟨(hkeys x).2, hq x (List.mem_cons_of_mem _ hx')⟩
            have hqeq : qInsert stA' bid qrest = qInsert stB' bid qrest :=
              qInsert_congr bid qrest hdeq
            rw [hqeq]
            have hih := ih stA' stB' (qInsert stB' bid qrest) rooms hkeys'
              (List.nodup_cons.1 hnd).2
              (fun x hx hmem => by
                have hperm := qInsert_perm stB' bid qrest
                have := hperm.mem_iff.1 hmem
                rcases List.mem_cons.1 this with rfl | hx'
                · exact hbid_td hx
                · exact hdisj x (List.mem_cons_of_mem _ hx)
                    (List.mem_cons_of_mem _ hx'))
              (qInsert_ne_nil _ _ _)
              (fun x hx => by
                have hperm := qInsert_perm stB' bid qrest
                have hx' := hperm.mem_iff.1 hx
                rcases List.mem_cons.1 hx' with rfl | hx''
                · rw [hstA', hstB', Day.upd_f_same, Day.upd_f_same]
                  exact hdp
                · have hxb : x ≠ bid :=
                    fun h => hbid_q (h ▸ List.mem_cons_of_mem _ hx'')
                  rw [hstA', hstB', Day.upd_f_other stA _ hxb,
                    Day.upd_f_other stB _ hxb]
                  exact hq x (List.mem_cons_of_mem _ hx''))
            refine ⟨hih.1, hih.2.1, ?_⟩
            intro x hx
            rcases List.mem_cons.1 hx with rfl | hx'
            · rw [sched2_foldl_frame todo' _ hbid_td, sched2_foldl_frame todo' _ hbid_td,
                hstA', hstB', Day.upd_f_same, Day.upd_f_same]
              dsimp only
              rw [hdp]
            · exact hih.2.2 x hx'

/-! ## Blocks outside the arrangement are never touched -/

theorem dfs1List_nbrs (rec : Nat → Nat → Day → Day)
    (hrec : ∀ j m st a, ((rec j m st).f a).neighbors = (st.f a).neighbors)
    (s m : Nat) : ∀ (js : List Nat) (st : Day) (a : Nat),
      ((dfs1List rec s m js st).f a).neighbors = (st.f a).neighbors := by
  intro js
  induction js with
  | nil => intro st a; rfl
  | cons j js' ih =>
      intro st a
      rw [dfs1List, ih]
      by_cases hc : ¬(st.f j).visited ∧ (st.f j).depth < (st.f s).depth
      · rw [if_pos hc]
        exact hrec j m st a
      · rw [if_neg hc]

theorem dfs1_nbrs : ∀ (fuel s m : Nat) (st : Day) (a : Nat),
    ((dfs1 fuel s m st).f a).neighbors = (st.f a).neighbors := by
  intro fuel
  induction fuel with
  | zero => intro s m st a; rfl
  | succ fuel ih =>
      intro s m st a
      rw [dfs1]
      refine (dfs1List_nbrs (dfs1 fuel) ih s m _ _ a).trans ?_
      rw [Day.upd_f]
      split <;> rfl

theorem dfs1List_out (rec : Nat → Nat → Day → Day) {x : Nat}
    (hrecn : ∀ j m st a, ((rec j m st).f a).neighbors = (st.f a).neighbors)
    (hreco : ∀ j m st, x ≠ j → (∀ a, ∀ y ∈ (st.f a).neighbors, y ≠ x) →
      (rec j m st).f x = st.f x)
    (s m : Nat) : ∀ (js : List Nat) (st : Day),
      (∀ j ∈ js, j ≠ x) → (∀ a, ∀ y ∈ (st.f a).neighbors, y ≠ x) →
      (dfs1List rec s m js st).f x = st.f x := by
  intro js
  induction js with
  | nil => intro st _ _; rfl
  | cons j js' ih =>
      intro st hjs hnb
      rw [dfs1List]
      by_cases hc : ¬(st.f j).visited ∧ (st.f j).depth < (st.f s).depth
      · rw [if_pos hc,
          ih _ (fun a ha => hjs a (List.mem_cons_of_mem _ ha))
            (fun a y hy => hnb a y (by rw [← hrecn j m st a]; exact hy)),
          hreco j m st (fun h => hjs j (List.mem_cons_self _ _) h.symm) hnb]
      · rw [if_neg hc,
          ih _ (fun a ha => hjs a (List.mem_cons_of_mem _ ha)) hnb]

theorem dfs1_out : ∀ (fuel s m : Nat) (st : Day) (x : Nat), x ≠ s →
    (∀ a, ∀ y ∈ (st.f a).neighbors, y ≠ x) →
    (dfs1 fuel s m st).f x = st.f x := by
  intro fuel
  induction fuel with
  | zero => intro s m st x _ _; rfl
  | succ fuel ih =>
      intro s m st x hxs hnb
      rw [dfs1]
      have hnb1 : ∀ a, ∀ y ∈ ((st.upd s
          (fun b => { b with visited := true, pathDepth := m })).f a).neighbors,
          y ≠ x := by
        intro a y hy
        rw [Day.upd_f] at hy
        by_cases has : a = s
        · rw [if_pos has] at hy
          exact hnb a y hy
        · rw [if_neg has] at hy
          exact hnb a y hy
      refine (dfs1List_out (dfs1 fuel) (fun j m' st' a => dfs1_nbrs fuel j m' st' a)
        (fun j m' st' hxj hnb' => ih j m' st' x hxj hnb') s m _ _
        (fun j hj => hnb1 s j hj) hnb1).trans ?_
      exact Day.upd_f_other st _ hxs

theorem dfsFList_nbrs (rec : Nat → Day → Bool × Day)
    (hrec : ∀ j st a, (((rec j st).2).f a).neighbors = (st.f a).neighbors)
    (s : Nat) : ∀ (js : List Nat) (flag : Bool) (st : Day) (a : Nat),
      (((dfsFList rec s js flag st).2).f a).neighbors = (st.f a).neighbors := by
  intro js
  induction js with
  | nil => intro flag st a; rfl
  | cons j js' ih =>
      intro flag st a
      rw [dfsFList]
      by_cases hv : (st.f j).visited
      · rw [if_pos hv, ih]
      · rw [if_neg hv]
        by_cases hsp : (st.f s).depth = (st.f j).depth + 1 ∧
            (st.f s).pathDepth = (st.f j).pathDepth
        · rw [if_pos hsp, ih]
          exact hrec j st a
        · rw [if_neg hsp, ih]

theorem dfsF_nbrs : ∀ (fuel s : Nat) (st : Day) (a : Nat),
    (((dfsF fuel s st).2).f a).neighbors = (st.f a).neighbors := by
  intro fuel
  induction fuel with
  | zero => intro s st a; rfl
  | succ fuel ih =>
      intro s st a
      rw [dfsF]
      have hupd : ∀ (t : Day) (g : SB → SB),
          (∀ b, (g b).neighbors = b.neighbors) →
          ((t.upd s g).f a).neighbors = (t.f a).neighbors := by
        intro t g hg
        rw [Day.upd_f]
        split
        · exact hg _
        · rfl
      by_cases hd : ((st.upd s (fun b => { b with visited := true })).f s).depth = 0
      · rw [if_pos hd]
        dsimp only
        refine (hupd _ _ ?_).trans (hupd _ _ ?_)
        · exact fun b => rfl
        · exact fun b => rfl
      · rw [if_neg hd]
        dsimp only
        refine (hupd _ _ ?_).trans
          ((dfsFList_nbrs (dfsF fuel) ih s _ _ _ a).trans (hupd _ _ ?_))
        · exact fun b => rfl
        · exact fun b => rfl

theorem dfsFList_out (rec : Nat → Day → Bool × Day) {x : Nat}
    (hrecn : ∀ j st a, (((rec j st).2).f a).neighbors = (st.f a).neighbors)
    (hreco : ∀ j st, x ≠ j → (∀ a, ∀ y ∈ (st.f a).neighbors, y ≠ x) →
      ((rec j st).2).f x = st.f x)
    (s : Nat) : ∀ (js : List Nat) (flag : Bool) (st : Day),
      (∀ j ∈ js, j ≠ x) → (∀ a, ∀ y ∈ (st.f a).neighbors, y ≠ x) →
      ((dfsFList rec s js flag st).2).f x = st.f x := by
  intro js
  induction js with
  | nil => intro flag st _ _; rfl
  | cons j js' ih =>
      intro flag st hjs hnb
      rw [dfsFList]
      by_cases hv : (st.f j).visited
      · rw [if_pos hv, ih _ _ (fun a ha => hjs a (List.mem_cons_of_mem _ ha)) hnb]
      · rw [if_neg hv]
        by_cases hsp : (st.f s).depth = (st.f j).depth + 1 ∧
            (st.f s).pathDepth = (st.f j).pathDepth
        · rw [if_pos hsp,
            ih _ _ (fun a ha => hjs a (List.mem_cons_of_mem _ ha))
              (fun a y hy => hnb a y (by rw [← hrecn j st a]; exact hy)),
            hreco j st (fun h => hjs j (List.mem_cons_self _ _) h.symm) hnb]
        · rw [if_neg hsp,
            ih _ _ (fun a ha => hjs a (List.mem_cons_of_mem _ ha)) hnb]

theorem dfsF_out : ∀ (fuel s : Nat) (st : Day) (x : Nat), x ≠ s →
    (∀ a, ∀ y ∈ (st.f a).neighbors, y ≠ x) →
    ((dfsF fuel s st).2).f x = st.f x := by
  intro fuel
  induction fuel with
  | zero => intro s st x _ _; rfl
  | succ fuel ih =>
      intro s st x hxs hnb
      rw [dfsF]
      have hnb1 : ∀ a, ∀ y ∈ ((st.upd s
          (fun b => { b with visited := true })).f a).neighbors, y ≠ x := by
        intro a y hy
        rw [Day.upd_f] at hy
        by_cases has : a = s
        · rw [if_pos has] at hy
          exact hnb a y hy
        · rw [if_neg has] at hy
          exact hnb a y hy
      by_cases hd : ((st.upd s (fun b => { b with visited := true })).f s).depth = 0
      · rw [if_pos hd]
        dsimp only
        rw [Day.upd_f_other _ _ hxs, Day.upd_f_other st _ hxs]
      · rw [if_neg hd]
        dsimp only
        rw [Day.upd_f_other _ _ hxs,
          dfsFList_out (dfsF fuel) (fun j st' a => dfsF_nbrs fuel j st' a)
            (fun j st' hxj hnb' => ih j st' x hxj hnb') s _ _ _
            (fun j hj => hnb1 s j hj) hnb1,
          Day.upd_f_other st _ hxs]

theorem pass1Fold_out : ∀ (todo : List Nat) (st : Day) (x : Nat),
    (∀ i ∈ todo, i ≠ x) → (∀ a, ∀ y ∈ (st.f a).neighbors, y ≠ x) →
    ((todo.foldl
      (fun s i => if (s.f i).visited then s else dfs1 s.n i ((s.f i).depth + 1) s)
      st).f x) = st.f x := by
  intro todo
  induction todo with
  | nil => intro st x _ _; rfl
  | cons i todo' ih =>
      intro st x htodo hnb
      rw [List.foldl_cons]
      by_cases hv : (st.f i).visited
      · rw [if_pos hv, ih _ _ (fun a ha => htodo a (List.mem_cons_of_mem _ ha)) hnb]
      · rw [if_neg hv,
          ih _ _ (fun a ha => htodo a (List.mem_cons_of_mem _ ha))
            (fun a y hy => hnb a y
              (by rw [← dfs1_nbrs st.n i ((st.f i).depth + 1) st a]; exact hy)),
          dfs1_out st.n i ((st.f i).depth + 1) st x
            (fun h => htodo i (List.mem_cons_self _ _) h.symm) hnb]

theorem pass2Fold_out : ∀ (todo : List Nat) (st : Day) (x : Nat),
    (∀ i ∈ todo, i ≠ x) → (∀ a, ∀ y ∈ (st.f a).neighbors, y ≠ x) →
    ((todo.foldl
      (fun s i =>
        if ¬(s.f i).visited ∧
            ((s.f i).neighbors.all fun v => (s.f v).depth < (s.f i).depth)
        then (dfsF s.n i s).2 else s)
      st).f x) = st.f x := by
  intro todo
  induction todo with
  | nil => intro st x _ _; rfl
  | cons i todo' ih =>
      intro st x htodo hnb
      rw [List.foldl_cons]
      by_cases hc : ¬(st.f i).visited ∧
          ((st.f i).neighbors.all fun v => (st.f v).depth < (st.f i).depth)
      · rw [if_pos hc,
          ih _ _ (fun a ha => htodo a (List.mem_cons_of_mem _ ha))
            (fun a y hy => hnb a y (by rw [← dfsF_nbrs st.n i st a]; exact hy)),
          dfsF_out st.n i st x
            (fun h => htodo i (List.mem_cons_self _ _) h.symm) hnb]
      · rw [if_neg hc, ih _ _ (fun a ha => htodo a (List.mem_cons_of_mem _ ha)) hnb]

theorem resetVisited_out (st : Day) {x : Nat} (hx : x ∉ st.order) :
    (resetVisited st).f x = st.f x := by
  rw [resetVisited_f, if_neg hx]

/-- `calculateMaxDepth` leaves a block that is outside the arrangement and
not anyone's neighbor completely untouched. -/
theorem calculateMaxDepth_out (st : Day) (x : Nat) (hx : x ∉ st.order)
    (hnb : ∀ a, ∀ y ∈ (st.f a).neighbors, y ≠ x) :
    (calculateMaxDepth st).f x = st.f x := by
  have hordA : (sortByDepthDesc st).order.Perm st.order := sortByDepthDesc_perm st
  have hxa : ∀ i ∈ (sortByDepthDesc st).order, i ≠ x := by
    intro i hi h
    exact hx (hordA.mem_iff.1 (h ▸ hi))
  have hB := pass1Fold_out (sortByDepthDesc st).order (sortByDepthDesc st) x hxa hnb
  set stB := (sortByDepthDesc st).order.foldl
    (fun s i => if (s.f i).visited then s else dfs1 s.n i ((s.f i).depth + 1) s)
    (sortByDepthDesc st) with hstB
  have hnbB : ∀ a, ∀ y ∈ (stB.f a).neighbors, y ≠ x := by
    intro a y hy
    refine hnb a y ?_
    rw [hstB] at hy
    have : ∀ (todo : List Nat) (s0 : Day) (a : Nat),
        ((todo.foldl
          (fun s i => if (s.f i).visited then s else dfs1 s.n i ((s.f i).depth + 1) s)
          s0).f a).neighbors = (s0.f a).neighbors := by
      intro todo
      induction todo with
      | nil => intro s0 a; rfl
      | cons i todo' ih =>
          intro s0 a
          rw [List.foldl_cons, ih]
          by_cases hv : (s0.f i).visited
          · rw [if_pos hv]
          · rw [if_neg hv]
            exact dfs1_nbrs s0.n i ((s0.f i).depth + 1) s0 a
    rw [this] at hy
    exact hy
  have hordB : stB.order = (sortByDepthDesc st).order := by
    rw [hstB]
    have : ∀ (todo : List Nat) (s0 : Day),
        (todo.foldl
          (fun s i => if (s.f i).visited then s else dfs1 s.n i ((s.f i).depth + 1) s)
          s0).order = s0.order := by
      intro todo
      induction todo with
      | nil => intro s0; rfl
      | cons i todo' ih =>
          intro s0
          rw [List.foldl_cons, ih]
          by_cases hv : (s0.f i).visited
          · rw [if_pos hv]
          · rw [if_neg hv]
            have : ∀ fuel s m t, (dfs1 fuel s m t : Day).order = t.order := by
              intro fuel
              induction fuel with
              | zero => intro s m t; rfl
              | succ fuel ihf =>
                  intro s m t
                  rw [dfs1]
                  have hl : ∀ (js : List Nat) (t' : Day),
                      (dfs1List (dfs1 fuel) s m js t').order = t'.order := by
                    intro js
                    induction js with
                    | nil => intro t'; rfl
                    | cons j js' ihj =>
                        intro t'
                        rw [dfs1List, ihj]
                        split
                        · exact ihf j m t'
                        · rfl
                  exact hl _ _
            exact this _ _ _ _
    exact this _ _
  have hxB : x ∉ stB.order := by
    rw [hordB]
    intro h
    exact hx (hordA.mem_iff.1 h)
  have hC := resetVisited_out stB hxB
  have hnbC : ∀ a, ∀ y ∈ ((resetVisited stB).f a).neighbors, y ≠ x := by
    intro a y hy
    refine hnbB a y ?_
    rw [resetVisited_f] at hy
    revert hy
    split
    · intro hy; exact hy
    · intro hy; exact hy
  have hordC : (resetVisited stB).order = stB.order := resetVisited_order stB
  have hxC : ∀ i ∈ (resetVisited stB).order, i ≠ x := by
    intro i hi h
    rw [hordC] at hi
    exact hxB (h ▸ hi)
  have h2 := pass2Fold_out (resetVisited stB).order (resetVisited stB) x hxC hnbC
  calc (calculateMaxDepth st).f x
      = ((resetVisited stB).f x) := h2
    _ = stB.f x := hC
    _ = st.f x := hB.trans (rfl)

theorem bfsScanFold_out {x : Nat} : ∀ (js : List Nat) (sc : Day × List Nat),
    (∀ j ∈ js, j ≠ x) → ((js.foldl bfsScan sc).1).f x = sc.1.f x := by
  intro js
  induction js with
  | nil => intro sc _; rfl
  | cons j js' ih =>
      intro sc h
      have hstep : ((bfsScan sc j).1).f x = sc.1.f x := by
        rw [bfsScan]
        split
        · dsimp only
          exact Day.upd_f_other sc.1 _ (h j (List.mem_cons_self _ _)).symm
        · rfl
      rw [List.foldl_cons, ih _ (fun a ha => h a (List.mem_cons_of_mem _ ha)), hstep]

theorem bfsRun_out {x : Nat} : ∀ (fuel : Nat) (st : Day) (comp : List Nat) (q : Nat),
    (∀ a, ∀ y ∈ (st.f a).neighbors, y ≠ x) →
    ((bfsRun fuel st comp q).1).f x = st.f x := by
  intro fuel
  induction fuel with
  | zero => intro st comp q _; rfl
  | succ fuel ih =>
      intro st comp q hnb
      rw [bfsRun]
      split
      · rfl
      · case h_2 node rest heq =>
          have h1 : ((((st.f node).neighbors).foldl bfsScan (st, comp)).1).f x = st.f x :=
            bfsScanFold_out _ _ (fun j hj => hnb node j hj)
          have hvo := bfsScan_fold_vo ((st.f node).neighbors) (st, comp)
          have hnb' : ∀ a, ∀ y ∈
              (((((st.f node).neighbors).foldl bfsScan (st, comp)).1).f a).neighbors,
              y ≠ x := by
            intro a y hy
            rw [voFrame_nbrs (hvo.2.2 a)] at hy
            exact hnb a y hy
          rw [ih _ _ _ hnb', h1]

theorem bfsFrom_out {x : Nat} (st : Day) (start : Nat) (hxs : x ≠ start)
    (hnb : ∀ a, ∀ y ∈ (st.f a).neighbors, y ≠ x) :
    (bfsFrom st start).f x = st.f x := by
  unfold bfsFrom
  have hnb' : ∀ a, ∀ y ∈
      ((st.upd start (fun b => { b with visited := true })).f a).neighbors, y ≠ x := by
    intro a y hy
    rw [Day.upd_f] at hy
    revert hy
    split
    · intro hy; exact hnb a y hy
    · intro hy; exact hnb a y hy
  rw [bfsRun_out _ _ _ _ hnb', Day.upd_f_other st _ hxs]

theorem bfsAllFold_out {x : Nat} : ∀ (l : List Nat) (st : Day),
    (∀ i ∈ l, i ≠ x) → (∀ a, ∀ y ∈ (st.f a).neighbors, y ≠ x) →
    ((l.foldl
      (fun s i => if ¬(s.f i).visited ∧ ¬(s.f i).isFixed then bfsFrom s i else s)
      st).f x) = st.f x := by
  intro l
  induction l with
  | nil => intro st _ _; rfl
  | cons i l' ih =>
      intro st hl hnb
      rw [List.foldl_cons]
      by_cases hc : ¬(st.f i).visited ∧ ¬(st.f i).isFixed
      · have hnb' : ∀ a, ∀ y ∈ ((bfsFrom st i).f a).neighbors, y ≠ x := by
          intro a y hy
          rw [voFrame_nbrs ((bfsFrom_vo st i).2.2 a)] at hy
          exact hnb a y hy
        rw [if_pos hc, ih _ (fun a ha => hl a (List.mem_cons_of_mem _ ha)) hnb',
          bfsFrom_out st i (hl i (List.mem_cons_self _ _)).symm hnb]
      · rw [if_neg hc, ih _ (fun a ha => hl a (List.mem_cons_of_mem _ ha)) hnb]

theorem bfsAll_out {x : Nat} (st : Day) (hx : ∀ i ∈ st.order, i ≠ x)
    (hnb : ∀ a, ∀ y ∈ (st.f a).neighbors, y ≠ x) : (bfsAll st).f x = st.f x :=
  bfsAllFold_out st.order st hx hnb

/-! ## Unconditional depth-only frame of the heap scheduler -/

theorem dframe_comp {a b c : SB} (h1 : b = { a with depth := b.depth })
    (h2 : c = { b with depth := c.depth }) : c = { a with depth := c.depth } := by
  rw [h2, h1]

theorem sched2Step_dframe (acc : Day × List Nat × Nat) (bid x : Nat) :
    ((sched2Step acc bid).1).f x = { acc.1.f x with depth := (((sched2Step acc bid).1).f x).depth } := by
  obtain ⟨st, q, rooms⟩ := acc
  cases q with
  | nil => rfl
  | cons p qrest =>
      rw [sched2Step]
      dsimp only
      split <;> dsimp only <;> rw [Day.upd_f] <;> split <;> rfl

theorem sched2_fold_dframe : ∀ (todo : List Nat) (acc : Day × List Nat × Nat) (x : Nat),
    ((todo.foldl sched2Step acc).1).f x = { acc.1.f x with depth := (((todo.foldl sched2Step acc).1).f x).depth } := by
  intro todo
  induction todo with
  | nil => intro acc x; rfl
  | cons bid todo' ih =>
      intro acc x
      rw [List.foldl_cons]
      exact dframe_comp (sched2Step_dframe acc bid x) (ih (sched2Step acc bid) x)

theorem intervalScheduling2_parts (st : Day) (b0 : Nat) (rest : List Nat)
    (hord : (sortByStart st).order = b0 :: rest) :
    intervalScheduling2 st =
      ((rest.foldl sched2Step (sortByStart st, [b0], 0)).2.2 + 1,
        (rest.foldl sched2Step (sortByStart st, [b0], 0)).1) := by
  rw [intervalScheduling2]
  dsimp only
  rw [hord]

/-! ## Tie-freeness makes the sort key antisymmetric -/

theorem leStartDur_antisymm_keys {a b : SB} (h1 : leStartDur a b = true)
    (h2 : leStartDur b a = true) :
    a.startMin = b.startMin ∧ a.duration = b.duration := by
  simp only [leStartDur, Bool.or_eq_true, Bool.and_eq_true, decide_eq_true_eq,
    beq_iff_eq] at h1 h2
  constructor <;> omega

/-! ## Descending reachability only depends on depths and adjacency -/

theorem Reach1_mono {sX sY : Day}
    (hd : ∀ x, (sX.f x).depth = (sY.f x).depth)
    (hm : ∀ x y, y ∈ (sX.f x).neighbors → y ∈ (sY.f x).neighbors) {r x : Nat} :
    Reach1 sX r x → Reach1 sY r x := by
  intro h
  refine Relation.ReflTransGen.mono ?_ h
  intro a b hab
  exact ⟨hm a b hab.1, by rw [← hd a, ← hd b]; exact hab.2⟩

theorem leStartDur_congr {a a' b b' : SB}
    (ha1 : a.startMin = a'.startMin) (ha2 : a.endMin = a'.endMin)
    (hb1 : b.startMin = b'.startMin) (hb2 : b.endMin = b'.endMin) :
    leStartDur a b = leStartDur a' b' := by
  simp [leStartDur, SB.duration, ha1, ha2, hb1, hb2]

/-- The computed `pathDepth` values only depend on the depths and the
adjacency (not on the arrangement order): two well-formed inputs with equal
depths and equal conflict adjacency get equal `pathDepth` on every block. -/
theorem calculateMaxDepth_pd_congr (X Y : Day) (hn : Y.n = X.n)
    (hvisX : ∀ x, ¬(X.f x).visited) (hpermX : X.order.Perm (List.range X.n))
    (hnbrX : ∀ x, ∀ y ∈ (X.f x).neighbors, y < X.n)
    (hvisY : ∀ x, ¬(Y.f x).visited) (hpermY : Y.order.Perm (List.range Y.n))
    (hnbrY : ∀ x, ∀ y ∈ (Y.f x).neighbors, y < Y.n)
    (hd : ∀ x, (X.f x).depth = (Y.f x).depth)
    (hm : ∀ x y, y ∈ (X.f x).neighbors ↔ y ∈ (Y.f x).neighbors) :
    ∀ i < X.n, ((calculateMaxDepth X).f i).pathDepth =
      ((calculateMaxDepth Y).f i).pathDepth := by
  obtain ⟨-, -, -, -, -, h6X, h7X, -⟩ := calculateMaxDepth_spec X hvisX hpermX hnbrX
  obtain ⟨-, -, -, -, -, h6Y, h7Y, -⟩ := calculateMaxDepth_spec Y hvisY hpermY hnbrY
  intro i hi
  obtain ⟨rX, hrX, hreX, heqX⟩ := h6X i hi
  obtain ⟨rY, hrY, hreY, heqY⟩ := h6Y i (by omega)
  have hXY : Reach1 Y rX i := Reach1_mono hd (fun a b hb => (hm a b).1 hb) hreX
  have hYX : Reach1 X rY i := Reach1_mono (fun x => (hd x).symm)
    (fun a b hb => (hm a b).2 hb) hreY
  have h1 : (Y.f rX).depth + 1 ≤ ((calculateMaxDepth Y).f i).pathDepth :=
    h7Y rX (by omega) i hXY
  have h2 : (X.f rY).depth + 1 ≤ ((calculateMaxDepth X).f i).pathDepth :=
    h7X rY (by omega) i hYX
  rw [heqX, heqY]
  rw [heqY, ← hd rX] at h1
  rw [heqX, hd rY] at h2
  omega

/-- The stages of `computeDay` up to the scheduler, for an arbitrary entry
state (column count and scheduled store). -/
def schedStage (st : Day) : Nat × Day :=
  intervalScheduling2 (constructAdjList (setIdx st))

set_option maxHeartbeats 2000000 in
/-- Field-level description of `computeDay`'s output in terms of its
scheduler stage, provided the scheduled store is well-formed: depths, time
ranges and adjacency pass through; blocks outside the range are untouched;
and the final `left`/`width` follow the branch taken. -/
theorem computeDay_fields (st : Day)
    (hvis : ∀ x, ¬((schedStage st).2.f x).visited)
    (hperm : (schedStage st).2.order.Perm (List.range (schedStage st).2.n))
    (hnbr : ∀ x, ∀ y ∈ ((schedStage st).2.f x).neighbors, y < (schedStage st).2.n) :
    (∀ x, ((computeDay st).f x).depth = ((schedStage st).2.f x).depth) ∧
    (∀ x, ((computeDay st).f x).startMin = ((schedStage st).2.f x).startMin ∧
      ((computeDay st).f x).endMin = ((schedStage st).2.f x).endMin) ∧
    (∀ x, ((computeDay st).f x).neighbors = ((schedStage st).2.f x).neighbors) ∧
    (computeDay st).order.Perm (List.range (schedStage st).2.n) ∧
    (∀ x, x ∉ List.range (schedStage st).2.n →
      (computeDay st).f x = (schedStage st).2.f x) ∧
    ((schedStage st).1 ≤ 1 → ∀ i < (schedStage st).2.n,
      ((computeDay st).f i).left = 0 ∧ ((computeDay st).f i).width = 1) ∧
    (¬(schedStage st).1 ≤ 1 → ∀ i < (schedStage st).2.n,
      ((computeDay st).f i).pathDepth =
        ((calculateMaxDepth (schedStage st).2).f i).pathDepth ∧
      ((computeDay st).f i).left = (((schedStage st).2.f i).depth : Rat) /
        (((calculateMaxDepth (schedStage st).2).f i).pathDepth : Rat) ∧
      ((computeDay st).f i).width =
        1 / (((calculateMaxDepth (schedStage st).2).f i).pathDepth : Rat)) := by
  set S := (schedStage st).2 with hSdef
  set c := (schedStage st).1 with hcdef
  have hndS : S.order.Nodup := hperm.symm.nodup (List.nodup_range _)
  have hmemS : ∀ i < S.n, i ∈ S.order :=
    fun i hi => hperm.mem_iff.2 (List.mem_range.2 hi)
  have hCD : computeDay st = if c ≤ 1 then setLW1 S
      else bfsAll (resetVisited (setLW (calculateMaxDepth S))) := rfl
  by_cases hbr : c ≤ 1
  · rw [hCD, if_pos hbr]
    have hW1d : ∀ x, ((setLW1 S).f x).depth = (S.f x).depth := fun x =>
      foldUpd_proj (fun i => i) (fun _ b => { b with left := 0, width := 1 })
        SB.depth (fun _ _ => rfl) S.order S x
    have hW1s : ∀ x, ((setLW1 S).f x).startMin = (S.f x).startMin := fun x =>
      foldUpd_proj (fun i => i) (fun _ b => { b with left := 0, width := 1 })
        SB.startMin (fun _ _ => rfl) S.order S x
    have hW1e : ∀ x, ((setLW1 S).f x).endMin = (S.f x).endMin := fun x =>
      foldUpd_proj (fun i => i) (fun _ b => { b with left := 0, width := 1 })
        SB.endMin (fun _ _ => rfl) S.order S x
    have hW1nb : ∀ x, ((setLW1 S).f x).neighbors = (S.f x).neighbors := fun x =>
      foldUpd_proj (fun i => i) (fun _ b => { b with left := 0, width := 1 })
        SB.neighbors (fun _ _ => rfl) S.order S x
    refine ⟨hW1d, fun x => ⟨hW1s x, hW1e x⟩, hW1nb, ?_, ?_, ?_, fun h => absurd hbr h⟩
    · rw [setLW1_order]
      exact hperm
    · intro x hx
      exact setLW1_f_not_mem S (fun hmem => hx (hperm.mem_iff.1 hmem))
    · intro _ i hi
      rw [setLW1_f_mem S hndS (hmemS i hi)]
      exact ⟨rfl, rfl⟩
  · rw [hCD, if_neg hbr]
    obtain ⟨hMn, hMperm, hMfield, -, -, -, -, -⟩ :=
      calculateMaxDepth_spec S hvis hperm hnbr
    set stM := calculateMaxDepth S with hstM
    have hMd : ∀ x, (stM.f x).depth = (S.f x).depth := fun x => (hMfield x).2.2.1
    have hMs : ∀ x, (stM.f x).startMin = (S.f x).startMin := fun x => (hMfield x).1
    have hMe : ∀ x, (stM.f x).endMin = (S.f x).endMin := fun x => (hMfield x).2.1
    have hMnb : ∀ x, (stM.f x).neighbors = (S.f x).neighbors :=
      fun x => (hMfield x).2.2.2.2.2.2
    set stL := setLW stM with hstL
    have hLd : ∀ x, (stL.f x).depth = (stM.f x).depth := fun x =>
      foldUpd_proj (fun i => i)
        (fun _ b => { b with left := (b.depth : Rat) / (b.pathDepth : Rat),
                             width := 1 / (b.pathDepth : Rat) })
        SB.depth (fun _ _ => rfl) stM.order stM x
    have hLpd : ∀ x, (stL.f x).pathDepth = (stM.f x).pathDepth := fun x =>
      foldUpd_proj (fun i => i)
        (fun _ b => { b with left := (b.depth : Rat) / (b.pathDepth : Rat),
                             width := 1 / (b.pathDepth : Rat) })
        SB.pathDepth (fun _ _ => rfl) stM.order stM x
    have hLs : ∀ x, (stL.f x).startMin = (stM.f x).startMin := fun x =>
      foldUpd_proj (fun i => i)
        (fun _ b => { b with left := (b.depth : Rat) / (b.pathDepth : Rat),
                             width := 1 / (b.pathDepth : Rat) })
        SB.startMin (fun _ _ => rfl) stM.order stM x
    have hLe : ∀ x, (stL.f x).endMin = (stM.f x).endMin := fun x =>
      foldUpd_proj (fun i => i)
        (fun _ b => { b with left := (b.depth : Rat) / (b.pathDepth : Rat),
                             width := 1 / (b.pathDepth : Rat) })
        SB.endMin (fun _ _ => rfl) stM.order stM x
    have hLnb : ∀ x, (stL.f x).neighbors = (stM.f x).neighbors := fun x =>
      foldUpd_proj (fun i => i)
        (fun _ b => { b with left := (b.depth : Rat) / (b.pathDepth : Rat),
                             width := 1 / (b.pathDepth : Rat) })
        SB.neighbors (fun _ _ => rfl) stM.order stM x
    have hndM : stM.order.Nodup := hMperm.symm.nodup (List.nodup_range _)
    have hmemM : ∀ i < S.n, i ∈ stM.order :=
      fun i hi => hMperm.mem_iff.2 (List.mem_range.2 hi)
    have hVO : VO stL (bfsAll (resetVisited stL)) :=
      (resetVisited_vo stL).trans (bfsAll_vo _)
    refine ⟨?_, ?_, ?_, ?_, ?_, fun h => absurd h hbr, ?_⟩
    · exact fun x => (voFrame_depth (hVO.2.2 x)).trans ((hLd x).trans (hMd x))
    · exact fun x => ⟨(voFrame_startMin (hVO.2.2 x)).trans ((hLs x).trans (hMs x)),
        (voFrame_endMin (hVO.2.2 x)).trans ((hLe x).trans (hMe x))⟩
    · exact fun x => (voFrame_nbrs (hVO.2.2 x)).trans ((hLnb x).trans (hMnb x))
    · rw [hVO.2.1, hstL, setLW_order]
      exact hMperm
    · intro x hx
      have hxn : ∀ y, y < S.n → y ≠ x := fun y hy he => hx (he ▸ List.mem_range.2 hy)
      have hSnbx : ∀ a, ∀ y ∈ (S.f a).neighbors, y ≠ x :=
        fun a y hy => hxn y (hnbr a y hy)
      have hxo : x ∉ S.order := fun hmem => hx (hperm.mem_iff.1 hmem)
      have hMout : stM.f x = S.f x := calculateMaxDepth_out S x hxo hSnbx
      have hxoM : x ∉ stM.order := fun hmem => hx (hMperm.mem_iff.1 hmem)
      have hLout : stL.f x = stM.f x := by
        rw [hstL]
        exact setLW_f_not_mem stM hxoM
      have hxoL : x ∉ stL.order := by
        rw [hstL, setLW_order]
        exact hxoM
      have hRout : (resetVisited stL).f x = stL.f x := resetVisited_out stL hxoL
      have hnbRS : ∀ a, ((resetVisited stL).f a).neighbors = (S.f a).neighbors := by
        intro a
        rw [resetVisited_f]
        split
        · show (stL.f a).neighbors = (S.f a).neighbors
          rw [hLnb, hMnb]
        · rw [hLnb, hMnb]
      have hBout : (bfsAll (resetVisited stL)).f x = (resetVisited stL).f x := by
        refine bfsAll_out _ ?_ ?_
        · intro i hi he
          rw [resetVisited_order, hstL, setLW_order] at hi
          exact hx (hMperm.mem_iff.1 (he ▸ hi))
        · intro a y hy
          rw [hnbRS a] at hy
          exact hSnbx a y hy
      rw [hBout, hRout, hLout, hMout]
    · intro _ i hi
      refine ⟨(voFrame_pd (hVO.2.2 i)).trans (hLpd i), ?_, ?_⟩
      · rw [voFrame_left (hVO.2.2 i), hstL, setLW_f_mem stM hndM (hmemM i hi), hMd i]
      · rw [voFrame_width (hVO.2.2 i), hstL, setLW_f_mem stM hndM (hmemM i hi)]

/-- The `setIdx` + `constructAdjList` prefix: sizes and arrangement are kept,
every field except `idx` and `neighbors` passes through, and the neighbor
lists grow by exactly the conflict pairs of the arrangement. -/
theorem adjStage_fields (st : Day) :
    (constructAdjList (setIdx st)).n = st.n ∧
    (constructAdjList (setIdx st)).order = st.order ∧
    (∀ x, ((constructAdjList (setIdx st)).f x).startMin = (st.f x).startMin ∧
      ((constructAdjList (setIdx st)).f x).endMin = (st.f x).endMin ∧
      ((constructAdjList (setIdx st)).f x).depth = (st.f x).depth ∧
      ((constructAdjList (setIdx st)).f x).visited = (st.f x).visited ∧
      ((constructAdjList (setIdx st)).f x).isFixed = (st.f x).isFixed) ∧
    (st.order.Nodup → ∀ i j,
      (j ∈ ((constructAdjList (setIdx st)).f i).neighbors ↔
        (j ∈ (st.f i).neighbors ∨ (i ∈ st.order ∧ j ∈ st.order ∧ j ≠ i ∧
          (st.f i).conflict (st.f j) = true)))) := by
  have hIf := setIdx_f st
  have hIs : ∀ x, ((setIdx st).f x).startMin = (st.f x).startMin :=
    fun x => by rw [hIf x]
  have hIe : ∀ x, ((setIdx st).f x).endMin = (st.f x).endMin :=
    fun x => by rw [hIf x]
  have hId : ∀ x, ((setIdx st).f x).depth = (st.f x).depth :=
    fun x => by rw [hIf x]
  have hIv : ∀ x, ((setIdx st).f x).visited = (st.f x).visited :=
    fun x => by rw [hIf x]
  have hIfx : ∀ x, ((setIdx st).f x).isFixed = (st.f x).isFixed :=
    fun x => by rw [hIf x]
  have hInb : ∀ x, ((setIdx st).f x).neighbors = (st.f x).neighbors :=
    fun x => by rw [hIf x]
  have h1er : ∀ x, eraseNb ((constructAdjList (setIdx st)).f x) =
      eraseNb ((setIdx st).f x) := fun x => eraseNb_adjOuter _ _ x
  refine ⟨?_, ?_, ?_, ?_⟩
  · show (adjOuter _ _).n = st.n
    rw [adjOuter_n, setIdx_n]
  · show (adjOuter _ _).order = st.order
    rw [adjOuter_order, setIdx_order]
  · intro x
    exact ⟨(eraseNb_startMin (h1er x)).trans (hIs x),
      (eraseNb_endMin (h1er x)).trans (hIe x),
      (eraseNb_depth (h1er x)).trans (hId x),
      (eraseNb_visited (h1er x)).trans (hIv x),
      (eraseNb_isFixed (h1er x)).trans (hIfx x)⟩
  · intro hnd i j
    have hndI : (setIdx st).order.Nodup := by
      rw [setIdx_order]
      exact hnd
    rw [constructAdjList_mem (setIdx st) hndI i j, hInb i, setIdx_order]
    have hc : ((setIdx st).f i).conflict ((setIdx st).f j) =
        (st.f i).conflict (st.f j) := by
      simp [SB.conflict, hIs, hIe]
    rw [hc]

/-- The scheduler stage keeps sizes, permutes the arrangement, and only
writes `depth`. -/
theorem schedStage_frame (st : Day) :
    (schedStage st).2.n = st.n ∧
    (schedStage st).2.order.Perm st.order ∧
    (∀ x, (schedStage st).2.f x = { (constructAdjList (setIdx st)).f x with depth := ((schedStage st).2.f x).depth }) := by
  obtain ⟨han, haord, -, -⟩ := adjStage_fields st
  cases hord : (sortByStart (constructAdjList (setIdx st))).order with
  | nil =>
      have hps : (schedStage st).2 = sortByStart (constructAdjList (setIdx st)) := by
        show (intervalScheduling2 _).2 = _
        rw [intervalScheduling2]
        dsimp only
        rw [hord]
      rw [hps]
      refine ⟨han, ?_, fun x => rfl⟩
      exact (sortByStart_perm _).trans (by rw [haord])
  | cons b0 rest =>
      have hps := intervalScheduling2_parts (constructAdjList (setIdx st)) b0 rest hord
      have hps2 : (schedStage st).2 =
          (rest.foldl sched2Step
            (sortByStart (constructAdjList (setIdx st)), [b0], 0)).1 :=
        congrArg Prod.snd hps
      rw [hps2]
      refine ⟨(sched2_foldl_n rest _).trans han, ?_, fun x => sched2_fold_dframe rest _ x⟩
      rw [sched2_foldl_order rest _]
      show (sortByStart _).order.Perm st.order
      exact (sortByStart_perm _).trans (by rw [haord])

theorem dfs1List_n (rec : Nat → Nat → Day → Day)
    (hrec : ∀ j m t, (rec j m t).n = t.n) (s m : Nat) :
    ∀ (js : List Nat) (st : Day), (dfs1List rec s m js st).n = st.n := by
  intro js
  induction js with
  | nil => intro st; rfl
  | cons j js' ih =>
      intro st
      rw [dfs1List, ih]
      split
      · exact hrec j m st
      · rfl

theorem dfs1_n : ∀ (fuel s m : Nat) (st : Day), (dfs1 fuel s m st).n = st.n := by
  intro fuel
  induction fuel with
  | zero => intro s m st; rfl
  | succ fuel ih =>
      intro s m st
      rw [dfs1]
      exact (dfs1List_n (dfs1 fuel) ih s m _ _).trans rfl

theorem dfsFList_n (rec : Nat → Day → Bool × Day)
    (hrec : ∀ j t, ((rec j t).2).n = t.n) (s : Nat) :
    ∀ (js : List Nat) (flag : Bool) (st : Day),
      ((dfsFList rec s js flag st).2).n = st.n := by
  intro js
  induction js with
  | nil => intro flag st; rfl
  | cons j js' ih =>
      intro flag st
      rw [dfsFList]
      by_cases hv : (st.f j).visited
      · rw [if_pos hv, ih]
      · rw [if_neg hv]
        by_cases hsp : (st.f s).depth = (st.f j).depth + 1 ∧
            (st.f s).pathDepth = (st.f j).pathDepth
        · rw [if_pos hsp, ih]
          exact hrec j st
        · rw [if_neg hsp, ih]

theorem dfsF_n : ∀ (fuel s : Nat) (st : Day), ((dfsF fuel s st).2).n = st.n := by
  intro fuel
  induction fuel with
  | zero => intro s st; rfl
  | succ fuel ih =>
      intro s st
      rw [dfsF]
      by_cases hd : ((st.upd s (fun b => { b with visited := true })).f s).depth = 0
      · rw [if_pos hd]
        rfl
      · rw [if_neg hd]
        exact (dfsFList_n (dfsF fuel) ih s _ _ _).trans rfl

theorem calculateMaxDepth_n (st : Day) : (calculateMaxDepth st).n = st.n := by
  have h1 : ∀ (todo : List Nat) (s0 : Day),
      (todo.foldl
        (fun s i => if (s.f i).visited then s else dfs1 s.n i ((s.f i).depth + 1) s)
        s0).n = s0.n := by
    intro todo
    induction todo with
    | nil => intro s0; rfl
    | cons i todo' ih =>
        intro s0
        rw [List.foldl_cons, ih]
        split
        · rfl
        · exact dfs1_n _ _ _ _
  have h2 : ∀ (todo : List Nat) (s0 : Day),
      (todo.foldl
        (fun s i =>
          if ¬(s.f i).visited ∧
              ((s.f i).neighbors.all fun v => (s.f v).depth < (s.f i).depth)
          then (dfsF s.n i s).2 else s)
        s0).n = s0.n := by
    intro todo
    induction todo with
    | nil => intro s0; rfl
    | cons i todo' ih =>
        intro s0
        rw [List.foldl_cons, ih]
        split
        · exact dfsF_n _ _ _
        · rfl
  show (List.foldl _ (resetVisited _) (resetVisited _).order).n = st.n
  rw [h2, resetVisited_n, h1]
  rfl

theorem computeDay_n (st : Day) : (computeDay st).n = st.n := by
  have hCD : computeDay st = if (schedStage st).1 ≤ 1 then setLW1 (schedStage st).2
      else bfsAll (resetVisited (setLW (calculateMaxDepth (schedStage st).2))) := rfl
  obtain ⟨hn, -, -⟩ := schedStage_frame st
  rw [hCD]
  split
  · rw [setLW1_n]
    exact hn
  · rw [(bfsAll_vo _).1, resetVisited_n, setLW_n, calculateMaxDepth_n]
    exact hn

set_option maxHeartbeats 2000000 in
/-- C5 (amended): when no two blocks share the same `(startMin, duration)`
sort key, running the weekday layout twice on an unchanged block set — with
`visited` reset in between — reproduces the same `depth`, `left` and `width`
on every block. -/
theorem C5_idempotent (l : List (Int × Int)) (hwf : ∀ p ∈ l, p.1 < p.2)
    (hties : ∀ i < l.length, ∀ j < l.length, i ≠ j →
      ¬(((mkDay l).f i).startMin = ((mkDay l).f j).startMin ∧
        ((mkDay l).f i).duration = ((mkDay l).f j).duration)) :
    ∀ i < l.length,
      ((computeDay (resetVisited (computeDay (mkDay l)))).f i).depth =
        ((computeDay (mkDay l)).f i).depth ∧
      ((computeDay (resetVisited (computeDay (mkDay l)))).f i).left =
        ((computeDay (mkDay l)).f i).left ∧
      ((computeDay (resetVisited (computeDay (mkDay l)))).f i).width =
        ((computeDay (mkDay l)).f i).width := by
  set n := l.length with hn
  obtain ⟨hA1n, hA1ord, hA1f, hA1mem⟩ := adjStage_fields (mkDay l)
  obtain ⟨hS1n, hS1perm, hS1frame⟩ := schedStage_frame (mkDay l)
  set X := (schedStage (mkDay l)).2 with hXdef
  have hXn : X.n = n := hS1n
  have hnd0 : (mkDay l).order.Nodup := by
    rw [mkDay_order]
    exact List.nodup_range _
  have hXnb : ∀ x, (X.f x).neighbors =
      ((constructAdjList (setIdx (mkDay l))).f x).neighbors :=
    fun x => depthFrame_nbrs (hS1frame x)
  have hXmem : ∀ i j, j ∈ (X.f i).neighbors ↔
      (i < n ∧ j < n ∧ j ≠ i ∧ ((mkDay l).f i).conflict ((mkDay l).f j) = true) := by
    intro i j
    rw [hXnb i, hA1mem hnd0 i j]
    constructor
    · rintro (h | ⟨hi, hj, hne, hc⟩)
      · rw [mkDay_nb0 l i] at h
        cases h
      · rw [mkDay_order, List.mem_range] at hi hj
        exact ⟨hi, hj, hne, hc⟩
    · rintro ⟨hi, hj, hne, hc⟩
      refine Or.inr ⟨?_, ?_, hne, hc⟩
      · rw [mkDay_order]
        exact List.mem_range.2 hi
      · rw [mkDay_order]
        exact List.mem_range.2 hj
  have hXkeys : ∀ x, (X.f x).startMin = ((mkDay l).f x).startMin ∧
      (X.f x).endMin = ((mkDay l).f x).endMin := fun x =>
    ⟨(depthFrame_startMin (hS1frame x)).trans (hA1f x).1,
     (depthFrame_endMin (hS1frame x)).trans (hA1f x).2.1⟩
  have hXvis : ∀ x, ¬(X.f x).visited := by
    intro x hv
    rw [depthFrame_vis (hS1frame x), (hA1f x).2.2.2.1] at hv
    exact mkDay_vis l x hv
  have hXperm : X.order.Perm (List.range X.n) := by
    rw [hXn]
    exact hS1perm.trans (by rw [mkDay_order])
  have hXnbr_lt : ∀ x, ∀ y ∈ (X.f x).neighbors, y < X.n := by
    intro x y hy
    rw [hXn]
    exact ((hXmem x y).1 hy).2.1
  obtain ⟨h1d, h1se, h1nb, h1perm, h1out, h1triv, h1main⟩ :=
    computeDay_fields (mkDay l) hXvis hXperm hXnbr_lt
  have hR1ord_perm : (computeDay (mkDay l)).order.Perm (List.range n) := by
    rw [← hXn]
    exact h1perm
  set E2 := resetVisited (computeDay (mkDay l)) with hE2def
  have hE2ord : E2.order = (computeDay (mkDay l)).order := resetVisited_order _
  have hE2n : E2.n = n := by
    rw [hE2def, resetVisited_n, computeDay_n]
    rfl
  have hE2f : ∀ x, E2.f x =
      if x ∈ (computeDay (mkDay l)).order then
        { (computeDay (mkDay l)).f x with visited := false }
      else (computeDay (mkDay l)).f x := fun x => resetVisited_f _ x
  have hE2vis : ∀ x, ¬(E2.f x).visited := by
    intro x hv
    rw [hE2f x] at hv
    by_cases hm : x ∈ (computeDay (mkDay l)).order
    · rw [if_pos hm] at hv
      simp at hv
    · rw [if_neg hm] at hv
      have hxr : x ∉ List.range X.n := by
        intro hr
        rw [hXn] at hr
        exact hm (hR1ord_perm.mem_iff.2 hr)
      rw [h1out x hxr] at hv
      exact hXvis x hv
  have hE2keys : ∀ x, (E2.f x).startMin = ((mkDay l).f x).startMin ∧
      (E2.f x).endMin = ((mkDay l).f x).endMin := by
    intro x
    have h1 : (E2.f x).startMin = ((computeDay (mkDay l)).f x).startMin ∧
        (E2.f x).endMin = ((computeDay (mkDay l)).f x).endMin := by
      rw [hE2f x]
      split
      · exact ⟨rfl, rfl⟩
      · exact ⟨rfl, rfl⟩
    exact ⟨h1.1.trans ((h1se x).1.trans (hXkeys x).1),
      h1.2.trans ((h1se x).2.trans (hXkeys x).2)⟩
  have hE2d : ∀ x, (E2.f x).depth = (X.f x).depth := by
    intro x
    have h1 : (E2.f x).depth = ((computeDay (mkDay l)).f x).depth := by
      rw [hE2f x]
      split
      · rfl
      · rfl
    exact h1.trans (h1d x)
  have hE2nbm : ∀ x, (E2.f x).neighbors = ((computeDay (mkDay l)).f x).neighbors := by
    intro x
    rw [hE2f x]
    split
    · rfl
    · rfl
  have hE2mem : ∀ i j, j ∈ (E2.f i).neighbors ↔
      (i < n ∧ j < n ∧ j ≠ i ∧ ((mkDay l).f i).conflict ((mkDay l).f j) = true) := by
    intro i j
    rw [hE2nbm i, h1nb i]
    exact hXmem i j
  obtain ⟨hA2n, hA2ord, hA2f, hA2mem⟩ := adjStage_fields E2
  obtain ⟨hS2n, hS2perm, hS2frame⟩ := schedStage_frame E2
  set Y := (schedStage E2).2 with hYdef
  have hE2nd : E2.order.Nodup := by
    rw [hE2ord]
    exact hR1ord_perm.symm.nodup (List.nodup_range _)
  have hYn : Y.n = n := hS2n.trans hE2n
  have hYkeys : ∀ x, (Y.f x).startMin = ((mkDay l).f x).startMin ∧
      (Y.f x).endMin = ((mkDay l).f x).endMin := fun x =>
    ⟨(depthFrame_startMin (hS2frame x)).trans ((hA2f x).1.trans (hE2keys x).1),
     (depthFrame_endMin (hS2frame x)).trans ((hA2f x).2.1.trans (hE2keys x).2)⟩
  have hYvis : ∀ x, ¬(Y.f x).visited := by
    intro x hv
    rw [depthFrame_vis (hS2frame x), (hA2f x).2.2.2.1] at hv
    exact hE2vis x hv
  have hYmem : ∀ i j, j ∈ (Y.f i).neighbors ↔
      (i < n ∧ j < n ∧ j ≠ i ∧ ((mkDay l).f i).conflict ((mkDay l).f j) = true) := by
    intro i j
    rw [depthFrame_nbrs (hS2frame i), hA2mem hE2nd i j]
    have hcE : (E2.f i).conflict (E2.f j) =
        ((mkDay l).f i).conflict ((mkDay l).f j) := by
      simp [SB.conflict, (hE2keys i).1, (hE2keys i).2, (hE2keys j).1, (hE2keys j).2]
    rw [hcE]
    constructor
    · rintro (h | ⟨hi, hj, hne, hc⟩)
      · exact (hE2mem i j).1 h
      · refine ⟨?_, ?_, hne, hc⟩
        · rw [hE2ord] at hi
          exact List.mem_range.1 (hR1ord_perm.mem_iff.1 hi)
        · rw [hE2ord] at hj
          exact List.mem_range.1 (hR1ord_perm.mem_iff.1 hj)
    · rintro ⟨hi, hj, hne, hc⟩
      exact Or.inl ((hE2mem i j).2 ⟨hi, hj, hne, hc⟩)
  have hYperm : Y.order.Perm (List.range Y.n) := by
    refine hS2perm.trans ?_
    rw [hYn, hE2ord]
    exact hR1ord_perm
  have hYnbr_lt : ∀ x, ∀ y ∈ (Y.f x).neighbors, y < Y.n := by
    intro x y hy
    rw [hYn]
    exact ((hYmem x y).1 hy).2.1
  have hXYmem : ∀ x y, y ∈ (X.f x).neighbors ↔ y ∈ (Y.f x).neighbors :=
    fun x y => (hXmem x y).trans (hYmem x y).symm
  set adj1 := constructAdjList (setIdx (mkDay l)) with hadj1
  set adj2 := constructAdjList (setIdx E2) with hadj2
  have hs1perm : (sortByStart adj1).order.Perm (List.range n) :=
    (sortByStart_perm adj1).trans (by rw [hA1ord, mkDay_order])
  have hs2perm : (sortByStart adj2).order.Perm (List.range n) :=
    (sortByStart_perm adj2).trans (by rw [hA2ord, hE2ord]; exact hR1ord_perm)
  have hadj1keys : ∀ x, (adj1.f x).startMin = ((mkDay l).f x).startMin ∧
      (adj1.f x).endMin = ((mkDay l).f x).endMin :=
    fun x => ⟨(hA1f x).1, (hA1f x).2.1⟩
  have hadj2keys : ∀ x, (adj2.f x).startMin = ((mkDay l).f x).startMin ∧
      (adj2.f x).endMin = ((mkDay l).f x).endMin :=
    fun x => ⟨(hA2f x).1.trans (hE2keys x).1, (hA2f x).2.1.trans (hE2keys x).2⟩
  have hsorted_eq : (sortByStart adj1).order = (sortByStart adj2).order := by
    refine @eq_of_perm_of_sorted_mem Nat
      (fun i j => leStartDur ((mkDay l).f i) ((mkDay l).f j) = true) _ _
      (hs1perm.trans hs2perm.symm) ?_ ?_ ?_
    · refine (sortByStart_sorted adj1).imp ?_
      intro a b hab
      rwa [leStartDur_congr (hadj1keys a).1 (hadj1keys a).2
        (hadj1keys b).1 (hadj1keys b).2] at hab
    · refine (sortByStart_sorted adj2).imp ?_
      intro a b hab
      rwa [leStartDur_congr (hadj2keys a).1 (hadj2keys a).2
        (hadj2keys b).1 (hadj2keys b).2] at hab
    · intro a ha b hb hr1 hr2
      have ha' : a < n := List.mem_range.1 (hs1perm.mem_iff.1 ha)
      have hb' : b < n := List.mem_range.1 (hs1perm.mem_iff.1 hb)
      by_contra hne
      exact hties a ha' b hb' hne (leStartDur_antisymm_keys hr1 hr2)
  cases hord1 : (sortByStart adj1).order with
  | nil =>
      have hn0 : n = 0 := by
        have hp := hs1perm
        rw [hord1] at hp
        have hlen := hp.length_eq
        simpa using hlen.symm
      intro i hi
      omega
  | cons b0 rest =>
      have hord2 : (sortByStart adj2).order = b0 :: rest := by
        rw [← hsorted_eq]
        exact hord1
      have hp1 := intervalScheduling2_parts adj1 b0 rest hord1
      have hp2 := intervalScheduling2_parts adj2 b0 rest hord2
      have hX_eq : X = (rest.foldl sched2Step (sortByStart adj1, [b0], 0)).1 :=
        congrArg Prod.snd hp1
      have hY_eq : Y = (rest.foldl sched2Step (sortByStart adj2, [b0], 0)).1 :=
        congrArg Prod.snd hp2
      have hc1_eq : (schedStage (mkDay l)).1 =
          (rest.foldl sched2Step (sortByStart adj1, [b0], 0)).2.2 + 1 :=
        congrArg Prod.fst hp1
      have hc2_eq : (schedStage E2).1 =
          (rest.foldl sched2Step (sortByStart adj2, [b0], 0)).2.2 + 1 :=
        congrArg Prod.fst hp2
      have hnd1 : (b0 :: rest).Nodup := by
        rw [← hord1]
        exact hs1perm.symm.nodup (List.nodup_range _)
      have hb0rest : b0 ∉ rest := (List.nodup_cons.1 hnd1).1
      have hXb0 : (X.f b0).depth = 0 := by
        rw [hX_eq, sched2_foldl_frame rest _ hb0rest]
        show (adj1.f b0).depth = 0
        rw [(hA1f b0).2.2.1]
        rfl
      have hq0 : ((sortByStart adj1).f b0).depth = ((sortByStart adj2).f b0).depth := by
        show (adj1.f b0).depth = (adj2.f b0).depth
        rw [(hA1f b0).2.2.1, (hA2f b0).2.2.1, hE2d b0, hXb0]
        rfl
      have hdet := sched2_det rest (sortByStart adj1) (sortByStart adj2) [b0] 0
        (fun j => ⟨(hadj1keys j).1.trans (hadj2keys j).1.symm,
          (hadj1keys j).2.trans (hadj2keys j).2.symm⟩)
        (List.nodup_cons.1 hnd1).2
        (fun x hx hmem => by
          rcases List.mem_singleton.1 hmem with rfl
          exact hb0rest hx)
        (by simp)
        (fun x hx => by
          rcases List.mem_singleton.1 hx with rfl
          exact hq0)
      obtain ⟨-, hrooms, hdepths⟩ := hdet
      have hcc : (schedStage E2).1 = (schedStage (mkDay l)).1 := by
        rw [hc1_eq, hc2_eq, hrooms]
      have hXYd : ∀ x, (X.f x).depth = (Y.f x).depth := by
        intro x
        by_cases hxr : x ∈ rest
        · rw [hX_eq, hY_eq]
          exact hdepths x hxr
        · rw [hX_eq, hY_eq, sched2_foldl_frame rest _ hxr, sched2_foldl_frame rest _ hxr]
          by_cases hxb : x = b0
          · subst hxb
            exact hq0
          · show (adj1.f x).depth = (adj2.f x).depth
            rw [(hA1f x).2.2.1, (hA2f x).2.2.1, hE2d x]
            have hXx : (X.f x).depth = ((mkDay l).f x).depth := by
              rw [hX_eq, sched2_foldl_frame rest _ hxr]
              exact (hA1f x).2.2.1
            rw [hXx]
      obtain ⟨h2d, h2se, h2nb, h2perm, h2out, h2triv, h2main⟩ :=
        computeDay_fields E2 hYvis hYperm hYnbr_lt
      by_cases hbr : (schedStage (mkDay l)).1 ≤ 1
      · intro i hi
        have hbr2 : (schedStage E2).1 ≤ 1 := by
          rw [hcc]
          exact hbr
        have hXi : i < X.n := by rw [hXn]; exact hi
        have hYi : i < Y.n := by rw [hYn]; exact hi
        obtain ⟨hl1, hw1⟩ := h1triv hbr i hXi
        obtain ⟨hl2, hw2⟩ := h2triv hbr2 i hYi
        refine ⟨?_, by rw [hl1, hl2], by rw [hw1, hw2]⟩
        rw [h1d i, h2d i]
        exact (hXYd i).symm
      · intro i hi
        have hbr2 : ¬(schedStage E2).1 ≤ 1 := by
          rw [hcc]
          exact hbr
        have hXi : i < X.n := by rw [hXn]; exact hi
        have hYi : i < Y.n := by rw [hYn]; exact hi
        obtain ⟨hpd1, hl1, hw1⟩ := h1main hbr i hXi
        obtain ⟨hpd2, hl2, hw2⟩ := h2main hbr2 i hYi
        have hpdc := calculateMaxDepth_pd_congr X Y (by rw [hXn, hYn]) hXvis hXperm
          hXnbr_lt hYvis hYperm hYnbr_lt hXYd (fun x y => hXYmem x y) i hXi
        refine ⟨?_, ?_, ?_⟩
        · rw [h1d i, h2d i]
          exact (hXYd i).symm
        · rw [hl1, hl2, hXYd i, hpdc]
        · rw [hw1, hw2, hpdc]

/-- Witness for C5's amended idempotence on the tie-free day `[0,10)`,
`[5,15)` at block `0`. -/
theorem C5_idempotent_witness :
    ((computeDay (resetVisited (computeDay (mkDay [(0, 10), (5, 15)])))).f 0).depth =
      ((computeDay (mkDay [(0, 10), (5, 15)])).f 0).depth ∧
    ((computeDay (resetVisited (computeDay (mkDay [(0, 10), (5, 15)])))).f 0).left =
      ((computeDay (mkDay [(0, 10), (5, 15)])).f 0).left ∧
    ((computeDay (resetVisited (computeDay (mkDay [(0, 10), (5, 15)])))).f 0).width =
      ((computeDay (mkDay [(0, 10), (5, 15)])).f 0).width :=
  C5_idempotent [(0, 10), (5, 15)] (by decide) (by decide) 0 (by decide)

/-- C5 counterexample to unconditional idempotence: on the tied day
`[0,10)`, `[0,10)` the first run leaves block `0` at depth `0`, but a second
run (after resetting `visited`) moves it to depth `1` — the depth-descending
re-sort of the arrangement feeds the next run's stable sort, which then puts
a depth-1 block first, and its depth is never rewritten. -/
theorem C5_idempotent_counterexample :
    ((computeDay (mkDay [(0, 10), (0, 10)])).f 0).depth = 0 ∧
    ((computeDay (resetVisited (computeDay (mkDay [(0, 10), (0, 10)])))).f 0).depth =
      1 := by decide

end UVaSched
